import Mathlib

/-!
# goProxy: the rewriting and addressing engine of `src/main.go`

A shallow embedding of the playlist rewriter, the URL token codec, the domain
matcher and its pattern cache, the handler's token decoding, the synthesis of
the upstream request headers, the allow-list of response headers and the
playlist classifier, followed by the properties proved about them.

Go strings are byte sequences, so a string is a list of bytes. The parts of
the Go standard library that the program calls are embedded in two ways:

* small, fully specified routines (`encoding/base64`, `url.QueryEscape`,
  `strings.Index`, `bufio.ScanLines`, ...) are written out as Lean functions
  that follow the library's algorithm;
* `net/url` parsing and resolution, `regexp` and the case tables of package
  `unicode` are taken as parameters (`NetURL`, `Regexp`, `caseTable`), so
  every general theorem holds for whatever these libraries compute. Small
  instances are supplied for the worked examples.
-/

namespace GoProxy

/-! ## Strings -/

/-- A Go `byte`. -/
abbrev Byte := Fin 256

/-- A Go `string`: an immutable sequence of bytes. -/
abbrev GoString := List Byte

/-- The bytes of a string literal whose characters are all ASCII. -/
def ascii (s : String) : GoString := s.toList.map (fun c => Fin.ofNat c.toNat)

/-! ## `encoding/base64`, `URLEncoding` -/

namespace base64

/-- The alphabet `encodeURL` of `base64.URLEncoding`. -/
def encodeURL : GoString :=
  ascii "ABCDEFGHIJKLMNOPQRSTUVWXYZabcdefghijklmnopqrstuvwxyz0123456789-_"

/-- The padding character `StdPadding`, an equals sign. -/
def padChar : Byte := 61

/-- The table lookup `enc.encode[i]`. -/
def encode (i : Nat) : Byte := encodeURL.getD i 0

/-- The table `enc.decodeMap`: the index of `b` in the alphabet, `0xff` for a
byte outside it. -/
def decodeMap (b : Byte) : Nat :=
  let i := encodeURL.indexOf b
  if i < 64 then i else 0xff

/-- `(*Encoding).EncodeToString`: three bytes become four characters; a
remainder of one or two bytes is padded to four characters. -/
def EncodeToString : GoString → GoString
  | [] => []
  | [a] =>
    let val := a.val <<< 16
    [encode (val >>> 18 &&& 0x3F), encode (val >>> 12 &&& 0x3F), padChar, padChar]
  | [a, b] =>
    let val := a.val <<< 16 ||| b.val <<< 8
    [encode (val >>> 18 &&& 0x3F), encode (val >>> 12 &&& 0x3F),
      encode (val >>> 6 &&& 0x3F), padChar]
  | a :: b :: c :: rest =>
    let val := a.val <<< 16 ||| b.val <<< 8 ||| c.val
    [encode (val >>> 18 &&& 0x3F), encode (val >>> 12 &&& 0x3F),
      encode (val >>> 6 &&& 0x3F), encode (val &&& 0x3F)] ++ EncodeToString rest

/-- The loops of `decodeQuantum` that skip over newlines. -/
def skipNewlines : GoString → GoString
  | [] => []
  | b :: rest => if b = 10 ∨ b = 13 then skipNewlines rest else b :: rest

/-- The conversion at the end of `decodeQuantum`: the six-bit values read so
far (`dlen` of them, the rest of `dbuf` zero) give `dlen - 1` bytes. -/
def quantumBytes (dbuf : List Nat) (dlen : Nat) : GoString :=
  let val := dbuf.getD 0 0 <<< 18 ||| dbuf.getD 1 0 <<< 12 ||| dbuf.getD 2 0 <<< 6
    ||| dbuf.getD 3 0
  ([val >>> 16, val >>> 8, val >>> 0].map (fun v => (Fin.ofNat v : Byte))).take (dlen - 1)

/-- The loop of `(*Encoding).Decode` over `decodeQuantum`, for the padded,
non-strict `URLEncoding`: `j` is the position in the current quantum and
`dbuf` the six-bit values read for it. `none` is a `CorruptInputError`. -/
def decodeLoop : GoString → Nat → List Nat → Option GoString
  | [], j, _ => if j = 0 then some [] else none
  | c :: rest, j, dbuf =>
    if decodeMap c ≠ 0xff then
      if j = 3 then
        (decodeLoop rest 0 []).map (fun out => quantumBytes (dbuf ++ [decodeMap c]) 4 ++ out)
      else decodeLoop rest (j + 1) (dbuf ++ [decodeMap c])
    else if c = 10 ∨ c = 13 then decodeLoop rest j dbuf
    else if c ≠ padChar then none
    else if j = 0 ∨ j = 1 then none
    else if j = 2 then
      match skipNewlines rest with
      | [] => none
      | p :: rest2 =>
        if p ≠ padChar then none
        else if skipNewlines rest2 ≠ [] then none
        else some (quantumBytes dbuf 2)
    else
      if skipNewlines rest ≠ [] then none else some (quantumBytes dbuf 3)

/-- `(*Encoding).DecodeString`; `none` when Go returns an error. -/
def DecodeString (s : GoString) : Option GoString := decodeLoop s 0 []

end base64


/-! ## `strings` and slice expressions -/

namespace strings

/-- `strings.HasPrefix`. -/
def HasPrefix (s pre : GoString) : Bool := pre.isPrefixOf s

/-- `strings.TrimPrefix`: `s` without the leading `pre`, or `s` itself when
it does not start with `pre`. -/
def TrimPrefix (s pre : GoString) : GoString :=
  if HasPrefix s pre then s.drop pre.length else s

/-- The search of `strings.Index`, `i` being the offset of `s` in the string
searched. -/
def indexFrom (substr : GoString) : GoString → Nat → Int
  | [], i => if substr = [] then (i : Int) else -1
  | c :: rest, i =>
    if substr.isPrefixOf (c :: rest) then (i : Int) else indexFrom substr rest (i + 1)

/-- `strings.Index`: the offset of the first instance of `substr` in `s`, or
`-1` when there is none. -/
def Index (s substr : GoString) : Int := indexFrom substr s 0

/-- `strings.Contains`, which Go defines as `Index(s, substr) >= 0`. -/
def Contains (s substr : GoString) : Bool := decide (Index s substr ≥ 0)

/-- `strings.Join`. -/
def Join : List GoString → GoString → GoString
  | [], _ => []
  | [a], _ => a
  | a :: b :: rest, sep => a ++ sep ++ Join (b :: rest) sep

/-- The table `asciiSpace` of package `strings`. -/
def asciiSpace (c : Byte) : Bool :=
  c = 9 ∨ c = 10 ∨ c = 11 ∨ c = 12 ∨ c = 13 ∨ c = 32

/-- The test `strings.TrimSpace(s) == ""`. `TrimSpace` removes leading and
trailing white space as `unicode.IsSpace` defines it on the UTF-8 decoding of
`s`, so the result is empty exactly when `s` is a sequence of encoded
white-space runes: the six ASCII ones, U+0085, U+00A0, U+1680,
U+2000 to U+200A, U+2028, U+2029, U+202F, U+205F and U+3000. -/
def TrimSpaceIsEmpty : GoString → Bool
  | [] => true
  | c :: rest =>
    if asciiSpace c then TrimSpaceIsEmpty rest
    else
      match rest with
      | d :: r =>
        if c = 0xC2 ∧ (d = 0x85 ∨ d = 0xA0) then TrimSpaceIsEmpty r
        else
          match r with
          | e :: r2 =>
            if (c = 0xE1 ∧ d = 0x9A ∧ e = 0x80)
                ∨ (c = 0xE2 ∧ d = 0x80 ∧
                    ((0x80 ≤ e.val ∧ e.val ≤ 0x8A) ∨ e = 0xA8 ∨ e = 0xA9 ∨ e = 0xAF))
                ∨ (c = 0xE2 ∧ d = 0x81 ∧ e = 0x9F)
                ∨ (c = 0xE3 ∧ d = 0x80 ∧ e = 0x80) then TrimSpaceIsEmpty r2
            else false
          | [] => false
      | [] => false

end strings

/-- The slice expression `s[lo:hi]`. Go panics at run time ("slice bounds out
of range") unless `0 ≤ lo ≤ hi ≤ len(s)`; `none` is that panic. -/
def slice (s : GoString) (lo hi : Int) : Option GoString :=
  if 0 ≤ lo ∧ lo ≤ hi ∧ hi ≤ (s.length : Int) then
    some ((s.take hi.toNat).drop lo.toNat)
  else none

/-- The slice expression `s[lo:]`. -/
def sliceFrom (s : GoString) (lo : Int) : Option GoString := slice s lo s.length

/-- The slice expression `s[:hi]`. -/
def sliceTo (s : GoString) (hi : Int) : Option GoString := slice s 0 hi

/-! ## `bufio.Scanner` with the default split function `ScanLines` -/

namespace bufio

/-- `bufio.MaxScanTokenSize`, the size the scanner's buffer may grow to. -/
def MaxScanTokenSize : Nat := 64 * 1024

/-- The `error` values a scanner over an in-memory reader can report. -/
inductive Error where
  | ErrTooLong
  deriving DecidableEq, Repr

/-- `dropCR`: one trailing carriage return is removed. -/
def dropCR (data : GoString) : GoString :=
  if data.getLast? = some 13 then data.dropLast else data

/-- The run of a `Scanner` over the bytes still unread: `cur` is the part of
the current line read so far. A line is returned when its newline is found,
or at the end of input when it is not empty; a line that does not fit in the
buffer together with its newline (`MaxScanTokenSize` bytes or more before the
newline or the end of input) stops the scanner with `ErrTooLong`. -/
def scanFrom : GoString → GoString → List GoString × Option Error
  | cur, [] =>
    if cur = [] then ([], none)
    else if MaxScanTokenSize ≤ cur.length then ([], some Error.ErrTooLong)
    else ([dropCR cur], none)
  | cur, c :: rest =>
    if c = 10 then
      if MaxScanTokenSize ≤ cur.length then ([], some Error.ErrTooLong)
      else ((dropCR cur) :: (scanFrom [] rest).1, (scanFrom [] rest).2)
    else scanFrom (cur ++ [c]) rest

/-- The values of `scanner.Text()` over the successful calls of
`scanner.Scan()` on `bufio.NewScanner(strings.NewReader(content))`, and the
final `scanner.Err()`. -/
def scanLines (content : GoString) : List GoString × Option Error := scanFrom [] content

end bufio

/-! ## `net/url`: query escaping -/

namespace url

/-- `shouldEscape(c, encodeQueryComponent)`: everything but the unreserved
characters of RFC 3986 is escaped. -/
def shouldEscape (c : Byte) : Bool :=
  if (97 ≤ c.val ∧ c.val ≤ 122) ∨ (65 ≤ c.val ∧ c.val ≤ 90) ∨ (48 ≤ c.val ∧ c.val ≤ 57) then
    false
  else if c = 45 ∨ c = 95 ∨ c = 46 ∨ c = 126 then false
  else true

/-- The digits `upperhex`. -/
def upperhex : GoString := ascii "0123456789ABCDEF"

/-- `url.QueryEscape`: a space becomes a plus sign, every other escaped byte
a percent sign and two upper-case hexadecimal digits. -/
def QueryEscape : GoString → GoString
  | [] => []
  | c :: rest =>
    if shouldEscape c then
      if c = 32 then 43 :: QueryEscape rest
      else 37 :: upperhex.getD (c.val >>> 4) 0 :: upperhex.getD (c.val &&& 15) 0
        :: QueryEscape rest
    else c :: QueryEscape rest

/-- The function `ishex`. -/
def ishex (c : Byte) : Bool :=
  (48 ≤ c.val ∧ c.val ≤ 57) ∨ (97 ≤ c.val ∧ c.val ≤ 102) ∨ (65 ≤ c.val ∧ c.val ≤ 70)

/-- The function `unhex`. -/
def unhex (c : Byte) : Nat :=
  if 48 ≤ c.val ∧ c.val ≤ 57 then c.val - 48
  else if 97 ≤ c.val ∧ c.val ≤ 102 then c.val - 97 + 10
  else if 65 ≤ c.val ∧ c.val ≤ 70 then c.val - 65 + 10
  else 0

/-- `url.QueryUnescape`, the decoding that `(*URL).Query` applies to a query
value: a plus sign becomes a space, a percent sign and two hexadecimal digits
a byte; `none` is the `EscapeError` for a percent sign without two
hexadecimal digits after it. -/
def QueryUnescape : GoString → Option GoString
  | [] => some []
  | c :: rest =>
    if c = 37 then
      match rest with
      | h :: l :: rest2 =>
        if ishex h ∧ ishex l then
          (QueryUnescape rest2).map
            (fun out => (Fin.ofNat (unhex h <<< 4 ||| unhex l) : Byte) :: out)
        else none
      | _ => none
    else if c = 43 then (QueryUnescape rest).map (fun out => (32 : Byte) :: out)
    else (QueryUnescape rest).map (fun out => c :: out)

/-- `url.PathUnescape`, the decoding applied to the path of a request
target: as `QueryUnescape`, but a plus sign stays a plus sign. -/
def PathUnescape : GoString → Option GoString
  | [] => some []
  | c :: rest =>
    if c = 37 then
      match rest with
      | h :: l :: rest2 =>
        if ishex h ∧ ishex l then
          (PathUnescape rest2).map
            (fun out => (Fin.ofNat (unhex h <<< 4 ||| unhex l) : Byte) :: out)
        else none
      | _ => none
    else (PathUnescape rest).map (fun out => c :: out)

/-- The value of `r.URL.Path` for a request whose target is `target`, a path
with an optional query: the part before the first question mark, unescaped.
`none` when the server rejects the target. -/
def requestPath (target : GoString) : Option GoString :=
  PathUnescape (target.takeWhile (fun c => decide (c ≠ 63)))

/-- `strings.Cut(s, sep)` for a separator of one byte: the text before the
first `sep` and the text after it. -/
def cut (s : GoString) (sep : Byte) : GoString × GoString :=
  (s.takeWhile (fun c => decide (c ≠ sep)), (s.dropWhile (fun c => decide (c ≠ sep))).drop 1)

/-- The loop of `parseQuery`: the pairs of `url.Values` in the order they are
appended. A pair whose key or value does not unescape, or that holds a
semicolon, is skipped. Every round shortens `query`, so its length is enough
`fuel`. -/
def parseQueryLoop : Nat → GoString → List (GoString × GoString)
  | 0, _ => []
  | fuel + 1, query =>
    if query = [] then []
    else
      let key := (cut query 38).1
      let more := parseQueryLoop fuel (cut query 38).2
      if strings.Contains key (ascii ";") then more
      else if key = [] then more
      else
        match QueryUnescape (cut key 61).1, QueryUnescape (cut key 61).2 with
        | some k, some value => (k, value) :: more
        | _, _ => more

/-- `url.ParseQuery`, without its error, which `(*URL).Query` discards. -/
def ParseQuery (query : GoString) : List (GoString × GoString) :=
  parseQueryLoop query.length query

/-- `Values.Get`: the first value of `key`, or the empty string. -/
def Get (v : List (GoString × GoString)) (key : GoString) : GoString :=
  match v.find? (fun e => decide (e.1 = key)) with
  | some e => e.2
  | none => []

/-- The value of `r.URL.RawQuery` for a request whose target is `target`: the
part after the first question mark. -/
def requestRawQuery (target : GoString) : GoString :=
  (target.dropWhile (fun c => decide (c ≠ 63))).drop 1

/-- The value of `r.URL.Query().Get("headers")` (line 295) for a request
whose target is `target`. -/
def requestHeaders (target : GoString) : GoString :=
  Get (ParseQuery (requestRawQuery target)) (ascii "headers")

end url

/-- What the program uses of `net/url`'s parsing, for a type `URL` standing
for `*url.URL`. `none` is a returned error. -/
structure NetURL (URL : Type) where
  /-- `url.Parse(rawURL)`. -/
  Parse : GoString → Option URL
  /-- `(*URL).Parse(ref)`: `ref` parsed and resolved against the receiver. -/
  ParseRef : URL → GoString → Option URL
  /-- `(*URL).String()`. -/
  String : URL → GoString
  /-- `(*URL).Hostname()`. -/
  Hostname : URL → GoString

/-- What the program uses of `regexp`, for a type `Re` standing for
`*regexp.Regexp`. -/
structure Regexp (Re : Type) where
  /-- `regexp.Compile(expr)`; `none` is a returned error. -/
  Compile : GoString → Option Re
  /-- `(*Regexp).MatchString(s)`. -/
  MatchString : Re → GoString → Bool

/-! ## The program: data model -/

/-- The struct `DomainTemplate`. -/
structure DomainTemplate where
  Patterns : List GoString
  Origin : GoString
  Referer : GoString
  SecFetchSite : GoString
  UseCacheHeaders : Bool
  deriving DecidableEq, Repr

/-- The struct `Config`; the map `DefaultHeaders` is kept as its list of
entries. -/
structure Config where
  DefaultHeaders : List (GoString × GoString)
  DomainTemplates : List DomainTemplate
  deriving DecidableEq, Repr

/-- A Go `map[string]V`, kept as a list of entries; the entry nearest the
head is the one a key is bound to. -/
abbrev GoMap (V : Type) := List (GoString × V)

/-- The two-valued index expression `v, ok := m[key]`. -/
def GoMap.get {V : Type} (m : GoMap V) (key : GoString) : Option V :=
  (m.find? (fun e => decide (e.1 = key))).map (fun e => e.2)

/-! ## The program: domain matcher -/

section Matcher

variable {URL Re : Type}

/-- The inner loop of `findMatchingTemplate` (lines 113-119) over the
patterns of one template: `true` when it reaches `return &template`. -/
def matchPatterns (re : Regexp Re) (compiledPatterns : GoMap Re) (hostname : GoString) :
    List GoString → Bool
  | [] => false
  | pattern :: rest =>
    match compiledPatterns.get pattern with
    | some r =>
      if re.MatchString r hostname then true
      else matchPatterns re compiledPatterns hostname rest
    | none => matchPatterns re compiledPatterns hostname rest

/-- The outer loop of `findMatchingTemplate` (lines 112-121). -/
def matchTemplates (re : Regexp Re) (compiledPatterns : GoMap Re) (hostname : GoString) :
    List DomainTemplate → Option DomainTemplate
  | [] => none
  | template :: rest =>
    if matchPatterns re compiledPatterns hostname template.Patterns then some template
    else matchTemplates re compiledPatterns hostname rest

/-- The function `findMatchingTemplate`, with the globals `config` and
`compiledPatterns` as arguments; `none` is the `nil` result. -/
def findMatchingTemplate (net : NetURL URL) (re : Regexp Re) (config : Config)
    (compiledPatterns : GoMap Re) (urlStr : GoString) : Option DomainTemplate :=
  match net.Parse urlStr with
  | none => none
  | some parsedURL =>
    let hostname := net.Hostname parsedURL
    matchTemplates re compiledPatterns hostname config.DomainTemplates

end Matcher

/-! ## The program: playlist rewriter -/

section Rewriter

variable {URL : Type}

/-- The token for the URL `u` and the headers blob `originalHeaders`: the
value `newURL` that `processURL` returns (lines 215-219) and the value
`newURI` that `processSpecialTag` splices in (lines 194-198, the same code). -/
def token (u originalHeaders : GoString) : GoString :=
  let encodedURL := base64.EncodeToString u
  let newURL := ascii "/anime/" ++ encodedURL
  if originalHeaders ≠ [] then newURL ++ (ascii "?headers=" ++ url.QueryEscape originalHeaders)
  else newURL

/-- The function `processSpecialTag`. `none` is a run-time panic of a slice
expression. -/
def processSpecialTag (net : NetURL URL) (line : GoString) (baseURL : URL)
    (originalHeaders : GoString) : Option GoString :=
  if strings.Contains line (ascii "URI=\"") then
    let uriStart := strings.Index line (ascii "URI=\"") + 5
    (sliceFrom line uriStart).bind fun tail =>
    let uriEnd := strings.Index tail (ascii "\"") + uriStart
    (slice line uriStart uriEnd).bind fun uri =>
    match net.ParseRef baseURL uri with
    | none => some line
    | some resolvedURL =>
      let encodedURL := base64.EncodeToString (net.String resolvedURL)
      let newURI := ascii "/anime/" ++ encodedURL
      let newURI :=
        if originalHeaders ≠ [] then newURI ++ (ascii "?headers=" ++ url.QueryEscape originalHeaders)
        else newURI
      (sliceTo line uriStart).bind fun before =>
      (sliceFrom line uriEnd).bind fun after =>
      some (before ++ newURI ++ after)
  else some line

/-- The function `processURL`. -/
def processURL (net : NetURL URL) (urlStr : GoString) (baseURL : URL)
    (originalHeaders : GoString) : GoString :=
  if urlStr = [] then urlStr
  else
    match net.ParseRef baseURL urlStr with
    | none => urlStr
    | some resolvedURL =>
      let encodedURL := base64.EncodeToString (net.String resolvedURL)
      let newURL := ascii "/anime/" ++ encodedURL
      if originalHeaders ≠ [] then newURL ++ (ascii "?headers=" ++ url.QueryEscape originalHeaders)
      else newURL

/-- The body of the scanning loop of `processM3U8Content` (lines 163-177):
the string appended to `processedLines` for one scanned line; `none` is a
panic inside `processSpecialTag`. -/
def processLine (net : NetURL URL) (line : GoString) (baseURL : URL)
    (originalHeaders : GoString) : Option GoString :=
  if strings.HasPrefix line (ascii "#") then
    if strings.HasPrefix line (ascii "#EXT-X-KEY") || strings.HasPrefix line (ascii "#EXT-X-MAP") then
      processSpecialTag net line baseURL originalHeaders
    else some line
  else if !strings.TrimSpaceIsEmpty line then
    some (processURL net line baseURL originalHeaders)
  else some line

/-- The scanning loop of `processM3U8Content` over the scanned lines, in
order: the final `processedLines`. -/
def processLines (net : NetURL URL) (baseURL : URL) (originalHeaders : GoString) :
    List GoString → Option (List GoString)
  | [] => some []
  | line :: rest =>
    (processLine net line baseURL originalHeaders).bind fun processed =>
    (processLines net baseURL originalHeaders rest).map fun more => processed :: more

/-- The function `processM3U8Content`: the string and the error it returns;
`none` is a panic. -/
def processM3U8Content (net : NetURL URL) (content : GoString) (baseURL : URL)
    (originalHeaders : GoString) : Option (GoString × Option bufio.Error) :=
  (processLines net baseURL originalHeaders (bufio.scanLines content).1).map
    fun processedLines => (strings.Join processedLines (ascii "\n"), (bufio.scanLines content).2)

end Rewriter

/-! ## The program: token decoding in the handler -/

/-- The constant `http.StatusBadRequest`. -/
def StatusBadRequest : Nat := 400

/-- How lines 234-245 of `handleProxy` end: with `http.Error(w, msg, code)`
and `return`, or with a `targetURL`, from which the lines that follow build
the upstream request. -/
inductive Decoded where
  | httpError (msg : GoString) (code : Nat)
  | target (targetURL : GoString)
  deriving DecidableEq, Repr

/-- Lines 234-245 of `handleProxy`, reached by every request whose method is
not `OPTIONS`, for `path` the value of `r.URL.Path`. -/
def handleProxyDecode (path : GoString) : Decoded :=
  let urlParam := strings.TrimPrefix path (ascii "/anime/")
  if urlParam = [] then
    Decoded.httpError (ascii "Missing URL parameter") StatusBadRequest
  else
    match base64.DecodeString urlParam with
    | none => Decoded.httpError (ascii "Invalid base64 URL") StatusBadRequest
    | some decodedBytes => Decoded.target decodedBytes

/-! ## Notions used to state the properties -/

/-- The lines of a text, `strings.Split(s, "\n")`: the pieces between
newlines, so a text with `n` newlines has `n + 1` lines. -/
def splitLines : GoString → List GoString
  | [] => [[]]
  | c :: rest =>
    if c = 10 then [] :: splitLines rest
    else
      match splitLines rest with
      | l :: ls => (c :: l) :: ls
      | [] => [[c]]

/-- The number of newline-separated lines of a text. -/
def lineCount (s : GoString) : Nat := (splitLines s).length

/-- The bytes an encoding is made of: the alphabet and the padding character. -/
def base64.isTokenByte (c : Byte) : Prop := c ∈ base64.encodeURL ∨ c = base64.padChar

instance base64.decidableIsTokenByte (c : Byte) : Decidable (base64.isTokenByte c) :=
  inferInstanceAs (Decidable (c ∈ base64.encodeURL ∨ c = base64.padChar))

/-- A template has a compiled pattern that matches the hostname: one of its
patterns is a key of the compiled-pattern cache and the expression it is
bound to matches. -/
def templateMatches {Re : Type} (re : Regexp Re) (compiledPatterns : GoMap Re)
    (hostname : GoString) (template : DomainTemplate) : Prop :=
  ∃ pattern ∈ template.Patterns, ∃ r ∈ compiledPatterns.get pattern,
    re.MatchString r hostname = true

instance templateMatches.decidable {Re : Type} (re : Regexp Re) (compiledPatterns : GoMap Re)
    (hostname : GoString) (template : DomainTemplate) :
    Decidable (templateMatches re compiledPatterns hostname template) :=
  inferInstanceAs (Decidable (∃ pattern ∈ template.Patterns,
    ∃ r ∈ compiledPatterns.get pattern, re.MatchString r hostname = true))

/-- The lines on which the slice expression of line 187 is out of range: the
opener `URI="` is there and no double quote follows it. -/
def unterminatedURI (line : GoString) : Bool :=
  strings.Contains line (ascii "URI=\"")
    && decide (strings.Index
        (line.drop (strings.Index line (ascii "URI=\"") + 5).toNat) (ascii "\"") < 0)

/-- The lines on which the loop body of `processM3U8Content` panics. -/
def panicsOn (line : GoString) : Bool :=
  (strings.HasPrefix line (ascii "#EXT-X-KEY") || strings.HasPrefix line (ascii "#EXT-X-MAP"))
    && unterminatedURI line

/-! ## Instances of the library parameters for the worked examples

The general theorems quantify over every `NetURL` and every `Regexp`. The
worked examples need values to compute with; these follow RFC 3986, which
`net/url` implements, on references without percent-escapes, user
information or port, and literal patterns. They stand for the libraries on
such inputs only: the instance writes a space back as it is where
`(*URL).String` escapes it, it accepts a first path segment with a colon
where `url.Parse` does not, and it compiles no pattern that holds a
metacharacter. -/

namespace rfc3986

/-- The five components of a URI reference (RFC 3986, section 3); `none` is
an undefined component. -/
structure Ref where
  scheme : Option GoString
  authority : Option GoString
  path : GoString
  query : Option GoString
  fragment : Option GoString
  deriving DecidableEq, Repr

/-- Whether `c` is one of the bytes of `stops`. -/
def isStop (stops : GoString) (c : Byte) : Bool := stops.contains c

/-- The longest prefix of `s` free of the bytes of `stops`, and the rest. -/
def untilStop (stops s : GoString) : GoString × GoString :=
  (s.takeWhile (fun c => !isStop stops c), s.dropWhile (fun c => !isStop stops c))

/-- The component split of RFC 3986, appendix B. -/
def split (s : GoString) : Ref :=
  let (pre, rest) := untilStop (ascii ":/?#") s
  let (scheme, s1) :=
    if pre ≠ [] ∧ rest.head? = some 58 then (some pre, rest.drop 1) else (none, s)
  let (authority, s2) :=
    if strings.HasPrefix s1 (ascii "//") then
      (some (untilStop (ascii "/?#") (s1.drop 2)).1, (untilStop (ascii "/?#") (s1.drop 2)).2)
    else (none, s1)
  let (path, s3) := untilStop (ascii "?#") s2
  let (query, s4) :=
    if s3.head? = some 63 then
      (some (untilStop (ascii "#") (s3.drop 1)).1, (untilStop (ascii "#") (s3.drop 1)).2)
    else (none, s3)
  let fragment := if s4.head? = some 35 then some (s4.drop 1) else none
  ⟨scheme, authority, path, query, fragment⟩

/-- The parse fails on an ASCII control byte, as `url.Parse` does. -/
def parse (s : GoString) : Option Ref :=
  if s.any (fun c => decide (c.val < 0x20 ∨ c.val = 0x7f)) then none else some (split s)

/-- The output buffer without its last segment and the slash before it. -/
def removeLastSegment (output : GoString) : GoString :=
  (output.reverse.dropWhile (fun c => decide (c ≠ 47))).drop 1 |>.reverse

/-- The routine `remove_dot_segments` of RFC 3986, section 5.2.4; every step
shortens `input`, so its length plus one is enough `fuel`. -/
def removeDotSegments : Nat → GoString → GoString → GoString
  | 0, _, output => output
  | fuel + 1, input, output =>
    if input = [] then output
    else if strings.HasPrefix input (ascii "../") then
      removeDotSegments fuel (input.drop 3) output
    else if strings.HasPrefix input (ascii "./") then
      removeDotSegments fuel (input.drop 2) output
    else if strings.HasPrefix input (ascii "/./") then
      removeDotSegments fuel (input.drop 2) output
    else if input = ascii "/." then removeDotSegments fuel (ascii "/") output
    else if strings.HasPrefix input (ascii "/../") then
      removeDotSegments fuel (input.drop 3) (removeLastSegment output)
    else if input = ascii "/.." then
      removeDotSegments fuel (ascii "/") (removeLastSegment output)
    else if input = ascii "." ∨ input = ascii ".." then output
    else
      let seg := input.take 1 ++ (input.drop 1).takeWhile (fun c => decide (c ≠ 47))
      removeDotSegments fuel (input.drop seg.length) (output ++ seg)

/-- The routine `merge` of RFC 3986, section 5.2.3. -/
def merge (base : Ref) (refPath : GoString) : GoString :=
  if base.authority.isSome ∧ base.path = [] then ascii "/" ++ refPath
  else (base.path.reverse.dropWhile (fun c => decide (c ≠ 47))).reverse ++ refPath

/-- Reference resolution, RFC 3986, section 5.2.2. -/
def resolve (base r : Ref) : Ref :=
  let dots := fun (p : GoString) => removeDotSegments (p.length + 1) p []
  if r.scheme.isSome then { r with path := dots r.path }
  else if r.authority.isSome then { r with scheme := base.scheme, path := dots r.path }
  else if r.path = [] then
    { scheme := base.scheme, authority := base.authority, path := base.path,
      query := if r.query.isSome then r.query else base.query, fragment := r.fragment }
  else if r.path.head? = some 47 then
    { r with scheme := base.scheme, authority := base.authority, path := dots r.path }
  else
    { r with scheme := base.scheme, authority := base.authority,
             path := dots (merge base r.path) }

/-- Component recomposition, RFC 3986, section 5.3. -/
def recompose (r : Ref) : GoString :=
  (match r.scheme with | some s => s ++ ascii ":" | none => [])
    ++ (match r.authority with | some a => ascii "//" ++ a | none => [])
    ++ r.path
    ++ (match r.query with | some q => ascii "?" ++ q | none => [])
    ++ (match r.fragment with | some f => ascii "#" ++ f | none => [])

/-- The host of an authority without user information: the part before the
port's colon. -/
def hostname (r : Ref) : GoString :=
  match r.authority with
  | some a => a.takeWhile (fun c => decide (c ≠ 58))
  | none => []

/-- The instance of `NetURL` used in the worked examples. -/
def net : NetURL Ref where
  Parse := parse
  ParseRef := fun base s => (parse s).map (resolve base)
  String := recompose
  Hostname := hostname

end rfc3986

namespace literal

/-- A pattern made of letters, digits and hyphens only. -/
def isLiteral (expr : GoString) : Bool :=
  expr.all fun c =>
    decide ((97 ≤ c.val ∧ c.val ≤ 122) ∨ (65 ≤ c.val ∧ c.val ≤ 90) ∨ (48 ≤ c.val ∧ c.val ≤ 57)
      ∨ c.val = 45)

/-- The instance of `Regexp` used in the worked examples: a pattern of
letters, digits and hyphens matches the strings that contain it; other
patterns are left out of the instance. -/
def re : Regexp GoString where
  Compile := fun expr => if isLiteral expr then some expr else none
  MatchString := fun r s => strings.Contains s r

end literal

/-- The base URL of the worked examples,
`https://cdn.example/videos/stream.m3u8`. -/
def exampleBase : rfc3986.Ref := rfc3986.split (ascii "https://cdn.example/videos/stream.m3u8")

/-- The first template of the worked examples. -/
def exampleFirst : DomainTemplate where
  Patterns := [ascii "example"]
  Origin := ascii "https://a.example"
  Referer := ascii "https://a.example/"
  SecFetchSite := ascii "cross-site"
  UseCacheHeaders := false

/-- The second template of the worked examples. -/
def exampleSecond : DomainTemplate where
  Patterns := [ascii "cdn"]
  Origin := ascii "https://b.example"
  Referer := []
  SecFetchSite := []
  UseCacheHeaders := true

/-- A configuration for the worked examples: two templates, each with one
pattern that matches the host `cdn.example`. -/
def exampleConfig : Config where
  DefaultHeaders := [(ascii "User-Agent", ascii "Mozilla/5.0")]
  DomainTemplates := [exampleFirst, exampleSecond]

/-- The compiled-pattern cache of `exampleConfig`. -/
def exampleCache : GoMap GoString := [(ascii "example", ascii "example"), (ascii "cdn", ascii "cdn")]

/-! ## `net/textproto` and `net/http`: header maps -/

namespace http

/-- The function `validHeaderFieldByte`: the token characters of RFC 7230. -/
def validHeaderFieldByte (c : Byte) : Bool :=
  (48 ≤ c.val ∧ c.val ≤ 57) ∨ (97 ≤ c.val ∧ c.val ≤ 122) ∨ (65 ≤ c.val ∧ c.val ≤ 90)
    ∨ c ∈ ascii "!#$%&'*+-.^_|~" ∨ c = 96

/-- The rewriting loop of `canonicalMIMEHeaderKey`: a lower-case letter at
the start or after a hyphen is made upper case, an upper-case letter
elsewhere is made lower case. `upper` says whether the next byte stands at
such a place. -/
def canonicalize : Bool → GoString → GoString
  | _, [] => []
  | upper, c :: rest =>
    let c2 : Byte :=
      if upper = true ∧ 97 ≤ c.val ∧ c.val ≤ 122 then Fin.ofNat (c.val - 32)
      else if upper = false ∧ 65 ≤ c.val ∧ c.val ≤ 90 then Fin.ofNat (c.val + 32)
      else c
    c2 :: canonicalize (decide (c2 = 45)) rest

/-- `textproto.CanonicalMIMEHeaderKey`, which is `http.CanonicalHeaderKey`: a
key made of token characters only is put in canonical form, any other key is
returned as it is. -/
def CanonicalMIMEHeaderKey (s : GoString) : GoString :=
  if s.all validHeaderFieldByte then canonicalize true s else s

/-- The type `http.Header`, a `map[string][]string`. -/
abbrev Header := GoMap (List GoString)

/-- `Header.Set`: the entry of the canonical key is replaced by the single
value. -/
def Header.Set (h : Header) (key value : GoString) : Header :=
  (CanonicalMIMEHeaderKey key, [value]) :: h

/-- The index assignment `h[key] = values`. -/
def Header.assign (h : Header) (key : GoString) (values : List GoString) : Header :=
  (key, values) :: h

end http

/-! ## The program: header synthesizer -/

/-- The function `generateHeaders`, with the global `config` as an argument;
the list `config.DefaultHeaders` is the map's entries in the order in which
the `range` statement yields them, `none` is a `nil` template. -/
def generateHeaders (config : Config) (_urlStr : GoString) (template : Option DomainTemplate) :
    http.Header :=
  let headers : http.Header := []
  let headers := config.DefaultHeaders.foldl (fun h e => http.Header.Set h e.1 e.2) headers
  match template with
  | none => headers
  | some template =>
    let headers :=
      if template.Origin ≠ [] then http.Header.Set headers (ascii "Origin") template.Origin
      else headers
    let headers :=
      if template.Referer ≠ [] then http.Header.Set headers (ascii "Referer") template.Referer
      else headers
    let headers :=
      if template.SecFetchSite ≠ [] then
        http.Header.Set headers (ascii "Sec-Fetch-Site") template.SecFetchSite
      else headers
    headers

/-- The fields a template specifies: those of `Origin`, `Referer` and
`Sec-Fetch-Site` that it gives a non-empty value, with that value. -/
def templateFields (template : Option DomainTemplate) : List (GoString × GoString) :=
  match template with
  | none => []
  | some t =>
    [(ascii "Origin", t.Origin), (ascii "Referer", t.Referer),
      (ascii "Sec-Fetch-Site", t.SecFetchSite)].filter (fun f => decide (f.2 ≠ []))

/-! ## The program: response headers -/

/-- The test of lines 274-276 on a key of `resp.Header`. -/
def isForwarded (k : GoString) : Bool :=
  k = ascii "Content-Length" ∨ k = ascii "Content-Type" ∨ k = ascii "Content-Range"
    ∨ k = ascii "Accept-Ranges" ∨ k = ascii "Cache-Control" ∨ k = ascii "Last-Modified"
    ∨ k = ascii "ETag"

/-- Lines 268-279 of `handleProxy`: the header map `w.Header()` of the client
response once the four access-control headers are set and the upstream
headers are copied. `respHeader` is `resp.Header`, as its entries in the
order in which the `range` statement yields them. For a response that is not
a playlist no header is set after these lines. -/
def responseHeaders (respHeader : http.Header) : http.Header :=
  let w : http.Header := []
  let w := http.Header.Set w (ascii "Access-Control-Allow-Origin") (ascii "*")
  let w := http.Header.Set w (ascii "Access-Control-Allow-Methods") (ascii "GET, OPTIONS")
  let w := http.Header.Set w (ascii "Access-Control-Allow-Headers")
    (ascii "Content-Type, Authorization, Range")
  let w := http.Header.Set w (ascii "Access-Control-Expose-Headers")
    (ascii "Content-Length, Content-Range, Accept-Ranges")
  respHeader.foldl (fun w e => if isForwarded e.1 then http.Header.assign w e.1 e.2 else w) w

/-- The header names as `net/http` stores them in `resp.Header`: each key is
its own canonical form. -/
def canonicalKeys (h : http.Header) : Prop :=
  ∀ e ∈ h, http.CanonicalMIMEHeaderKey e.1 = e.1

instance canonicalKeys.decidable (h : http.Header) : Decidable (canonicalKeys h) :=
  inferInstanceAs (Decidable (∀ e ∈ h, http.CanonicalMIMEHeaderKey e.1 = e.1))

/-- An upstream response header for the worked examples. -/
def exampleResponse : http.Header :=
  [ (ascii "Content-Type", [ascii "video/mp4"]),
    (ascii "Etag", [ascii "\"33a64df5\""]),
    (ascii "Accept-Ranges", [ascii "bytes"]),
    (ascii "Server", [ascii "nginx"]) ]

/-! ## The program: the compiled-pattern cache -/

/-- Lines 91-99 of `init`: the map `compiledPatterns` once every pattern of
every template has been visited; a pattern that compiles is bound to its
compiled expression, one that does not is left out. -/
def initCompiledPatterns {Re : Type} (re : Regexp Re) (config : Config) : GoMap Re :=
  config.DomainTemplates.foldl
    (fun m template =>
      template.Patterns.foldl
        (fun m pattern =>
          match re.Compile pattern with
          | some r => (pattern, r) :: m
          | none => m)
        m)
    []

/-- A template has a pattern that compiles and matches the hostname. -/
def compilesAndMatches {Re : Type} (re : Regexp Re) (hostname : GoString)
    (template : DomainTemplate) : Prop :=
  ∃ pattern ∈ template.Patterns, ∃ r ∈ re.Compile pattern, re.MatchString r hostname = true

instance compilesAndMatches.decidable {Re : Type} (re : Regexp Re) (hostname : GoString)
    (template : DomainTemplate) : Decidable (compilesAndMatches re hostname template) :=
  inferInstanceAs (Decidable (∃ pattern ∈ template.Patterns,
    ∃ r ∈ re.Compile pattern, re.MatchString r hostname = true))

/-- A template for the worked examples whose first pattern does not compile
(an opening parenthesis without its closing one) and whose second matches
the host `cdn.example`. -/
def exampleBroken : DomainTemplate where
  Patterns := [ascii "(", ascii "cdn"]
  Origin := ascii "https://c.example"
  Referer := []
  SecFetchSite := []
  UseCacheHeaders := false

/-- A configuration for the worked examples that starts with `exampleBroken`. -/
def exampleBrokenConfig : Config where
  DefaultHeaders := []
  DomainTemplates := [exampleBroken, exampleFirst]

/-! ## Alphabets -/

/-- The characters of padded URL-safe base64: `A-Z`, `a-z`, `0-9`, `-`, `_`
and `=`. -/
def isBase64URLChar (c : Byte) : Prop :=
  (65 ≤ c.val ∧ c.val ≤ 90) ∨ (97 ≤ c.val ∧ c.val ≤ 122) ∨ (48 ≤ c.val ∧ c.val ≤ 57)
    ∨ c = 45 ∨ c = 95 ∨ c = 61

instance isBase64URLChar.decidable (c : Byte) : Decidable (isBase64URLChar c) :=
  inferInstanceAs (Decidable ((65 ≤ c.val ∧ c.val ≤ 90) ∨ (97 ≤ c.val ∧ c.val ≤ 122)
    ∨ (48 ≤ c.val ∧ c.val ≤ 57) ∨ c = 45 ∨ c = 95 ∨ c = 61))

/-- The characters of a query-escaped string: letters, digits, `-`, `_`, `.`,
`~`, the plus sign that stands for a space, and the percent sign of an
escape. -/
def isQueryEscapedChar (c : Byte) : Prop :=
  (65 ≤ c.val ∧ c.val ≤ 90) ∨ (97 ≤ c.val ∧ c.val ≤ 122) ∨ (48 ≤ c.val ∧ c.val ≤ 57)
    ∨ c = 45 ∨ c = 95 ∨ c = 46 ∨ c = 126 ∨ c = 43 ∨ c = 37

instance isQueryEscapedChar.decidable (c : Byte) : Decidable (isQueryEscapedChar c) :=
  inferInstanceAs (Decidable ((65 ≤ c.val ∧ c.val ≤ 90) ∨ (97 ≤ c.val ∧ c.val ≤ 122)
    ∨ (48 ≤ c.val ∧ c.val ≤ 57) ∨ c = 45 ∨ c = 95 ∨ c = 46 ∨ c = 126 ∨ c = 43 ∨ c = 37))

/-! ## `unicode/utf8`, `unicode` and `strings.ToLower` -/

namespace utf8

/-- The rune `utf8.RuneError`, U+FFFD. -/
def RuneError : Nat := 0xFFFD

/-- `utf8.DecodeRuneInString`, which is also how a `range` over a string
reads it: the first rune of `s` and its width in bytes; an invalid or too
short encoding is `RuneError` with width 1. -/
def DecodeRune : GoString → Nat × Nat
  | [] => (RuneError, 0)
  | s0 :: rest =>
    if s0.val < 0x80 then (s0.val, 1)
    else if s0.val < 0xC2 ∨ 0xF5 ≤ s0.val then (RuneError, 1)
    else
      let sz := if s0.val < 0xE0 then 2 else if s0.val < 0xF0 then 3 else 4
      let lo := if s0.val = 0xE0 then 0xA0 else if s0.val = 0xF0 then 0x90 else 0x80
      let hi := if s0.val = 0xED then 0x9F else if s0.val = 0xF4 then 0x8F else 0xBF
      match rest with
      | [] => (RuneError, 1)
      | s1 :: rest1 =>
        if s1.val < lo ∨ hi < s1.val then (RuneError, 1)
        else if sz ≤ 2 then ((s0.val &&& 0x1F) <<< 6 ||| (s1.val &&& 0x3F), 2)
        else
          match rest1 with
          | [] => (RuneError, 1)
          | s2 :: rest2 =>
            if s2.val < 0x80 ∨ 0xBF < s2.val then (RuneError, 1)
            else if sz ≤ 3 then
              ((s0.val &&& 0x0F) <<< 12 ||| (s1.val &&& 0x3F) <<< 6 ||| (s2.val &&& 0x3F), 3)
            else
              match rest2 with
              | [] => (RuneError, 1)
              | s3 :: _ =>
                if s3.val < 0x80 ∨ 0xBF < s3.val then (RuneError, 1)
                else
                  ((s0.val &&& 0x07) <<< 18 ||| (s1.val &&& 0x3F) <<< 12
                    ||| (s2.val &&& 0x3F) <<< 6 ||| (s3.val &&& 0x3F), 4)

/-- `utf8.AppendRune` on an empty slice: the encoding of a rune; a surrogate
or a value above U+10FFFF is encoded as `RuneError`. -/
def EncodeRune (r : Nat) : GoString :=
  if r ≤ 0x7F then [Fin.ofNat r]
  else if r ≤ 0x7FF then [Fin.ofNat (0xC0 ||| r >>> 6), Fin.ofNat (0x80 ||| (r &&& 0x3F))]
  else if 0x10FFFF < r ∨ (0xD800 ≤ r ∧ r ≤ 0xDFFF) then [0xEF, 0xBF, 0xBD]
  else if r ≤ 0xFFFF then
    [Fin.ofNat (0xE0 ||| r >>> 12), Fin.ofNat (0x80 ||| (r >>> 6 &&& 0x3F)),
      Fin.ofNat (0x80 ||| (r &&& 0x3F))]
  else
    [Fin.ofNat (0xF0 ||| r >>> 18), Fin.ofNat (0x80 ||| (r >>> 12 &&& 0x3F)),
      Fin.ofNat (0x80 ||| (r >>> 6 &&& 0x3F)), Fin.ofNat (0x80 ||| (r &&& 0x3F))]

end utf8

namespace unicode

/-- `unicode.ToLower`: the letters `A` to `Z` are lowered by the function
itself; for a rune above `unicode.MaxASCII` the result is looked up in the
case tables of package `unicode`, taken here as the parameter `caseTable`. -/
def ToLower (caseTable : Nat → Nat) (r : Nat) : Nat :=
  if r ≤ 0x7F then
    if 65 ≤ r ∧ r ≤ 90 then r + 32 else r
  else caseTable r

end unicode

namespace strings

/-- The loop of `strings.Map` over the rest of the string: `skip` is the
number of bytes of the rune just read that are still to be stepped over
before the next rune is read. -/
def mapFrom (mapping : Nat → Nat) : Nat → GoString → GoString
  | _, [] => []
  | 0, s0 :: rest =>
    utf8.EncodeRune (mapping (utf8.DecodeRune (s0 :: rest)).1) ++
      mapFrom mapping ((utf8.DecodeRune (s0 :: rest)).2 - 1) rest
  | skip + 1, _ :: rest => mapFrom mapping skip rest

/-- `strings.Map`: the encodings of the mapped runes of `s`, one after the
other. -/
def Map (mapping : Nat → Nat) (s : GoString) : GoString :=
  mapFrom mapping 0 s

/-- The lowering of one byte of an ASCII string in `strings.ToLower`. -/
def lowerASCII (c : Byte) : Byte :=
  if 65 ≤ c.val ∧ c.val ≤ 90 then Fin.ofNat (c.val + 32) else c

/-- `strings.ToLower`: a string of ASCII bytes is lowered byte by byte, and
returned as it is when it has no upper-case letter; any other string is
mapped rune by rune with `unicode.ToLower`. -/
def ToLower (caseTable : Nat → Nat) (s : GoString) : GoString :=
  if s.all (fun c => decide (c.val < 0x80)) then
    if s.any (fun c => decide (65 ≤ c.val ∧ c.val ≤ 90)) then s.map lowerASCII else s
  else Map (unicode.ToLower caseTable) s

/-- `strings.HasSuffix`. -/
def HasSuffix (s suffix : GoString) : Bool := suffix.isSuffixOf s

end strings

/-! ## The program: content-type classifier -/

/-- The variable `m3u8Types`. -/
def m3u8Types : List GoString :=
  [ ascii "application/vnd.apple.mpegurl",
    ascii "application/x-mpegurl",
    ascii "audio/x-mpegurl",
    ascii "audio/mpegurl",
    ascii "video/x-mpegurl",
    ascii "application/mpegurl",
    ascii "application/x-hls",
    ascii "application/x-apple-hls" ]

/-- The function `isM3U8`; the loop over `m3u8Types` returns `true` at the
first type the lowered content type contains. -/
def isM3U8 (caseTable : Nat → Nat) (contentType : GoString) : Bool :=
  let contentType := strings.ToLower caseTable contentType
  if m3u8Types.any (fun m3u8Type => strings.Contains contentType m3u8Type) then true
  else strings.HasSuffix (strings.ToLower caseTable contentType) (ascii ".m3u8")

/-- A string with its ASCII upper-case letters made lower case. -/
def foldASCII (s : GoString) : GoString := s.map strings.lowerASCII

/-- The string `s` contains `t`, up to the case of ASCII letters. -/
def containsFold (s t : GoString) : Prop := foldASCII t <:+: foldASCII s

instance containsFold.decidable (s t : GoString) : Decidable (containsFold s t) :=
  inferInstanceAs (Decidable (foldASCII t <:+: foldASCII s))

/-- The string `s` ends with `t`, up to the case of ASCII letters. -/
def endsFold (s t : GoString) : Prop := foldASCII t <:+ foldASCII s

instance endsFold.decidable (s t : GoString) : Decidable (endsFold s t) :=
  inferInstanceAs (Decidable (foldASCII t <:+ foldASCII s))

/-- A string of ASCII bytes. -/
def isASCII (s : GoString) : Prop := ∀ c ∈ s, c.val < 0x80

instance isASCII.decidable (s : GoString) : Decidable (isASCII s) :=
  inferInstanceAs (Decidable (∀ c ∈ s, c.val < 0x80))

/-- Two entries of the case tables of package `unicode`, for the worked
examples: the lower case of U+0130, capital I with dot above, is `i`, and the
lower case of U+212A, the Kelvin sign, is `k`. Every other rune is left as it
is by this instance. -/
def exampleCaseTable (r : Nat) : Nat :=
  if r = 0x130 then 0x69 else if r = 0x212A then 0x6B else r

/-- The string `audİo/mpegurl`, with U+0130 encoded as the bytes C4 B0. -/
def exampleDottedI : GoString := ascii "aud" ++ [0xC4, 0xB0] ++ ascii "o/mpegurl"

/-! ## Well-formed token segments -/

namespace base64

/-- A string without its carriage returns and newlines. -/
def stripNewlines (s : GoString) : GoString :=
  s.filter (fun c => !decide (c = 10 ∨ c = 13))

/-- Padded base64url text as RFC 4648 writes it: groups of four characters of
the alphabet, the last group possibly ending in one or two `=`. -/
def wellFormed : GoString → Bool
  | [] => true
  | a :: b :: c :: d :: rest =>
    decide (a ∈ encodeURL) && decide (b ∈ encodeURL) &&
      ((decide (c ∈ encodeURL) && decide (d ∈ encodeURL) && wellFormed rest)
        || (decide (rest = []) && decide (c ∈ encodeURL) && decide (d = padChar))
        || (decide (rest = []) && decide (c = padChar) && decide (d = padChar)))
  | _ => false

end base64
/-! ## Properties of the base64 codec -/

namespace base64

theorem or3_eq_add (a b c : Nat) (hb : b < 256) (hc : c < 256) :
    a <<< 16 ||| b <<< 8 ||| c = a * 65536 + b * 256 + c := by
  have h1 : a <<< 16 ||| b <<< 8 = 2 ^ 8 * (a * 256 + b) := by
    rw [Nat.shiftLeft_eq, Nat.shiftLeft_eq]
    have h := Nat.mul_add_lt_is_or (i := 16) (b := b * 2 ^ 8) (by omega) a
    rw [show a * 2 ^ 16 = 2 ^ 16 * a by ring, ← h]; ring
  rw [h1, ← Nat.mul_add_lt_is_or (by omega)]; ring

theorem or4_eq_add (s0 s1 s2 s3 : Nat) (h1 : s1 < 64) (h2 : s2 < 64) (h3 : s3 < 64) :
    s0 <<< 18 ||| s1 <<< 12 ||| s2 <<< 6 ||| s3
      = s0 * 262144 + s1 * 4096 + s2 * 64 + s3 := by
  have e1 : s0 <<< 18 ||| s1 <<< 12 = 2 ^ 12 * (s0 * 64 + s1) := by
    rw [Nat.shiftLeft_eq, Nat.shiftLeft_eq]
    have h := Nat.mul_add_lt_is_or (i := 18) (b := s1 * 2 ^ 12) (by omega) s0
    rw [show s0 * 2 ^ 18 = 2 ^ 18 * s0 by ring, ← h]; ring
  have e2 : 2 ^ 12 * (s0 * 64 + s1) ||| s2 <<< 6 = 2 ^ 6 * (s0 * 4096 + s1 * 64 + s2) := by
    rw [Nat.shiftLeft_eq]
    have h := Nat.mul_add_lt_is_or (i := 12) (b := s2 * 2 ^ 6) (by omega) (s0 * 64 + s1)
    rw [← h]; ring
  rw [e1, e2, ← Nat.mul_add_lt_is_or (by omega)]; ring

theorem and63_eq_mod (x : Nat) : x &&& 0x3F = x % 64 :=
  Nat.and_pow_two_sub_one_eq_mod x 6

theorem decodeMap_encode : ∀ i : Fin 64, decodeMap (encode i.val) = i.val := by decide

theorem decodeMap_encode_nat (i : Nat) (h : i < 64) : decodeMap (encode i) = i :=
  decodeMap_encode ⟨i, h⟩

/-- Four alphabet characters are one complete quantum. -/
theorem decodeLoop_quad (i0 i1 i2 i3 : Nat) (h0 : i0 < 64) (h1 : i1 < 64) (h2 : i2 < 64)
    (h3 : i3 < 64) (rest : GoString) :
    decodeLoop (encode i0 :: encode i1 :: encode i2 :: encode i3 :: rest) 0 []
      = (decodeLoop rest 0 []).map (fun out => quantumBytes [i0, i1, i2, i3] 4 ++ out) := by
  have n0 : i0 ≠ 255 := by omega
  have n1 : i1 ≠ 255 := by omega
  have n2 : i2 ≠ 255 := by omega
  have n3 : i3 ≠ 255 := by omega
  simp [decodeLoop, decodeMap_encode_nat, h0, h1, h2, h3, n0, n1, n2, n3]

theorem decodeLoop_pad1 (i0 i1 i2 : Nat) (h0 : i0 < 64) (h1 : i1 < 64) (h2 : i2 < 64) :
    decodeLoop [encode i0, encode i1, encode i2, padChar] 0 []
      = some (quantumBytes [i0, i1, i2] 3) := by
  have n0 : i0 ≠ 255 := by omega
  have n1 : i1 ≠ 255 := by omega
  have n2 : i2 ≠ 255 := by omega
  have hp : decodeMap padChar = 255 := by decide
  have hp1 : padChar ≠ 10 := by decide
  have hp2 : padChar ≠ 13 := by decide
  simp [decodeLoop, decodeMap_encode_nat, h0, h1, h2, n0, n1, n2, hp, hp1, hp2, skipNewlines]

theorem decodeLoop_pad2 (i0 i1 : Nat) (h0 : i0 < 64) (h1 : i1 < 64) :
    decodeLoop [encode i0, encode i1, padChar, padChar] 0 []
      = some (quantumBytes [i0, i1] 2) := by
  have n0 : i0 ≠ 255 := by omega
  have n1 : i1 ≠ 255 := by omega
  have hp : decodeMap padChar = 255 := by decide
  have hp1 : padChar ≠ 10 := by decide
  have hp2 : padChar ≠ 13 := by decide
  simp [decodeLoop, decodeMap_encode_nat, h0, h1, n0, n1, hp, hp1, hp2, skipNewlines]

theorem quantum3 (a b c : Byte) :
    quantumBytes [(a.val <<< 16 ||| b.val <<< 8 ||| c.val) >>> 18 &&& 0x3F,
      (a.val <<< 16 ||| b.val <<< 8 ||| c.val) >>> 12 &&& 0x3F,
      (a.val <<< 16 ||| b.val <<< 8 ||| c.val) >>> 6 &&& 0x3F,
      (a.val <<< 16 ||| b.val <<< 8 ||| c.val) &&& 0x3F] 4 = [a, b, c] := by
  have ha := a.isLt
  have hb := b.isLt
  have hc := c.isLt
  simp only [quantumBytes, List.getD_cons_zero, List.getD_cons_succ, and63_eq_mod,
    or3_eq_add _ _ _ hb hc, Nat.shiftRight_eq_div_pow]
  rw [or4_eq_add _ _ _ _ (Nat.mod_lt _ (by norm_num)) (Nat.mod_lt _ (by norm_num))
    (Nat.mod_lt _ (by norm_num))]
  simp only [List.map, List.take, Fin.ofNat]
  congr 1
  · apply Fin.ext; simp only []; omega
  congr 1
  · apply Fin.ext; simp only []; omega
  congr 1
  · apply Fin.ext; simp only []; omega

theorem quantum2 (a b : Byte) :
    quantumBytes [(a.val <<< 16 ||| b.val <<< 8) >>> 18 &&& 0x3F,
      (a.val <<< 16 ||| b.val <<< 8) >>> 12 &&& 0x3F,
      (a.val <<< 16 ||| b.val <<< 8) >>> 6 &&& 0x3F] 3 = [a, b] := by
  have ha := a.isLt
  have hb := b.isLt
  have e : a.val <<< 16 ||| b.val <<< 8 = a.val * 65536 + b.val * 256 + 0 := by
    rw [← or3_eq_add _ _ _ hb (by norm_num), Nat.or_zero]
  simp only [quantumBytes, List.getD_cons_zero, List.getD_cons_succ, List.getD_nil,
    and63_eq_mod, e, Nat.shiftRight_eq_div_pow]
  rw [or4_eq_add _ _ _ _ (Nat.mod_lt _ (by norm_num)) (Nat.mod_lt _ (by norm_num))
    (by norm_num)]
  simp only [List.map, List.take, Fin.ofNat]
  congr 1
  · apply Fin.ext; simp only []; omega
  congr 1
  · apply Fin.ext; simp only []; omega

theorem quantum1 (a : Byte) :
    quantumBytes [(a.val <<< 16) >>> 18 &&& 0x3F, (a.val <<< 16) >>> 12 &&& 0x3F] 2 = [a] := by
  have ha := a.isLt
  simp only [quantumBytes, List.getD_cons_zero, List.getD_cons_succ, List.getD_nil,
    and63_eq_mod, Nat.shiftLeft_eq, Nat.shiftRight_eq_div_pow]
  have e := or4_eq_add (a.val * 2 ^ 16 / 2 ^ 18 % 64) (a.val * 2 ^ 16 / 2 ^ 12 % 64) 0 0
    (Nat.mod_lt _ (by norm_num)) (by norm_num) (by norm_num)
  simp only [Nat.shiftLeft_eq] at e
  rw [e]
  simp only [List.map, List.take, Fin.ofNat]
  congr 1
  apply Fin.ext; simp only []; omega

/-- Decoding inverts encoding: `DecodeString (EncodeToString u)` returns `u`
without error, for every byte string `u`. -/
theorem DecodeString_EncodeToString (u : GoString) :
    DecodeString (EncodeToString u) = some u := by
  unfold DecodeString
  induction u using EncodeToString.induct with
  | case1 => simp [EncodeToString, decodeLoop]
  | case2 a =>
    simp only [EncodeToString, and63_eq_mod]
    rw [decodeLoop_pad2 _ _ (Nat.mod_lt _ (by norm_num)) (Nat.mod_lt _ (by norm_num))]
    simp only [← and63_eq_mod, quantum1]
  | case3 a b =>
    simp only [EncodeToString, and63_eq_mod]
    rw [decodeLoop_pad1 _ _ _ (Nat.mod_lt _ (by norm_num)) (Nat.mod_lt _ (by norm_num))
      (Nat.mod_lt _ (by norm_num))]
    simp only [← and63_eq_mod, quantum2]
  | case4 a b c rest ih =>
    simp only [EncodeToString, and63_eq_mod, List.cons_append, List.nil_append]
    rw [decodeLoop_quad _ _ _ _ (Nat.mod_lt _ (by norm_num)) (Nat.mod_lt _ (by norm_num))
      (Nat.mod_lt _ (by norm_num)) (Nat.mod_lt _ (by norm_num)), ih]
    simp only [← and63_eq_mod, quantum3, Option.map_some']
    rfl

end base64


namespace base64

theorem encode_mem : ∀ i : Fin 64, encode i.val ∈ encodeURL := by decide

theorem encode_and_mem (x : Nat) : encode (x &&& 0x3F) ∈ encodeURL := by
  rw [and63_eq_mod]
  exact encode_mem ⟨x % 64, Nat.mod_lt _ (by norm_num)⟩

theorem EncodeToString_bytes (u : GoString) : ∀ c ∈ EncodeToString u, isTokenByte c := by
  induction u using EncodeToString.induct with
  | case1 => simp [EncodeToString]
  | case2 a =>
    intro c hc
    simp only [EncodeToString, List.mem_cons, List.mem_singleton, List.not_mem_nil,
      or_false] at hc
    rcases hc with h | h | h | h <;> subst h
    · exact Or.inl (encode_and_mem _)
    · exact Or.inl (encode_and_mem _)
    · exact Or.inr rfl
    · exact Or.inr rfl
  | case3 a b =>
    intro c hc
    simp only [EncodeToString, List.mem_cons, List.mem_singleton, List.not_mem_nil,
      or_false] at hc
    rcases hc with h | h | h | h <;> subst h
    · exact Or.inl (encode_and_mem _)
    · exact Or.inl (encode_and_mem _)
    · exact Or.inl (encode_and_mem _)
    · exact Or.inr rfl
  | case4 a b c rest ih =>
    intro x hx
    simp only [EncodeToString, List.cons_append, List.nil_append, List.mem_cons] at hx
    rcases hx with h | h | h | h | h
    · subst h; exact Or.inl (encode_and_mem _)
    · subst h; exact Or.inl (encode_and_mem _)
    · subst h; exact Or.inl (encode_and_mem _)
    · subst h; exact Or.inl (encode_and_mem _)
    · exact ih x h

theorem EncodeToString_ne_nil (u : GoString) (h : u ≠ []) : EncodeToString u ≠ [] := by
  match u, h with
  | [_], _ => simp [EncodeToString]
  | [_, _], _ => simp [EncodeToString]
  | _ :: _ :: _ :: _, _ => simp [EncodeToString]

set_option maxRecDepth 100000 in
/-- No byte of the alphabet or padding is a question mark, a percent sign, a
double quote, a newline, a space or a plus sign. -/
theorem isTokenByte_plain (c : Byte) (h : isTokenByte c) :
    c ≠ 63 ∧ c ≠ 37 ∧ c ≠ 34 ∧ c ≠ 10 ∧ c ≠ 32 ∧ c ≠ 43 := by
  have key : ∀ x ∈ padChar :: encodeURL,
      x ≠ 63 ∧ x ≠ 37 ∧ x ≠ 34 ∧ x ≠ 10 ∧ x ≠ 32 ∧ x ≠ 43 := by decide
  apply key
  rcases h with h | h
  · exact List.mem_cons_of_mem _ h
  · rw [h]; exact List.mem_cons_self _ _

end base64

/-! ## The token codec (C1) -/

theorem PathUnescape_plain (s : GoString) (h : ∀ c ∈ s, c ≠ 37) :
    url.PathUnescape s = some s := by
  induction s with
  | nil => rfl
  | cons c rest ih =>
    have hc : c ≠ 37 := h c (List.mem_cons_self _ _)
    have hr := ih (fun x hx => h x (List.mem_cons_of_mem _ hx))
    unfold url.PathUnescape
    simp [hc, hr]

set_option maxRecDepth 100000 in
theorem anime_plain : ∀ c ∈ ascii "/anime/", c ≠ 63 ∧ c ≠ 37 ∧ c ≠ 34 ∧ c ≠ 10 := by decide

/-- The path and the encoded segment of a token hold no question mark, percent
sign, double quote or newline. -/
theorem tokenPath_plain (u : GoString) :
    ∀ c ∈ ascii "/anime/" ++ base64.EncodeToString u,
      c ≠ 63 ∧ c ≠ 37 ∧ c ≠ 34 ∧ c ≠ 10 := by
  intro c hc
  rcases List.mem_append.mp hc with h | h
  · exact anime_plain c h
  · have := base64.isTokenByte_plain c (base64.EncodeToString_bytes u c h)
    exact ⟨this.1, this.2.1, this.2.2.1, this.2.2.2.1⟩

/-- A token is its path, followed by nothing or by a query. -/
theorem token_eq (u h : GoString) :
    token u h = (ascii "/anime/" ++ base64.EncodeToString u)
      ++ (if h ≠ [] then ascii "?headers=" ++ url.QueryEscape h else []) := by
  unfold token
  by_cases hh : h = [] <;> simp [hh]

/-- The request path of a token is the route prefix and the encoded URL. -/
theorem requestPath_token (u h : GoString) :
    url.requestPath (token u h) = some (ascii "/anime/" ++ base64.EncodeToString u) := by
  have hp := tokenPath_plain u
  have htw : (token u h).takeWhile (fun c => decide (c ≠ 63))
      = ascii "/anime/" ++ base64.EncodeToString u := by
    rw [token_eq, List.takeWhile_append_of_pos (fun c hc => by simpa using (hp c hc).1)]
    by_cases hh : h = []
    · simp [hh]
    · simp only [hh, ne_eq, not_false_eq_true, if_true]
      have : ascii "?headers=" = (63 : Byte) :: ascii "headers=" := by decide
      rw [this]
      simp
  unfold url.requestPath
  rw [htw]
  exact PathUnescape_plain _ (fun c hc => (hp c hc).2.1)

theorem TrimPrefix_append (pre s : GoString) : strings.TrimPrefix (pre ++ s) pre = s := by
  simp [strings.TrimPrefix, strings.HasPrefix]

/-- The handler's decoding of a path under the route prefix. -/
theorem handleProxyDecode_anime (seg : GoString) (h : seg ≠ []) :
    handleProxyDecode (ascii "/anime/" ++ seg)
      = match base64.DecodeString seg with
        | none => Decoded.httpError (ascii "Invalid base64 URL") StatusBadRequest
        | some decodedBytes => Decoded.target decodedBytes := by
  unfold handleProxyDecode
  simp only [TrimPrefix_append, h, if_false]

/-- C1. Token round trip: for every non-empty URL string `U` and every headers
blob `H`, the request path of the token `"/anime/" ++ base64url(U)` (followed
by `"?headers=" ++ QueryEscape(H)` when `H` is not empty) is accepted by the
handler's decoding, which returns exactly `U` as the target URL. -/
theorem token_round_trip (U H : GoString) (hU : U ≠ []) :
    (url.requestPath (token U H)).map handleProxyDecode = some (Decoded.target U) := by
  rw [requestPath_token, Option.map_some',
    handleProxyDecode_anime _ (base64.EncodeToString_ne_nil U hU),
    base64.DecodeString_EncodeToString]

theorem token_round_trip_witness :
    ascii "https://cdn.example/videos/segment1.ts" ≠ [] ∧
    (url.requestPath (token (ascii "https://cdn.example/videos/segment1.ts")
        (ascii "Referer: https://a.example/"))).map handleProxyDecode
      = some (Decoded.target (ascii "https://cdn.example/videos/segment1.ts")) :=
  ⟨by decide, token_round_trip _ _ (by decide)⟩

/-! ## Lines: splitting, joining, scanning -/

theorem splitLines_ne_nil (s : GoString) : splitLines s ≠ [] := by
  cases s with
  | nil => simp [splitLines]
  | cons c rest =>
    unfold splitLines
    split
    · simp
    · split <;> simp

/-- A text without newline is one line. -/
theorem splitLines_plain (l : GoString) (h : (10 : Byte) ∉ l) : splitLines l = [l] := by
  induction l with
  | nil => rfl
  | cons c rest ih =>
    have hc : c ≠ 10 := fun e => h (e ▸ List.mem_cons_self _ _)
    have hr := ih (fun m => h (List.mem_cons_of_mem _ m))
    simp [splitLines, hc, hr]

/-- A first line without newline, followed by a newline, is split off. -/
theorem splitLines_append (l rest : GoString) (h : (10 : Byte) ∉ l) :
    splitLines (l ++ 10 :: rest) = l :: splitLines rest := by
  induction l with
  | nil => simp [splitLines]
  | cons c l ih =>
    have hc : c ≠ 10 := fun e => h (e ▸ List.mem_cons_self _ _)
    have hr := ih (fun m => h (List.mem_cons_of_mem _ m))
    simp [splitLines, hc, hr]

theorem lineCount_eq_count (s : GoString) : lineCount s = s.count 10 + 1 := by
  unfold lineCount
  induction s with
  | nil => rfl
  | cons c rest ih =>
    unfold splitLines
    by_cases hc : c = 10
    · subst hc; simp [ih]
    · have hc2 : ¬ ((10 : Byte) = c) := fun e => hc e.symm
      simp only [hc, if_false]
      cases hs : splitLines rest with
      | nil => exact absurd hs (splitLines_ne_nil rest)
      | cons l ls =>
        rw [hs] at ih
        simp only [List.length_cons] at ih ⊢
        rw [List.count_cons_of_ne hc2]
        exact ih

/-- Joining lines without newlines with a newline and splitting again gives
the lines back. -/
theorem splitLines_Join (ls : List GoString) (hne : ls ≠ [])
    (h : ∀ l ∈ ls, (10 : Byte) ∉ l) : splitLines (strings.Join ls (ascii "\n")) = ls := by
  induction ls with
  | nil => exact absurd rfl hne
  | cons a rest ih =>
    cases rest with
    | nil => simpa [strings.Join] using splitLines_plain a (h a (List.mem_cons_self _ _))
    | cons b rest =>
      have e : ascii "\n" = [(10 : Byte)] := by decide
      rw [strings.Join, e, List.append_assoc, List.singleton_append,
        splitLines_append _ _ (h a (List.mem_cons_self _ _)), ← e,
        ih (by simp) (fun l m => h l (List.mem_cons_of_mem _ m))]

theorem lineCount_Join (ls : List GoString) (h : ∀ l ∈ ls, (10 : Byte) ∉ l) :
    lineCount (strings.Join ls (ascii "\n")) = max 1 ls.length := by
  cases ls with
  | nil => rfl
  | cons a rest =>
    unfold lineCount
    rw [splitLines_Join _ (by simp) h]
    simp

namespace bufio

theorem dropCR_subset (cur : GoString) : ∀ c ∈ dropCR cur, c ∈ cur := by
  intro c hc
  unfold dropCR at hc
  split at hc
  · exact List.mem_of_mem_dropLast hc
  · exact hc

/-- No scanned line holds a newline. -/
theorem scanFrom_no_newline (rest cur : GoString) (hcur : (10 : Byte) ∉ cur) :
    ∀ l ∈ (scanFrom cur rest).1, (10 : Byte) ∉ l := by
  induction rest generalizing cur with
  | nil =>
    intro l hl
    unfold scanFrom at hl
    split at hl
    · simp at hl
    · split at hl
      · simp at hl
      · simp only [List.mem_singleton] at hl
        subst hl
        exact fun m => hcur (dropCR_subset _ _ m)
  | cons c rest ih =>
    intro l hl
    unfold scanFrom at hl
    split at hl
    · split at hl
      · simp at hl
      · simp only [List.mem_cons] at hl
        rcases hl with hl | hl
        · subst hl
          exact fun m => hcur (dropCR_subset _ _ m)
        · exact ih [] (by simp) l hl
    · rename_i hc
      refine ih (cur ++ [c]) ?_ l hl
      intro m
      rcases List.mem_append.mp m with m | m
      · exact hcur m
      · simp only [List.mem_singleton] at m
        exact hc m.symm

theorem scanLines_no_newline (content : GoString) :
    ∀ l ∈ (scanLines content).1, (10 : Byte) ∉ l :=
  scanFrom_no_newline content [] (by simp)

/-- The number of lines scanned without error: one for each newline, and one
more for a last line that is not empty. -/
theorem scanFrom_length (rest cur : GoString) (herr : (scanFrom cur rest).2 = none) :
    (scanFrom cur rest).1.length
      = rest.count 10 + (if cur ++ rest = [] ∨ rest.getLast? = some 10 then 0 else 1) := by
  induction rest generalizing cur with
  | nil =>
    unfold scanFrom at herr ⊢
    by_cases hc : cur = []
    · simp [hc]
    · simp only [hc, if_false] at herr ⊢
      split at herr
      · simp at herr
      · rename_i hlen
        simp [hlen, hc]
  | cons c rest ih =>
    unfold scanFrom at herr ⊢
    by_cases hc : c = 10
    · subst hc
      simp only [if_true] at herr ⊢
      split at herr
      · simp at herr
      · rename_i hlen
        simp only [hlen, if_false, List.length_cons]
        rw [ih [] herr]
        cases rest with
        | nil => simp
        | cons d rest => simp [List.getLast?_cons_cons]; omega
    · simp only [hc, if_false] at herr ⊢
      rw [ih (cur ++ [c]) herr]
      have hc2 : ¬ ((10 : Byte) = c) := fun e => hc e.symm
      rw [List.count_cons_of_ne hc2]
      cases rest with
      | nil => simp [hc]
      | cons d rest => simp [List.getLast?_cons_cons]

theorem scanLines_length (content : GoString) (herr : (scanLines content).2 = none) :
    (scanLines content).1.length
      = content.count 10 + (if content = [] ∨ content.getLast? = some 10 then 0 else 1) := by
  simpa [scanLines] using scanFrom_length content [] herr

end bufio

/-! ## Query escaping -/

namespace url

theorem upperhex_plain : ∀ i : Fin 16, shouldEscape (upperhex.getD i.val 0) = false := by decide

theorem shouldEscape_false_plain (c : Byte) (h : shouldEscape c = false) :
    c ≠ 10 ∧ c ≠ 34 ∧ c ≠ 32 ∧ c ≠ 37 ∧ c ≠ 43 := by
  refine ⟨?_, ?_, ?_, ?_, ?_⟩ <;> (rintro rfl; revert h; decide)

/-- The bytes of an escaped string: unreserved characters, the plus sign and
the percent sign. -/
theorem QueryEscape_bytes (s : GoString) :
    ∀ c ∈ QueryEscape s, shouldEscape c = false ∨ c = 43 ∨ c = 37 := by
  induction s with
  | nil => simp [QueryEscape]
  | cons a rest ih =>
    intro c hc
    unfold QueryEscape at hc
    split at hc
    · split at hc
      · rcases List.mem_cons.mp hc with h | h
        · exact Or.inr (Or.inl h)
        · exact ih c h
      · rcases List.mem_cons.mp hc with h | h
        · exact Or.inr (Or.inr h)
        rcases List.mem_cons.mp h with h | h
        · left
          rw [h]
          have hlt : a.val >>> 4 < 16 := by
            have := a.isLt
            rw [Nat.shiftRight_eq_div_pow]; omega
          exact upperhex_plain ⟨_, hlt⟩
        rcases List.mem_cons.mp h with h | h
        · left
          rw [h]
          have hlt : a.val &&& 15 < 16 := by
            rw [Nat.and_pow_two_sub_one_eq_mod a.val 4]; omega
          exact upperhex_plain ⟨_, hlt⟩
        · exact ih c h
    · rename_i hne
      rcases List.mem_cons.mp hc with h | h
      · left; rw [h]; simpa using hne
      · exact ih c h

theorem QueryEscape_plain (s : GoString) :
    ∀ c ∈ QueryEscape s, c ≠ 10 ∧ c ≠ 34 ∧ c ≠ 32 := by
  intro c hc
  rcases QueryEscape_bytes s c hc with h | h | h
  · have := shouldEscape_false_plain c h
    exact ⟨this.1, this.2.1, this.2.2.1⟩
  · subst h; decide
  · subst h; decide

end url

/-! ## The rewriter, line by line -/

set_option maxRecDepth 100000 in
theorem headersKey_plain : ∀ c ∈ ascii "?headers=", c ≠ 10 ∧ c ≠ 34 ∧ c ≠ 32 := by decide

/-- A token holds no newline and no double quote. -/
theorem token_plain (u h : GoString) : ∀ c ∈ token u h, c ≠ 10 ∧ c ≠ 34 := by
  intro c hc
  rw [token_eq] at hc
  rcases List.mem_append.mp hc with m | m
  · have := tokenPath_plain u c m
    exact ⟨this.2.2.2, this.2.2.1⟩
  · split at m
    · rcases List.mem_append.mp m with m | m
      · have := headersKey_plain c m
        exact ⟨this.1, this.2.1⟩
      · have := url.QueryEscape_plain h c m
        exact ⟨this.1, this.2.1⟩
    · simp at m

section Rewriter

variable {URL : Type} (net : NetURL URL)

/-- What `processURL` returns: the input when it is empty or does not
resolve, otherwise the token of the resolved URL. -/
theorem processURL_eq (urlStr : GoString) (baseURL : URL) (originalHeaders : GoString) :
    processURL net urlStr baseURL originalHeaders
      = if urlStr = [] then urlStr
        else match net.ParseRef baseURL urlStr with
          | none => urlStr
          | some resolvedURL => token (net.String resolvedURL) originalHeaders := by
  unfold processURL token
  rfl

theorem slice_subset (s : GoString) (lo hi : Int) (t : GoString) (h : slice s lo hi = some t) :
    ∀ c ∈ t, c ∈ s := by
  unfold slice at h
  split at h
  · simp only [Option.some.injEq] at h
    subst h
    intro c hc
    exact List.mem_of_mem_take (List.mem_of_mem_drop hc)
  · simp at h

/-- What `processSpecialTag` returns, when it returns: the line itself, or
the line with a token in it. In both cases the result holds a newline only if
the line does. -/
theorem processSpecialTag_no_newline (line : GoString) (baseURL : URL)
    (originalHeaders out : GoString)
    (h : processSpecialTag net line baseURL originalHeaders = some out)
    (hl : (10 : Byte) ∉ line) : (10 : Byte) ∉ out := by
  unfold processSpecialTag at h
  split at h
  · simp only [Option.bind_eq_some] at h
    obtain ⟨tail, _, uri, _, h⟩ := h
    split at h
    · simp only [Option.some.injEq] at h; subst h; exact hl
    · rename_i resolvedURL _
      simp only [Option.bind_eq_some, Option.some.injEq] at h
      obtain ⟨before, hb, after, ha, h⟩ := h
      subst h
      intro m
      rcases List.mem_append.mp m with m | m
      · rcases List.mem_append.mp m with m | m
        · exact hl (slice_subset _ _ _ _ hb _ m)
        · exact (token_plain (net.String resolvedURL) originalHeaders _ m).1 rfl
      · exact hl (slice_subset _ _ _ _ ha _ m)
  · simp only [Option.some.injEq] at h; subst h; exact hl

theorem processURL_no_newline (line : GoString) (baseURL : URL) (originalHeaders : GoString)
    (hl : (10 : Byte) ∉ line) : (10 : Byte) ∉ processURL net line baseURL originalHeaders := by
  rw [processURL_eq]
  split
  · exact hl
  · split
    · exact hl
    · exact fun m => (token_plain _ _ _ m).1 rfl

theorem processLine_no_newline (line : GoString) (baseURL : URL)
    (originalHeaders out : GoString)
    (h : processLine net line baseURL originalHeaders = some out)
    (hl : (10 : Byte) ∉ line) : (10 : Byte) ∉ out := by
  unfold processLine at h
  split at h
  · split at h
    · exact processSpecialTag_no_newline net line baseURL originalHeaders out h hl
    · simp only [Option.some.injEq] at h; subst h; exact hl
  · split at h
    · simp only [Option.some.injEq] at h; subst h
      exact processURL_no_newline net line baseURL originalHeaders hl
    · simp only [Option.some.injEq] at h; subst h; exact hl

/-- The loop processes the scanned lines one by one, in order. -/
theorem processLines_forall₂ (baseURL : URL) (originalHeaders : GoString)
    (ls outs : List GoString)
    (h : processLines net baseURL originalHeaders ls = some outs) :
    List.Forall₂ (fun l o => processLine net l baseURL originalHeaders = some o) ls outs := by
  induction ls generalizing outs with
  | nil =>
    simp only [processLines, Option.some.injEq] at h
    subst h; exact List.Forall₂.nil
  | cons l rest ih =>
    simp only [processLines, Option.bind_eq_some, Option.map_eq_some'] at h
    obtain ⟨o, ho, more, hm, h⟩ := h
    subst h
    exact List.Forall₂.cons ho (ih more hm)

theorem processLines_no_newline (baseURL : URL) (originalHeaders : GoString)
    (ls outs : List GoString)
    (hf : List.Forall₂ (fun l o => processLine net l baseURL originalHeaders = some o) ls outs)
    (hs : ∀ l ∈ ls, (10 : Byte) ∉ l) : ∀ o ∈ outs, (10 : Byte) ∉ o := by
  induction hf with
  | nil => simp
  | cons hlo _ ih =>
    intro o ho
    rcases List.mem_cons.mp ho with e | m
    · subst e
      exact processLine_no_newline net _ baseURL originalHeaders _ hlo
        (hs _ (List.mem_cons_self _ _))
    · exact ih (fun l hl => hs l (List.mem_cons_of_mem _ hl)) o m

end Rewriter

/-! ## The rewriter on a whole playlist (C2, C3) -/

section Playlist

variable {URL : Type} (net : NetURL URL)

/-- The output of `processM3U8Content` is the scanned lines, each processed,
joined by newlines; split at newlines it gives the processed lines back. -/
theorem processM3U8Content_lines (content : GoString) (baseURL : URL)
    (originalHeaders out : GoString) (err : Option bufio.Error)
    (h : processM3U8Content net content baseURL originalHeaders = some (out, err)) :
    ∃ outs, List.Forall₂ (fun l o => processLine net l baseURL originalHeaders = some o)
        (bufio.scanLines content).1 outs
      ∧ (∀ o ∈ outs, (10 : Byte) ∉ o)
      ∧ out = strings.Join outs (ascii "\n")
      ∧ err = (bufio.scanLines content).2 := by
  unfold processM3U8Content at h
  simp only [Option.map_eq_some', Prod.mk.injEq] at h
  obtain ⟨outs, hp, hj, he⟩ := h
  have hf := processLines_forall₂ net baseURL originalHeaders _ outs hp
  refine ⟨outs, hf, ?_, hj.symm, he.symm⟩
  exact processLines_no_newline net baseURL originalHeaders _ outs hf
    (bufio.scanLines_no_newline content)

/-- C2, as amended. Line count: whenever `processM3U8Content` returns without
error, its output has as many newline-separated lines as the input when the
input does not end with a newline (the empty input included), and exactly
one line fewer when it does: the empty line after a final newline is not
scanned, and joining does not restore it. -/
theorem line_count_scanned (content : GoString) (baseURL : URL)
    (originalHeaders out : GoString)
    (h : processM3U8Content net content baseURL originalHeaders = some (out, none)) :
    lineCount out = lineCount content - (if content.getLast? = some 10 then 1 else 0) := by
  obtain ⟨outs, hf, hn, hj, he⟩ := processM3U8Content_lines net content baseURL
    originalHeaders out none h
  subst hj
  rw [lineCount_Join outs hn, ← hf.length_eq, bufio.scanLines_length content he.symm,
    lineCount_eq_count]
  by_cases h0 : content = []
  · subst h0; simp
  · by_cases h1 : content.getLast? = some 10
    · have hpos : 0 < content.count 10 := by
        apply List.count_pos_iff.mpr
        exact List.mem_of_getLast?_eq_some h1
      simp only [h1, or_true, if_true]
      omega
    · simp only [h0, h1, or_self, if_false]
      omega

theorem forall₂_getElem? {α β : Type} {R : α → β → Prop} {ls : List α} {outs : List β}
    (h : List.Forall₂ R ls outs) (i : Nat) (l : α) (hl : ls[i]? = some l) :
    ∃ o, outs[i]? = some o ∧ R l o := by
  induction h generalizing i with
  | nil => simp at hl
  | cons hr _ ih =>
    cases i with
    | zero =>
      simp only [List.getElem?_cons_zero, Option.some.injEq] at hl
      subst hl
      exact ⟨_, by simp, hr⟩
    | succ i =>
      simp only [List.getElem?_cons_succ] at hl ⊢
      exact ih i hl

/-- Line `i` of the output is line `i` of the scan, processed. -/
theorem processM3U8Content_line (content : GoString) (baseURL : URL)
    (originalHeaders out : GoString) (err : Option bufio.Error)
    (h : processM3U8Content net content baseURL originalHeaders = some (out, err))
    (i : Nat) (L : GoString) (hL : (bufio.scanLines content).1[i]? = some L) :
    ∃ o, (splitLines out)[i]? = some o
      ∧ processLine net L baseURL originalHeaders = some o := by
  obtain ⟨outs, hf, hn, hj, _⟩ := processM3U8Content_lines net content baseURL
    originalHeaders out err h
  obtain ⟨o, ho, hp⟩ := forall₂_getElem? hf i L hL
  have hne : outs ≠ [] := by
    intro e; subst e; simp at ho
  refine ⟨o, ?_, hp⟩
  rw [hj, splitLines_Join outs hne hn]
  exact ho

/-- The request path of a token, with the route prefix stripped and the rest
base64-decoded, is the URL the token was made for. -/
theorem token_decodes (u h : GoString) :
    (url.requestPath (token u h)).map
        (fun p => base64.DecodeString (strings.TrimPrefix p (ascii "/anime/")))
      = some (some u) := by
  rw [requestPath_token, Option.map_some', TrimPrefix_append,
    base64.DecodeString_EncodeToString]

/-- C3. Resource-reference rewriting: in every playlist that
`processM3U8Content` rewrites, a scanned line `L` that does not start with
`#`, is not blank and resolves against the base URL to `R` is replaced, at
the same position of the output, by the token of `R`: the route prefix
`/anime/` and a base64url segment that decodes to `R`. -/
theorem resource_line_rewritten (content : GoString) (baseURL : URL)
    (originalHeaders out : GoString) (err : Option bufio.Error)
    (h : processM3U8Content net content baseURL originalHeaders = some (out, err))
    (i : Nat) (L : GoString) (hL : (bufio.scanLines content).1[i]? = some L)
    (hhash : strings.HasPrefix L (ascii "#") = false)
    (hblank : strings.TrimSpaceIsEmpty L = false)
    (R : URL) (hres : net.ParseRef baseURL L = some R) :
    (splitLines out)[i]? = some (token (net.String R) originalHeaders)
      ∧ strings.HasPrefix (token (net.String R) originalHeaders) (ascii "/anime/") = true
      ∧ (url.requestPath (token (net.String R) originalHeaders)).map
          (fun p => base64.DecodeString (strings.TrimPrefix p (ascii "/anime/")))
        = some (some (net.String R)) := by
  obtain ⟨o, ho, hp⟩ := processM3U8Content_line net content baseURL originalHeaders out err
    h i L hL
  have hLne : L ≠ [] := by
    intro e; subst e; simp [strings.TrimSpaceIsEmpty] at hblank
  have ho2 : o = token (net.String R) originalHeaders := by
    unfold processLine at hp
    simp only [hhash, hblank, Bool.false_eq_true, if_false, Bool.not_false, if_true,
      Option.some.injEq] at hp
    rw [← hp, processURL_eq]
    simp [hLne, hres]
  subst ho2
  refine ⟨ho, ?_, token_decodes _ _⟩
  rw [token_eq, List.append_assoc]
  simp [strings.HasPrefix]

end Playlist

theorem line_count_scanned_witness :
    processM3U8Content rfc3986.net (ascii "#EXTM3U\nsegment1.ts\n") exampleBase []
        = some (ascii "#EXTM3U\n/anime/aHR0cHM6Ly9jZG4uZXhhbXBsZS92aWRlb3Mvc2VnbWVudDEudHM=", none)
      ∧ lineCount (ascii "#EXTM3U\n/anime/aHR0cHM6Ly9jZG4uZXhhbXBsZS92aWRlb3Mvc2VnbWVudDEudHM=")
        = lineCount (ascii "#EXTM3U\nsegment1.ts\n")
          - (if (ascii "#EXTM3U\nsegment1.ts\n").getLast? = some 10 then 1 else 0) :=
  ⟨by decide, line_count_scanned rfc3986.net _ exampleBase [] _ (by decide)⟩

/-- C2 as stated fails: the one-line playlist `"#EXTM3U\n"` has two
newline-separated lines, the second one empty, and its output `"#EXTM3U"`
has one. -/
theorem line_count_counterexample :
    processM3U8Content rfc3986.net (ascii "#EXTM3U\n") exampleBase []
        = some (ascii "#EXTM3U", none)
      ∧ lineCount (ascii "#EXTM3U\n") = 2 ∧ lineCount (ascii "#EXTM3U") = 1 := by
  decide

theorem resource_line_rewritten_witness :
    processM3U8Content rfc3986.net (ascii "#EXTM3U\nsegment1.ts\n\nsegment2.ts") exampleBase []
        = some (ascii "#EXTM3U\n/anime/aHR0cHM6Ly9jZG4uZXhhbXBsZS92aWRlb3Mvc2VnbWVudDEudHM=\n\n/anime/aHR0cHM6Ly9jZG4uZXhhbXBsZS92aWRlb3Mvc2VnbWVudDIudHM=", none)
      ∧ splitLines (ascii "#EXTM3U\n/anime/aHR0cHM6Ly9jZG4uZXhhbXBsZS92aWRlb3Mvc2VnbWVudDEudHM=\n\n/anime/aHR0cHM6Ly9jZG4uZXhhbXBsZS92aWRlb3Mvc2VnbWVudDIudHM=")
        = [ascii "#EXTM3U", token (ascii "https://cdn.example/videos/segment1.ts") [],
            [], token (ascii "https://cdn.example/videos/segment2.ts") []]
      ∧ (bufio.scanLines (ascii "#EXTM3U\nsegment1.ts\n\nsegment2.ts")).1
        = [ascii "#EXTM3U", ascii "segment1.ts", [], ascii "segment2.ts"]
      ∧ rfc3986.net.String (rfc3986.resolve exampleBase (rfc3986.split (ascii "segment2.ts")))
        = ascii "https://cdn.example/videos/segment2.ts"
      ∧ ((splitLines (ascii "#EXTM3U\n/anime/aHR0cHM6Ly9jZG4uZXhhbXBsZS92aWRlb3Mvc2VnbWVudDEudHM=\n\n/anime/aHR0cHM6Ly9jZG4uZXhhbXBsZS92aWRlb3Mvc2VnbWVudDIudHM="))[3]?
          = some (token (rfc3986.net.String
              (rfc3986.resolve exampleBase (rfc3986.split (ascii "segment2.ts")))) [])
        ∧ strings.HasPrefix (token (rfc3986.net.String
              (rfc3986.resolve exampleBase (rfc3986.split (ascii "segment2.ts")))) [])
            (ascii "/anime/") = true
        ∧ (url.requestPath (token (rfc3986.net.String
              (rfc3986.resolve exampleBase (rfc3986.split (ascii "segment2.ts")))) [])).map
            (fun p => base64.DecodeString (strings.TrimPrefix p (ascii "/anime/")))
          = some (some (rfc3986.net.String
              (rfc3986.resolve exampleBase (rfc3986.split (ascii "segment2.ts")))))) :=
  ⟨by decide, by decide, by decide, by decide,
    resource_line_rewritten rfc3986.net (ascii "#EXTM3U\nsegment1.ts\n\nsegment2.ts")
      exampleBase [] _ none (by decide) 3 (ascii "segment2.ts") (by decide) (by decide)
      (by decide) _ (by decide)⟩

/-! ## `strings.Index` and slice expressions -/

namespace strings

/-- The search returns the first offset at which `substr` starts. -/
theorem indexFrom_first (substr pre post : GoString) (i : Nat) (hsub : substr ≠ [])
    (h : ∀ k < pre.length, ¬ substr <+: (pre ++ substr ++ post).drop k) :
    indexFrom substr (pre ++ substr ++ post) i = ((i + pre.length : Nat) : Int) := by
  induction pre generalizing i with
  | nil =>
    cases substr with
    | nil => exact absurd rfl hsub
    | cons c rest =>
      have hp : (c :: rest).isPrefixOf (c :: (rest ++ post)) = true := by
        rw [List.isPrefixOf_iff_prefix, ← List.cons_append]
        exact List.prefix_append _ _
      rw [List.nil_append, List.cons_append, indexFrom, if_pos hp]
      simp
  | cons c pre ih =>
    have h0 := h 0 (by simp)
    simp only [List.drop_zero] at h0
    simp only [List.cons_append] at h0 ⊢
    rw [indexFrom, if_neg (by rw [List.isPrefixOf_iff_prefix]; exact h0)]
    rw [ih (i + 1)]
    · simp only [List.length_cons]; congr 1; omega
    · intro k hk
      have := h (k + 1) (by simp only [List.length_cons]; omega)
      simpa using this

/-- The hypothesis of `indexFrom_first`, from the absence of `substr` in the
text before its last byte. -/
theorem no_earlier_start (substr pre post : GoString) (hsub : substr ≠ [])
    (h : ¬ substr <:+: pre ++ substr.dropLast) :
    ∀ k < pre.length, ¬ substr <+: (pre ++ substr ++ post).drop k := by
  intro k hk hp
  apply h
  have e1 : (pre ++ substr ++ post).drop k = pre.drop k ++ (substr ++ post) := by
    rw [List.append_assoc, List.drop_append_of_le_length (by omega)]
  rw [e1] at hp
  have hp2 : pre.drop k ++ substr.dropLast <+: pre.drop k ++ (substr ++ post) := by
    apply (List.prefix_append_right_inj _).mpr
    exact (List.dropLast_prefix substr).trans (List.prefix_append _ _)
  have hlen : substr.length ≤ (pre.drop k ++ substr.dropLast).length := by
    have : 0 < substr.length := List.length_pos.mpr hsub
    simp only [List.length_append, List.length_drop, List.length_dropLast]
    omega
  obtain ⟨t, ht⟩ := List.prefix_of_prefix_length_le hp hp2 hlen
  refine ⟨pre.take k, t, ?_⟩
  rw [List.append_assoc, ht, ← List.append_assoc, List.take_append_drop]

theorem Index_first (substr pre post : GoString) (hsub : substr ≠ [])
    (h : ¬ substr <:+: pre ++ substr.dropLast) :
    Index (pre ++ substr ++ post) substr = (pre.length : Int) := by
  unfold Index
  rw [indexFrom_first substr pre post 0 hsub (no_earlier_start substr pre post hsub h)]
  simp

/-- No instance of `substr`: the search returns `-1`. -/
theorem indexFrom_absent (substr s : GoString) (i : Nat) (hsub : substr ≠ [])
    (h : ¬ substr <:+: s) : indexFrom substr s i = -1 := by
  induction s generalizing i with
  | nil => simp [indexFrom, hsub]
  | cons c rest ih =>
    rw [indexFrom, if_neg, ih]
    · exact fun hh => h (hh.trans (List.suffix_cons c rest).isInfix)
    · rw [List.isPrefixOf_iff_prefix]
      exact fun hh => h hh.isInfix

theorem indexFrom_nonneg_or (substr s : GoString) (i : Nat) :
    indexFrom substr s i = -1 ∨ 0 ≤ indexFrom substr s i := by
  induction s generalizing i with
  | nil => unfold indexFrom; split <;> simp
  | cons c rest ih =>
    unfold indexFrom
    split
    · right; simp
    · exact ih (i + 1)

end strings

theorem slice_eq (s a b c : GoString) (lo hi : Int) (hs : s = a ++ b ++ c)
    (hlo : lo = (a.length : Int)) (hhi : hi = (a.length : Int) + (b.length : Int)) :
    slice s lo hi = some b := by
  subst hs hlo hhi
  unfold slice
  rw [if_pos]
  · have e1 : ((a.length : Int) + (b.length : Int)).toNat = a.length + b.length := by omega
    have e2 : ((a.length : Int)).toNat = a.length := by omega
    rw [e1, e2, List.append_assoc, List.take_append_eq_append_take]
    simp
  · simp only [List.length_append]
    omega

/-! ## Directive lines (C4) -/

section Directive

variable {URL : Type} (net : NetURL URL)

theorem Contains_of_Index (s substr : GoString) (n : Nat)
    (h : strings.Index s substr = (n : Int)) : strings.Contains s substr = true := by
  unfold strings.Contains
  rw [h]
  simp

/-- The inlined token code of `processSpecialTag` and `processURL` is `token`. -/
theorem token_unfold (u h : GoString) :
    (if h ≠ [] then
        ascii "/anime/" ++ base64.EncodeToString u ++ (ascii "?headers=" ++ url.QueryEscape h)
      else ascii "/anime/" ++ base64.EncodeToString u) = token u h := rfl

/-- What `processSpecialTag` returns on a line with a quoted attribute: in a
line `pre ++ URI="v" ++ post` whose first `URI="` is the one shown, with no
double quote in `v`, the value `v` is replaced by the token of the URL it
resolves to, and the line is returned as it is when `v` does not resolve. -/
theorem processSpecialTag_quoted (baseURL : URL) (originalHeaders pre v post : GoString)
    (hfirst : ¬ ascii "URI=\"" <:+: pre ++ ascii "URI=") (hv : (34 : Byte) ∉ v) :
    processSpecialTag net (pre ++ ascii "URI=\"" ++ v ++ ascii "\"" ++ post) baseURL
        originalHeaders
      = match net.ParseRef baseURL v with
        | none => some (pre ++ ascii "URI=\"" ++ v ++ ascii "\"" ++ post)
        | some R =>
          some (pre ++ ascii "URI=\"" ++ token (net.String R) originalHeaders ++ ascii "\""
            ++ post) := by
  have hq : ascii "\"" = [(34 : Byte)] := by decide
  have hlen : (ascii "URI=\"").length = 5 := by decide
  have hdl : (ascii "URI=\"").dropLast = ascii "URI=" := by decide
  have hne : ascii "URI=\"" ≠ [] := by decide
  have hIdx : strings.Index (pre ++ ascii "URI=\"" ++ v ++ ascii "\"" ++ post) (ascii "URI=\"")
      = (pre.length : Int) := by
    have := strings.Index_first (ascii "URI=\"") pre (v ++ ascii "\"" ++ post) hne
      (by rw [hdl]; exact hfirst)
    simpa [List.append_assoc] using this
  have hTail : strings.Index (v ++ ascii "\"" ++ post) (ascii "\"") = (v.length : Int) := by
    rw [hq]
    apply strings.Index_first [(34 : Byte)] v post (by simp)
    simp only [List.dropLast_single, List.append_nil]
    intro hin
    exact hv (List.singleton_sublist.mp hin.sublist)
  unfold processSpecialTag
  rw [if_pos (Contains_of_Index _ _ _ hIdx)]
  simp only [hIdx]
  have s1 : sliceFrom (pre ++ ascii "URI=\"" ++ v ++ ascii "\"" ++ post)
      ((pre.length : Int) + 5) = some (v ++ ascii "\"" ++ post) := by
    unfold sliceFrom
    apply slice_eq _ (pre ++ ascii "URI=\"") (v ++ ascii "\"" ++ post) []
    · simp [List.append_assoc]
    · simp [hlen]
    · simp only [List.length_append, hlen]; push_cast; ring
  have s2 : slice (pre ++ ascii "URI=\"" ++ v ++ ascii "\"" ++ post)
      ((pre.length : Int) + 5) ((v.length : Int) + ((pre.length : Int) + 5)) = some v := by
    apply slice_eq _ (pre ++ ascii "URI=\"") v (ascii "\"" ++ post)
    · simp [List.append_assoc]
    · simp [hlen]
    · simp only [List.length_append, hlen]; push_cast; ring
  have s3 : sliceTo (pre ++ ascii "URI=\"" ++ v ++ ascii "\"" ++ post)
      ((pre.length : Int) + 5) = some (pre ++ ascii "URI=\"") := by
    unfold sliceTo
    apply slice_eq _ [] (pre ++ ascii "URI=\"") (v ++ ascii "\"" ++ post)
    · simp [List.append_assoc]
    · simp
    · simp only [List.length_append, hlen, List.length_nil]; push_cast; ring
  have s4 : sliceFrom (pre ++ ascii "URI=\"" ++ v ++ ascii "\"" ++ post)
      ((v.length : Int) + ((pre.length : Int) + 5)) = some (ascii "\"" ++ post) := by
    unfold sliceFrom
    apply slice_eq _ (pre ++ ascii "URI=\"" ++ v) (ascii "\"" ++ post) []
    · simp [List.append_assoc]
    · simp only [List.length_append, hlen]; push_cast; ring
    · simp only [List.length_append, hlen]; push_cast; ring
  rw [s1]
  simp only [Option.some_bind, hTail]
  rw [s2]
  simp only [Option.some_bind]
  cases hres : net.ParseRef baseURL v with
  | none => rfl
  | some R =>
    simp only []
    rw [s3, s4]
    simp only [Option.some_bind, token_unfold]
    simp only [List.append_assoc]

/-- The splice of `processSpecialTag`, for a value `v` that resolves to `R`. -/
theorem processSpecialTag_splice (baseURL : URL) (originalHeaders pre v post : GoString)
    (R : URL) (hfirst : ¬ ascii "URI=\"" <:+: pre ++ ascii "URI=")
    (hv : (34 : Byte) ∉ v) (hres : net.ParseRef baseURL v = some R) :
    processSpecialTag net (pre ++ ascii "URI=\"" ++ v ++ ascii "\"" ++ post) baseURL
        originalHeaders
      = some (pre ++ ascii "URI=\"" ++ token (net.String R) originalHeaders ++ ascii "\""
          ++ post) := by
  rw [processSpecialTag_quoted net baseURL originalHeaders pre v post hfirst hv, hres]

/-- A line that starts with `#EXT-X-KEY` or `#EXT-X-MAP` starts with `#`. -/
theorem hash_of_tag (line : GoString)
    (h : strings.HasPrefix line (ascii "#EXT-X-KEY") = true
      ∨ strings.HasPrefix line (ascii "#EXT-X-MAP") = true) :
    strings.HasPrefix line (ascii "#") = true := by
  have e1 : ascii "#EXT-X-KEY" = ascii "#" ++ ascii "EXT-X-KEY" := by decide
  have e2 : ascii "#EXT-X-MAP" = ascii "#" ++ ascii "EXT-X-MAP" := by decide
  unfold strings.HasPrefix at h ⊢
  rw [List.isPrefixOf_iff_prefix] at h ⊢
  rw [List.isPrefixOf_iff_prefix] at h
  rcases h with h | h
  · exact (e1 ▸ List.prefix_append _ _ : ascii "#" <+: ascii "#EXT-X-KEY").trans h
  · exact (e2 ▸ List.prefix_append _ _ : ascii "#" <+: ascii "#EXT-X-MAP").trans h

/-- On a line that starts with `#EXT-X-KEY` or `#EXT-X-MAP` the loop body is
`processSpecialTag`. -/
theorem processLine_tag (line : GoString) (baseURL : URL) (originalHeaders : GoString)
    (h : strings.HasPrefix line (ascii "#EXT-X-KEY") = true
      ∨ strings.HasPrefix line (ascii "#EXT-X-MAP") = true) :
    processLine net line baseURL originalHeaders
      = processSpecialTag net line baseURL originalHeaders := by
  unfold processLine
  rw [if_pos (hash_of_tag line h), if_pos (by simpa using h)]

/-- On a line that starts with `#` but with neither `#EXT-X-KEY` nor
`#EXT-X-MAP` the loop body returns the line. -/
theorem processLine_other_directive (line : GoString) (baseURL : URL)
    (originalHeaders : GoString) (hhash : strings.HasPrefix line (ascii "#") = true)
    (hkey : strings.HasPrefix line (ascii "#EXT-X-KEY") = false)
    (hmap : strings.HasPrefix line (ascii "#EXT-X-MAP") = false) :
    processLine net line baseURL originalHeaders = some line := by
  unfold processLine
  rw [if_pos hhash, if_neg (by simp [hkey, hmap])]

/-- C4. Directive URI splice: a line that holds the quoted attribute
`URI="v"`, where the opener `URI="` does not occur earlier in the line, `v`
holds no double quote and `v` resolves against the base URL to `R`, is returned
by `processSpecialTag` with `v` replaced by the token of `R` and every byte
before the opening quote and from the closing quote on unchanged; the token's
segment decodes to `R`; and `processLine` does the same on such a line that
starts with `#EXT-X-KEY` or `#EXT-X-MAP`. -/
theorem directive_uri_splice (baseURL : URL) (originalHeaders pre v post : GoString) (R : URL)
    (hfirst : ¬ ascii "URI=\"" <:+: pre ++ ascii "URI=")
    (hv : (34 : Byte) ∉ v)
    (hres : net.ParseRef baseURL v = some R) :
    processSpecialTag net (pre ++ ascii "URI=\"" ++ v ++ ascii "\"" ++ post) baseURL
        originalHeaders
      = some (pre ++ ascii "URI=\"" ++ token (net.String R) originalHeaders ++ ascii "\"" ++ post)
    ∧ (url.requestPath (token (net.String R) originalHeaders)).map
          (fun p => base64.DecodeString (strings.TrimPrefix p (ascii "/anime/")))
        = some (some (net.String R))
    ∧ (strings.HasPrefix (pre ++ ascii "URI=\"" ++ v ++ ascii "\"" ++ post) (ascii "#EXT-X-KEY")
          = true
        ∨ strings.HasPrefix (pre ++ ascii "URI=\"" ++ v ++ ascii "\"" ++ post) (ascii "#EXT-X-MAP")
          = true →
      processLine net (pre ++ ascii "URI=\"" ++ v ++ ascii "\"" ++ post) baseURL originalHeaders
        = some (pre ++ ascii "URI=\"" ++ token (net.String R) originalHeaders ++ ascii "\""
            ++ post)) := by
  have key := processSpecialTag_splice net baseURL originalHeaders pre v post R hfirst hv hres
  refine ⟨key, token_decodes _ _, ?_⟩
  intro hpre
  rw [processLine_tag net _ baseURL originalHeaders hpre]
  exact key

end Directive

theorem directive_uri_splice_witness :
    (¬ ascii "URI=\"" <:+: ascii "#EXT-X-KEY:METHOD=AES-128," ++ ascii "URI=")
    ∧ (34 : Byte) ∉ ascii "key.bin"
    ∧ rfc3986.net.ParseRef exampleBase (ascii "key.bin")
        = some (rfc3986.split (ascii "https://cdn.example/videos/key.bin"))
    ∧ ascii "#EXT-X-KEY:METHOD=AES-128," ++ ascii "URI=\"" ++ ascii "key.bin" ++ ascii "\"" ++ []
        = ascii "#EXT-X-KEY:METHOD=AES-128,URI=\"key.bin\""
    ∧ rfc3986.net.String (rfc3986.split (ascii "https://cdn.example/videos/key.bin"))
        = ascii "https://cdn.example/videos/key.bin"
    ∧ (processSpecialTag rfc3986.net
          (ascii "#EXT-X-KEY:METHOD=AES-128," ++ ascii "URI=\"" ++ ascii "key.bin" ++ ascii "\""
            ++ []) exampleBase []
        = some (ascii "#EXT-X-KEY:METHOD=AES-128," ++ ascii "URI=\""
            ++ token (rfc3986.net.String
                (rfc3986.split (ascii "https://cdn.example/videos/key.bin"))) []
            ++ ascii "\"" ++ [])
      ∧ (url.requestPath (token (rfc3986.net.String
            (rfc3986.split (ascii "https://cdn.example/videos/key.bin"))) [])).map
          (fun p => base64.DecodeString (strings.TrimPrefix p (ascii "/anime/")))
        = some (some (rfc3986.net.String
            (rfc3986.split (ascii "https://cdn.example/videos/key.bin"))))
      ∧ (strings.HasPrefix
            (ascii "#EXT-X-KEY:METHOD=AES-128," ++ ascii "URI=\"" ++ ascii "key.bin"
              ++ ascii "\"" ++ []) (ascii "#EXT-X-KEY") = true
          ∨ strings.HasPrefix
            (ascii "#EXT-X-KEY:METHOD=AES-128," ++ ascii "URI=\"" ++ ascii "key.bin"
              ++ ascii "\"" ++ []) (ascii "#EXT-X-MAP") = true →
        processLine rfc3986.net
            (ascii "#EXT-X-KEY:METHOD=AES-128," ++ ascii "URI=\"" ++ ascii "key.bin"
              ++ ascii "\"" ++ []) exampleBase []
          = some (ascii "#EXT-X-KEY:METHOD=AES-128," ++ ascii "URI=\""
              ++ token (rfc3986.net.String
                  (rfc3986.split (ascii "https://cdn.example/videos/key.bin"))) []
              ++ ascii "\"" ++ []))) :=
  ⟨by decide, by decide, by decide, by decide, by decide,
    directive_uri_splice rfc3986.net exampleBase [] (ascii "#EXT-X-KEY:METHOD=AES-128,")
      (ascii "key.bin") [] (rfc3986.split (ascii "https://cdn.example/videos/key.bin"))
      (by decide) (by decide) (by decide)⟩

/-! ## Which directive lines are rewritten (C5, C6, C7) -/

namespace bufio

/-- A text without newline is scanned as one line. -/
theorem scanFrom_plain (rest cur : GoString) (h : (10 : Byte) ∉ rest) :
    scanFrom cur rest
      = if cur ++ rest = [] then ([], none)
        else if MaxScanTokenSize ≤ (cur ++ rest).length then ([], some Error.ErrTooLong)
        else ([dropCR (cur ++ rest)], none) := by
  induction rest generalizing cur with
  | nil => simp [scanFrom]
  | cons c rest ih =>
    have hc : c ≠ 10 := fun e => h (e ▸ List.mem_cons_self _ _)
    rw [scanFrom, if_neg hc, ih (cur ++ [c]) (fun m => h (List.mem_cons_of_mem _ m))]
    simp

theorem dropCR_of_no_CR (s : GoString) (h : s.getLast? ≠ some 13) : dropCR s = s := by
  unfold dropCR
  rw [if_neg h]

/-- A non-empty line without newline, without a carriage return at its end
and within the buffer size is scanned as itself. -/
theorem scanLines_single (L : GoString) (hne : L ≠ []) (hnl : (10 : Byte) ∉ L)
    (hcr : L.getLast? ≠ some 13) (hlen : L.length < MaxScanTokenSize) :
    scanLines L = ([L], none) := by
  unfold scanLines
  rw [scanFrom_plain L [] hnl]
  simp only [List.nil_append, hne, if_false]
  rw [if_neg (by omega), dropCR_of_no_CR L hcr]

end bufio

section Directive2

variable {URL : Type} (net : NetURL URL)

theorem processSpecialTag_no_URI (line : GoString) (baseURL : URL) (originalHeaders : GoString)
    (h : strings.Contains line (ascii "URI=\"") = false) :
    processSpecialTag net line baseURL originalHeaders = some line := by
  unfold processSpecialTag
  rw [if_neg (by simp [h])]

/-- The slice expression of line 187 panics on an unterminated attribute: in a
line `pre ++ URI="v` with no double quote in `v`, `uriEnd` is `uriStart - 1`. -/
theorem processSpecialTag_unterminated (baseURL : URL) (originalHeaders pre v : GoString)
    (hfirst : ¬ ascii "URI=\"" <:+: pre ++ ascii "URI=") (hv : (34 : Byte) ∉ v) :
    processSpecialTag net (pre ++ ascii "URI=\"" ++ v) baseURL originalHeaders = none := by
  have hq : ascii "\"" = [(34 : Byte)] := by decide
  have hlen : (ascii "URI=\"").length = 5 := by decide
  have hdl : (ascii "URI=\"").dropLast = ascii "URI=" := by decide
  have hne : ascii "URI=\"" ≠ [] := by decide
  have hIdx : strings.Index (pre ++ ascii "URI=\"" ++ v) (ascii "URI=\"")
      = (pre.length : Int) :=
    strings.Index_first (ascii "URI=\"") pre v hne (by rw [hdl]; exact hfirst)
  have hTail : strings.Index v (ascii "\"") = -1 := by
    rw [hq]
    exact strings.indexFrom_absent _ _ _ (by simp)
      (fun hin => hv (List.singleton_sublist.mp hin.sublist))
  have s1 : sliceFrom (pre ++ ascii "URI=\"" ++ v) ((pre.length : Int) + 5) = some v := by
    unfold sliceFrom
    apply slice_eq _ (pre ++ ascii "URI=\"") v []
    · simp
    · simp [hlen]
    · simp only [List.length_append, hlen]; push_cast; ring
  have s2 : slice (pre ++ ascii "URI=\"" ++ v) ((pre.length : Int) + 5)
      (-1 + ((pre.length : Int) + 5)) = none := by
    unfold slice
    rw [if_neg (by omega)]
  unfold processSpecialTag
  rw [if_pos (Contains_of_Index _ _ _ hIdx)]
  simp only [hIdx]
  rw [s1]
  simp only [Option.some_bind, hTail]
  rw [s2]
  rfl

/-- C5, as amended. Which URI references are rewritten: in every playlist that
`processM3U8Content` rewrites, a scanned directive line that starts neither
with `#EXT-X-KEY` nor with `#EXT-X-MAP` appears unchanged at the same position
of the output, whatever `URI="..."` attribute it carries; a line that starts
with one of the two tags and holds a quoted `URI="v"` (the first `URI="` of the
line, `v` resolving to `R`) appears with `v` replaced by the token of `R`. -/
theorem only_key_and_map_rewritten (content : GoString) (baseURL : URL)
    (originalHeaders out : GoString) (err : Option bufio.Error)
    (h : processM3U8Content net content baseURL originalHeaders = some (out, err))
    (i : Nat) (L : GoString) (hL : (bufio.scanLines content).1[i]? = some L)
    (hhash : strings.HasPrefix L (ascii "#") = true) :
    (strings.HasPrefix L (ascii "#EXT-X-KEY") = false →
      strings.HasPrefix L (ascii "#EXT-X-MAP") = false →
      (splitLines out)[i]? = some L)
    ∧ (strings.HasPrefix L (ascii "#EXT-X-KEY") = true
        ∨ strings.HasPrefix L (ascii "#EXT-X-MAP") = true →
      ∀ (pre v post : GoString) (R : URL),
        L = pre ++ ascii "URI=\"" ++ v ++ ascii "\"" ++ post →
        ¬ ascii "URI=\"" <:+: pre ++ ascii "URI=" →
        (34 : Byte) ∉ v →
        net.ParseRef baseURL v = some R →
        (splitLines out)[i]?
          = some (pre ++ ascii "URI=\"" ++ token (net.String R) originalHeaders ++ ascii "\""
              ++ post)) := by
  obtain ⟨o, ho, hp⟩ := processM3U8Content_line net content baseURL originalHeaders out err
    h i L hL
  constructor
  · intro hkey hmap
    rw [processLine_other_directive net L baseURL originalHeaders hhash hkey hmap] at hp
    simp only [Option.some.injEq] at hp
    rw [ho, hp]
  · intro htag pre v post R hLeq hfirst hv hres
    rw [processLine_tag net L baseURL originalHeaders htag, hLeq,
      processSpecialTag_splice net baseURL originalHeaders pre v post R hfirst hv hres] at hp
    simp only [Option.some.injEq] at hp
    rw [ho, hp]

/-- C7, as amended. Directive passthrough: a line that starts with `#` and
that either starts with neither `#EXT-X-KEY` nor `#EXT-X-MAP` or does not
contain `URI="` is returned unchanged by the loop body; `processSpecialTag`
returns a line without `URI="` unchanged; and `processM3U8Content` returns
such a line unchanged, without error, when the line is as the scanner yields
lines: no newline in it, no carriage return at its end, shorter than the
scanner's buffer. -/
theorem directive_passthrough (L : GoString) (baseURL : URL) (originalHeaders : GoString)
    (hhash : strings.HasPrefix L (ascii "#") = true)
    (huri : strings.HasPrefix L (ascii "#EXT-X-KEY") = true
        ∨ strings.HasPrefix L (ascii "#EXT-X-MAP") = true →
      strings.Contains L (ascii "URI=\"") = false) :
    processLine net L baseURL originalHeaders = some L
    ∧ (strings.Contains L (ascii "URI=\"") = false →
        processSpecialTag net L baseURL originalHeaders = some L)
    ∧ ((10 : Byte) ∉ L → L.getLast? ≠ some 13 → L.length < bufio.MaxScanTokenSize →
        processM3U8Content net L baseURL originalHeaders = some (L, none)) := by
  have hline : processLine net L baseURL originalHeaders = some L := by
    by_cases htag : strings.HasPrefix L (ascii "#EXT-X-KEY") = true
        ∨ strings.HasPrefix L (ascii "#EXT-X-MAP") = true
    · rw [processLine_tag net L baseURL originalHeaders htag]
      exact processSpecialTag_no_URI net L baseURL originalHeaders (huri htag)
    · simp only [not_or, Bool.not_eq_true] at htag
      exact processLine_other_directive net L baseURL originalHeaders hhash htag.1 htag.2
  refine ⟨hline, processSpecialTag_no_URI net L baseURL originalHeaders, ?_⟩
  intro hnl hcr hlen
  have hne : L ≠ [] := by
    intro e; subst e; simp [strings.HasPrefix, ascii] at hhash
  unfold processM3U8Content
  rw [bufio.scanLines_single L hne hnl hcr hlen]
  simp [processLines, hline, strings.Join]

end Directive2

theorem only_key_and_map_rewritten_witness :
    processM3U8Content rfc3986.net
        (ascii "#EXT-X-MEDIA:TYPE=AUDIO,URI=\"audio.m3u8\"\n#EXT-X-MAP:URI=\"init.mp4\"")
        exampleBase []
      = some (ascii "#EXT-X-MEDIA:TYPE=AUDIO,URI=\"audio.m3u8\"\n#EXT-X-MAP:URI=\"/anime/aHR0cHM6Ly9jZG4uZXhhbXBsZS92aWRlb3MvaW5pdC5tcDQ=\"", none)
    ∧ (bufio.scanLines
        (ascii "#EXT-X-MEDIA:TYPE=AUDIO,URI=\"audio.m3u8\"\n#EXT-X-MAP:URI=\"init.mp4\"")).1[0]?
      = some (ascii "#EXT-X-MEDIA:TYPE=AUDIO,URI=\"audio.m3u8\"")
    ∧ strings.HasPrefix (ascii "#EXT-X-MEDIA:TYPE=AUDIO,URI=\"audio.m3u8\"") (ascii "#") = true
    ∧ strings.HasPrefix (ascii "#EXT-X-MEDIA:TYPE=AUDIO,URI=\"audio.m3u8\"") (ascii "#EXT-X-KEY")
      = false
    ∧ strings.HasPrefix (ascii "#EXT-X-MEDIA:TYPE=AUDIO,URI=\"audio.m3u8\"") (ascii "#EXT-X-MAP")
      = false
    ∧ (splitLines (ascii "#EXT-X-MEDIA:TYPE=AUDIO,URI=\"audio.m3u8\"\n#EXT-X-MAP:URI=\"/anime/aHR0cHM6Ly9jZG4uZXhhbXBsZS92aWRlb3MvaW5pdC5tcDQ=\""))[0]?
      = some (ascii "#EXT-X-MEDIA:TYPE=AUDIO,URI=\"audio.m3u8\"") :=
  ⟨by decide, by decide, by decide, by decide, by decide,
    (only_key_and_map_rewritten rfc3986.net
      (ascii "#EXT-X-MEDIA:TYPE=AUDIO,URI=\"audio.m3u8\"\n#EXT-X-MAP:URI=\"init.mp4\"")
      exampleBase [] _ none (by decide) 0 (ascii "#EXT-X-MEDIA:TYPE=AUDIO,URI=\"audio.m3u8\"")
      (by decide) (by decide)).1 (by decide) (by decide)⟩

/-- C5 as stated fails: the `URI` attribute of an `#EXT-X-MEDIA` line is not
rewritten; the line is returned as it is, still naming `audio.m3u8`. -/
theorem every_uri_rewritten_counterexample :
    strings.HasPrefix (ascii "#EXT-X-MEDIA:TYPE=AUDIO,URI=\"audio.m3u8\"") (ascii "#") = true
    ∧ strings.Contains (ascii "#EXT-X-MEDIA:TYPE=AUDIO,URI=\"audio.m3u8\"") (ascii "URI=\"")
      = true
    ∧ processM3U8Content rfc3986.net (ascii "#EXT-X-MEDIA:TYPE=AUDIO,URI=\"audio.m3u8\"")
        exampleBase []
      = some (ascii "#EXT-X-MEDIA:TYPE=AUDIO,URI=\"audio.m3u8\"", none)
    ∧ strings.Contains (ascii "#EXT-X-MEDIA:TYPE=AUDIO,URI=\"audio.m3u8\"") (ascii "/anime/")
      = false := by
  decide

/-- C6: the code fails on an unterminated attribute. In the line
`#EXT-X-KEY:METHOD=AES-128,URI="key.bin` the opener `URI="` is at offset 26,
so `uriStart` is 31; no double quote follows, so `uriEnd` is `-1 + 31`, and
the slice expression `line[31:30]` panics, in `processSpecialTag` and so in
`processM3U8Content`. -/
theorem unterminated_uri_panics :
    strings.Index (ascii "#EXT-X-KEY:METHOD=AES-128,URI=\"key.bin") (ascii "URI=\"") + 5 = 31
    ∧ sliceFrom (ascii "#EXT-X-KEY:METHOD=AES-128,URI=\"key.bin") 31 = some (ascii "key.bin")
    ∧ strings.Index (ascii "key.bin") (ascii "\"") + 31 = 30
    ∧ slice (ascii "#EXT-X-KEY:METHOD=AES-128,URI=\"key.bin") 31 30 = none
    ∧ processSpecialTag rfc3986.net (ascii "#EXT-X-KEY:METHOD=AES-128,URI=\"key.bin")
        exampleBase [] = none
    ∧ processM3U8Content rfc3986.net
        (ascii "#EXTM3U\n#EXT-X-KEY:METHOD=AES-128,URI=\"key.bin\nsegment1.ts") exampleBase []
      = none := by
  decide

theorem directive_passthrough_witness :
    strings.HasPrefix (ascii "#EXT-X-KEY:METHOD=NONE") (ascii "#") = true
    ∧ (strings.HasPrefix (ascii "#EXT-X-KEY:METHOD=NONE") (ascii "#EXT-X-KEY") = true
        ∨ strings.HasPrefix (ascii "#EXT-X-KEY:METHOD=NONE") (ascii "#EXT-X-MAP") = true →
      strings.Contains (ascii "#EXT-X-KEY:METHOD=NONE") (ascii "URI=\"") = false)
    ∧ processLine rfc3986.net (ascii "#EXT-X-KEY:METHOD=NONE") exampleBase []
      = some (ascii "#EXT-X-KEY:METHOD=NONE")
    ∧ (strings.Contains (ascii "#EXT-X-KEY:METHOD=NONE") (ascii "URI=\"") = false →
        processSpecialTag rfc3986.net (ascii "#EXT-X-KEY:METHOD=NONE") exampleBase []
          = some (ascii "#EXT-X-KEY:METHOD=NONE"))
    ∧ ((10 : Byte) ∉ ascii "#EXT-X-KEY:METHOD=NONE" →
        (ascii "#EXT-X-KEY:METHOD=NONE").getLast? ≠ some 13 →
        (ascii "#EXT-X-KEY:METHOD=NONE").length < bufio.MaxScanTokenSize →
        processM3U8Content rfc3986.net (ascii "#EXT-X-KEY:METHOD=NONE") exampleBase []
          = some (ascii "#EXT-X-KEY:METHOD=NONE", none)) :=
  ⟨by decide, by decide,
    directive_passthrough rfc3986.net (ascii "#EXT-X-KEY:METHOD=NONE") exampleBase []
      (by decide) (by decide)⟩

/-- C7 as stated fails: the line `"#EXTM3U\r"`, which starts with `#` and has
no `URI` attribute, is returned by `processM3U8Content` without its carriage
return. -/
theorem directive_passthrough_counterexample :
    strings.HasPrefix (ascii "#EXTM3U\r") (ascii "#") = true
    ∧ strings.Contains (ascii "#EXTM3U\r") (ascii "URI=\"") = false
    ∧ processM3U8Content rfc3986.net (ascii "#EXTM3U\r") exampleBase []
      = some (ascii "#EXTM3U", none)
    ∧ ascii "#EXTM3U" ≠ ascii "#EXTM3U\r" := by
  decide

/-! ## The headers blob (C8) -/

namespace url

theorem upperhex_unhex :
    ∀ i : Fin 16, ishex (upperhex.getD i.val 0) = true ∧ unhex (upperhex.getD i.val 0) = i.val := by
  decide

theorem nibbles (c : Byte) :
    (Fin.ofNat ((c.val >>> 4) <<< 4 ||| (c.val &&& 15)) : Byte) = c := by
  have hc := c.isLt
  have e1 : c.val &&& 15 = c.val % 16 := Nat.and_pow_two_sub_one_eq_mod c.val 4
  have e2 : (c.val >>> 4) <<< 4 ||| c.val % 16 = 2 ^ 4 * (c.val / 16) + c.val % 16 := by
    rw [Nat.mul_add_lt_is_or (by omega), Nat.shiftLeft_eq, Nat.shiftRight_eq_div_pow]
    congr 1
    ring
  rw [e1, e2]
  apply Fin.ext
  simp only [Fin.ofNat]
  omega

/-- Unescaping inverts escaping: `QueryUnescape (QueryEscape s)` is `s`,
without error, for every byte string `s`. -/
theorem QueryUnescape_QueryEscape (s : GoString) : QueryUnescape (QueryEscape s) = some s := by
  induction s with
  | nil => rfl
  | cons c rest ih =>
    unfold QueryEscape
    by_cases he : shouldEscape c = true
    · rw [if_pos he]
      by_cases hs : c = 32
      · rw [if_pos hs]
        unfold QueryUnescape
        rw [if_neg (by decide), if_pos rfl, ih, hs]
        rfl
      · rw [if_neg hs]
        have hlt1 : c.val >>> 4 < 16 := by
          have := c.isLt
          rw [Nat.shiftRight_eq_div_pow]; omega
        have hlt2 : c.val &&& 15 < 16 := by
          rw [Nat.and_pow_two_sub_one_eq_mod c.val 4]; omega
        have h1 := upperhex_unhex ⟨_, hlt1⟩
        have h2 := upperhex_unhex ⟨_, hlt2⟩
        simp only at h1 h2
        unfold QueryUnescape
        rw [if_pos rfl]
        simp only [h1.1, h2.1, and_self, if_true, h1.2, h2.2, ih, Option.map_some', nibbles]
    · rw [if_neg he]
      have hp := shouldEscape_false_plain c (by simpa using he)
      unfold QueryUnescape
      rw [if_neg hp.2.2.2.1, if_neg hp.2.2.2.2, ih]
      rfl

theorem QueryEscape_no_separator (s : GoString) :
    ∀ c ∈ QueryEscape s, c ≠ 38 ∧ c ≠ 59 ∧ c ≠ 61 := by
  intro c hc
  rcases QueryEscape_bytes s c hc with h | h | h
  · refine ⟨?_, ?_, ?_⟩ <;> (rintro rfl; revert h; decide)
  · subst h; decide
  · subst h; decide

theorem dropWhile_append_of_pos {p : Byte → Bool} (l₁ l₂ : GoString) (h : ∀ c ∈ l₁, p c = true) :
    (l₁ ++ l₂).dropWhile p = l₂.dropWhile p := by
  induction l₁ with
  | nil => rfl
  | cons a l ih =>
    rw [List.cons_append, List.dropWhile_cons, if_pos (h a (List.mem_cons_self _ _))]
    exact ih (fun c hc => h c (List.mem_cons_of_mem _ hc))

theorem takeWhile_all {p : Byte → Bool} (l : GoString) (h : ∀ c ∈ l, p c = true) :
    l.takeWhile p = l := by
  induction l with
  | nil => rfl
  | cons a l ih =>
    rw [List.takeWhile_cons, if_pos (h a (List.mem_cons_self _ _)),
      ih (fun c hc => h c (List.mem_cons_of_mem _ hc))]

theorem dropWhile_all {p : Byte → Bool} (l : GoString) (h : ∀ c ∈ l, p c = true) :
    l.dropWhile p = [] := by
  induction l with
  | nil => rfl
  | cons a l ih =>
    rw [List.dropWhile_cons, if_pos (h a (List.mem_cons_self _ _)),
      ih (fun c hc => h c (List.mem_cons_of_mem _ hc))]

theorem parseQueryLoop_nil (fuel : Nat) : parseQueryLoop fuel [] = [] := by
  cases fuel <;> simp [parseQueryLoop]

set_option maxRecDepth 100000 in
theorem headersName_plain : ∀ c ∈ ascii "headers", c ≠ 38 ∧ c ≠ 59 ∧ c ≠ 61 := by decide

/-- The query `headers=` followed by an escaped blob parses to the one pair
`headers`, blob. -/
theorem ParseQuery_headers (h : GoString) :
    ParseQuery (ascii "headers=" ++ QueryEscape h) = [(ascii "headers", h)] := by
  have hsplit : ascii "headers=" = ascii "headers" ++ [(61 : Byte)] := by decide
  have hq : ∀ c ∈ ascii "headers=" ++ QueryEscape h, c ≠ 38 ∧ c ≠ 59 := by
    intro c hc
    rcases List.mem_append.mp hc with m | m
    · rw [hsplit] at m
      rcases List.mem_append.mp m with m | m
      · exact ⟨(headersName_plain c m).1, (headersName_plain c m).2.1⟩
      · simp only [List.mem_singleton] at m; subst m; decide
    · exact ⟨(QueryEscape_no_separator h c m).1, (QueryEscape_no_separator h c m).2.1⟩
  have hne : ascii "headers=" ++ QueryEscape h ≠ [] := by
    rw [hsplit]; simp
  have hlen : (ascii "headers=" ++ QueryEscape h).length
      = ((ascii "headers=" ++ QueryEscape h).length - 1) + 1 := by
    have := List.length_pos.mpr hne
    omega
  have hcut1 : cut (ascii "headers=" ++ QueryEscape h) 38
      = (ascii "headers=" ++ QueryEscape h, []) := by
    unfold cut
    rw [takeWhile_all _ (fun c hc => by simpa using (hq c hc).1),
      dropWhile_all _ (fun c hc => by simpa using (hq c hc).1)]
    rfl
  have hcut2 : cut (ascii "headers=" ++ QueryEscape h) 61 = (ascii "headers", QueryEscape h) := by
    unfold cut
    rw [hsplit, List.append_assoc,
      List.takeWhile_append_of_pos (fun c hc => by simpa using (headersName_plain c hc).2.2),
      dropWhile_append_of_pos _ _ (fun c hc => by simpa using (headersName_plain c hc).2.2)]
    simp
  have hsemi : strings.Contains (ascii "headers=" ++ QueryEscape h) (ascii ";") = false := by
    have e : ascii ";" = [(59 : Byte)] := by decide
    unfold strings.Contains strings.Index
    rw [e, strings.indexFrom_absent _ _ _ (by simp)
      (fun hin => (hq 59 (List.singleton_sublist.mp hin.sublist)).2 rfl)]
    rfl
  have hname : QueryUnescape (ascii "headers") = some (ascii "headers") := by decide
  unfold ParseQuery
  rw [hlen, parseQueryLoop, if_neg hne]
  simp only [hcut1, hsemi, hne, hcut2, hname, QueryUnescape_QueryEscape, parseQueryLoop_nil,
    Bool.false_eq_true, if_false]

end url

theorem requestRawQuery_token (u h : GoString) :
    url.requestRawQuery (token u h)
      = if h ≠ [] then ascii "headers=" ++ url.QueryEscape h else [] := by
  have hp := tokenPath_plain u
  unfold url.requestRawQuery
  rw [token_eq, url.dropWhile_append_of_pos _ _ (fun c hc => by simpa using (hp c hc).1)]
  by_cases hh : h = []
  · simp [hh]
  · simp only [hh, ne_eq, not_false_eq_true, if_true]
    have : ascii "?headers=" = (63 : Byte) :: ascii "headers=" := by decide
    rw [this]
    simp

/-- The handler of a request for a token reads back the blob the token was
made with. -/
theorem requestHeaders_token (u h : GoString) : url.requestHeaders (token u h) = h := by
  unfold url.requestHeaders
  rw [requestRawQuery_token]
  by_cases hh : h = []
  · subst hh; decide
  · simp only [hh, ne_eq, not_false_eq_true, if_true]
    rw [url.ParseQuery_headers]
    simp [url.Get]

section Headers

variable {URL : Type} (net : NetURL URL)

/-- C8. Headers-blob propagation: the token that `processURL` returns for a
reference resolving to `R`, and that `processSpecialTag` splices in, is the
route prefix and the encoded URL, followed for a non-empty blob `H` by
`"?headers="` and `QueryEscape(H)` and for the empty blob by nothing;
unescaping that query value gives `H`, and so does
`r.URL.Query().Get("headers")` in the handler of the request for the token,
which is the blob the next generation of tokens is made with. -/
theorem headers_blob_propagation (baseURL : URL) (urlStr H : GoString) (R : URL)
    (hne : urlStr ≠ []) (hres : net.ParseRef baseURL urlStr = some R) :
    (H ≠ [] → processURL net urlStr baseURL H
        = ascii "/anime/" ++ base64.EncodeToString (net.String R)
          ++ (ascii "?headers=" ++ url.QueryEscape H))
    ∧ (H = [] → processURL net urlStr baseURL H
        = ascii "/anime/" ++ base64.EncodeToString (net.String R))
    ∧ url.QueryUnescape (url.QueryEscape H) = some H
    ∧ url.requestHeaders (processURL net urlStr baseURL H) = H
    ∧ (∀ pre post : GoString, ¬ ascii "URI=\"" <:+: pre ++ ascii "URI=" → (34 : Byte) ∉ urlStr →
        processSpecialTag net (pre ++ ascii "URI=\"" ++ urlStr ++ ascii "\"" ++ post) baseURL H
          = some (pre ++ ascii "URI=\"" ++ processURL net urlStr baseURL H ++ ascii "\""
              ++ post)) := by
  have hu : processURL net urlStr baseURL H = token (net.String R) H := by
    rw [processURL_eq]; simp [hne, hres]
  rw [hu]
  refine ⟨?_, ?_, url.QueryUnescape_QueryEscape H, requestHeaders_token _ _, ?_⟩
  · intro hH; rw [token_eq, if_pos hH]
  · intro hH; rw [token_eq, if_neg (by simp [hH])]; simp
  · intro pre post hfirst hv
    exact processSpecialTag_splice net baseURL H pre urlStr post R hfirst hv hres

end Headers

theorem headers_blob_propagation_witness :
    ascii "segment1.ts" ≠ []
    ∧ rfc3986.net.ParseRef exampleBase (ascii "segment1.ts")
        = some (rfc3986.split (ascii "https://cdn.example/videos/segment1.ts"))
    ∧ processURL rfc3986.net (ascii "segment1.ts") exampleBase (ascii "a b&c=d%/~")
        = ascii "/anime/aHR0cHM6Ly9jZG4uZXhhbXBsZS92aWRlb3Mvc2VnbWVudDEudHM=?headers=a+b%26c%3Dd%25%2F~"
    ∧ url.requestHeaders (processURL rfc3986.net (ascii "segment1.ts") exampleBase
        (ascii "a b&c=d%/~")) = ascii "a b&c=d%/~" :=
  ⟨by decide, by decide, by decide,
    (headers_blob_propagation rfc3986.net exampleBase (ascii "segment1.ts")
      (ascii "a b&c=d%/~") (rfc3986.split (ascii "https://cdn.example/videos/segment1.ts"))
      (by decide) (by decide)).2.2.2.1⟩

/-! ## The domain matcher (C9) -/

section MatcherProps

variable {URL Re : Type} (net : NetURL URL) (re : Regexp Re)

/-- The inner loop succeeds exactly when the template has a compiled pattern
that matches. -/
theorem matchPatterns_iff (compiledPatterns : GoMap Re) (hostname : GoString)
    (patterns : List GoString) :
    matchPatterns re compiledPatterns hostname patterns = true
      ↔ ∃ pattern ∈ patterns, ∃ r, compiledPatterns.get pattern = some r
          ∧ re.MatchString r hostname = true := by
  induction patterns with
  | nil => simp [matchPatterns]
  | cons p rest ih =>
    unfold matchPatterns
    cases hget : compiledPatterns.get p with
    | none =>
      simp only [List.mem_cons, exists_eq_or_imp, hget, reduceCtorEq, false_and, exists_false,
        false_or]
      exact ih
    | some r =>
      by_cases hm : re.MatchString r hostname = true
      · simp only [hm, if_true, true_iff]
        exact ⟨p, List.mem_cons_self _ _, r, hget, hm⟩
      · simp only [hm, if_false, List.mem_cons, exists_eq_or_imp, hget, Option.some.injEq,
          exists_eq_left', false_or, Bool.false_eq_true]
        exact ih

theorem matchPatterns_iff_templateMatches (compiledPatterns : GoMap Re) (hostname : GoString)
    (template : DomainTemplate) :
    matchPatterns re compiledPatterns hostname template.Patterns = true
      ↔ templateMatches re compiledPatterns hostname template := by
  rw [matchPatterns_iff]
  simp only [templateMatches, Option.mem_def, exists_prop]

/-- The outer loop returns the first template that matches. -/
theorem matchTemplates_eq_some_iff (compiledPatterns : GoMap Re) (hostname : GoString)
    (templates : List DomainTemplate) (t : DomainTemplate) :
    matchTemplates re compiledPatterns hostname templates = some t
      ↔ ∃ i, templates[i]? = some t ∧ templateMatches re compiledPatterns hostname t
          ∧ ∀ j : Nat, j < i → ∀ t2, templates[j]? = some t2 →
              ¬ templateMatches re compiledPatterns hostname t2 := by
  induction templates with
  | nil => simp [matchTemplates]
  | cons a rest ih =>
    unfold matchTemplates
    by_cases hm : matchPatterns re compiledPatterns hostname a.Patterns = true
    · have ha := (matchPatterns_iff_templateMatches re compiledPatterns hostname a).mp hm
      rw [if_pos hm]
      constructor
      · intro h
        simp only [Option.some.injEq] at h
        subst h
        exact ⟨0, by simp, ha, fun j hj => absurd hj (Nat.not_lt_zero j)⟩
      · rintro ⟨i, hi, _, hfirst⟩
        cases i with
        | zero => simpa using hi
        | succ i => exact absurd ha (hfirst 0 (Nat.succ_pos i) a (by simp))
    · have ha : ¬ templateMatches re compiledPatterns hostname a :=
        fun h => hm ((matchPatterns_iff_templateMatches re compiledPatterns hostname a).mpr h)
      rw [if_neg hm, ih]
      constructor
      · rintro ⟨i, hi, ht, hfirst⟩
        refine ⟨i + 1, by simpa using hi, ht, ?_⟩
        intro j hj t2 hj2
        cases j with
        | zero =>
          simp only [List.getElem?_cons_zero, Option.some.injEq] at hj2
          subst hj2; exact ha
        | succ j =>
          simp only [List.getElem?_cons_succ] at hj2
          exact hfirst j (by omega) t2 hj2
      · rintro ⟨i, hi, ht, hfirst⟩
        cases i with
        | zero =>
          simp only [List.getElem?_cons_zero, Option.some.injEq] at hi
          subst hi; exact absurd ht ha
        | succ i =>
          simp only [List.getElem?_cons_succ] at hi
          refine ⟨i, hi, ht, ?_⟩
          intro j hj t2 hj2
          exact hfirst (j + 1) (by omega) t2 (by simpa using hj2)

/-- The outer loop returns `nil` exactly when no template matches. -/
theorem matchTemplates_eq_none_iff (compiledPatterns : GoMap Re) (hostname : GoString)
    (templates : List DomainTemplate) :
    matchTemplates re compiledPatterns hostname templates = none
      ↔ ∀ t ∈ templates, ¬ templateMatches re compiledPatterns hostname t := by
  induction templates with
  | nil => simp [matchTemplates]
  | cons a rest ih =>
    unfold matchTemplates
    by_cases hm : matchPatterns re compiledPatterns hostname a.Patterns = true
    · have ha := (matchPatterns_iff_templateMatches re compiledPatterns hostname a).mp hm
      rw [if_pos hm]
      simp only [reduceCtorEq, List.mem_cons, forall_eq_or_imp, false_iff, not_and]
      exact fun h => absurd ha h
    · have ha : ¬ templateMatches re compiledPatterns hostname a :=
        fun h => hm ((matchPatterns_iff_templateMatches re compiledPatterns hostname a).mpr h)
      rw [if_neg hm, ih]
      simp [ha]

/-- C9. First-match-wins: for every configuration, every compiled-pattern
cache and every target URL that parses, `findMatchingTemplate` returns the
template `t` exactly when `t` stands at some position of the configured
templates, has a compiled pattern that matches the hostname, and no template
at an earlier position has one; it returns `nil` exactly when no template has
one; and its result depends on the URL through the hostname alone. -/
theorem first_match_wins (config : Config) (compiledPatterns : GoMap Re) (urlStr : GoString)
    (parsedURL : URL) (hparse : net.Parse urlStr = some parsedURL) :
    (∀ t, findMatchingTemplate net re config compiledPatterns urlStr = some t
      ↔ ∃ i, config.DomainTemplates[i]? = some t
          ∧ templateMatches re compiledPatterns (net.Hostname parsedURL) t
          ∧ ∀ j : Nat, j < i → ∀ t2, config.DomainTemplates[j]? = some t2 →
              ¬ templateMatches re compiledPatterns (net.Hostname parsedURL) t2)
    ∧ (findMatchingTemplate net re config compiledPatterns urlStr = none
      ↔ ∀ t ∈ config.DomainTemplates,
          ¬ templateMatches re compiledPatterns (net.Hostname parsedURL) t)
    ∧ (∀ (urlStr2 : GoString) (parsedURL2 : URL), net.Parse urlStr2 = some parsedURL2 →
        net.Hostname parsedURL2 = net.Hostname parsedURL →
        findMatchingTemplate net re config compiledPatterns urlStr2
          = findMatchingTemplate net re config compiledPatterns urlStr) := by
  have e : findMatchingTemplate net re config compiledPatterns urlStr
      = matchTemplates re compiledPatterns (net.Hostname parsedURL) config.DomainTemplates := by
    unfold findMatchingTemplate
    rw [hparse]
  refine ⟨?_, ?_, ?_⟩
  · intro t
    rw [e]
    exact matchTemplates_eq_some_iff re compiledPatterns _ _ t
  · rw [e]
    exact matchTemplates_eq_none_iff re compiledPatterns _ _
  · intro urlStr2 parsedURL2 hparse2 hhost
    rw [e]
    unfold findMatchingTemplate
    rw [hparse2]
    simp only [hhost]

end MatcherProps

theorem first_match_wins_witness :
    rfc3986.net.Parse (ascii "https://cdn.example/videos/stream.m3u8") = some exampleBase
    ∧ rfc3986.net.Hostname exampleBase = ascii "cdn.example"
    ∧ findMatchingTemplate rfc3986.net literal.re exampleConfig exampleCache
        (ascii "https://cdn.example/videos/stream.m3u8") = some exampleFirst
    ∧ (∃ i, exampleConfig.DomainTemplates[i]? = some exampleFirst
        ∧ templateMatches literal.re exampleCache (rfc3986.net.Hostname exampleBase) exampleFirst
        ∧ ∀ j : Nat, j < i → ∀ t2, exampleConfig.DomainTemplates[j]? = some t2 →
            ¬ templateMatches literal.re exampleCache (rfc3986.net.Hostname exampleBase) t2) :=
  ⟨by decide, by decide, by decide,
    ((first_match_wins rfc3986.net literal.re exampleConfig exampleCache
      (ascii "https://cdn.example/videos/stream.m3u8") exampleBase (by decide)).1
      exampleFirst).mp (by decide)⟩

/-! ## Token decoding in the handler (C10) -/

namespace base64

theorem decodeMap_mem (c : Byte) (h : decodeMap c ≠ 0xff) : c ∈ encodeURL := by
  unfold decodeMap at h
  simp only at h
  split at h
  · rename_i hlt
    have hl : encodeURL.length = 64 := by decide
    exact List.indexOf_lt_length.mp (by rw [hl]; exact hlt)
  · exact absurd rfl h

theorem skipNewlines_eq_nil (s : GoString) (h : skipNewlines s = []) :
    ∀ c ∈ s, c = 10 ∨ c = 13 := by
  induction s with
  | nil => simp
  | cons a rest ih =>
    unfold skipNewlines at h
    split at h
    · rename_i ha
      intro c hc
      rcases List.mem_cons.mp hc with e | m
      · subst e; exact ha
      · exact ih h c m
    · simp at h

theorem skipNewlines_eq_cons (s : GoString) (p : Byte) (r : GoString)
    (h : skipNewlines s = p :: r) : ∀ c ∈ s, (c = 10 ∨ c = 13) ∨ c = p ∨ c ∈ r := by
  induction s with
  | nil => simp
  | cons a rest ih =>
    unfold skipNewlines at h
    split at h
    · rename_i ha
      intro c hc
      rcases List.mem_cons.mp hc with e | m
      · subst e; exact Or.inl ha
      · exact ih h c m
    · simp only [List.cons.injEq] at h
      obtain ⟨h1, h2⟩ := h
      subst h1 h2
      intro c hc
      rcases List.mem_cons.mp hc with e | m
      · exact Or.inr (Or.inl e)
      · exact Or.inr (Or.inr m)

/-- What the decoder accepts is made of alphabet bytes, padding characters,
carriage returns and newlines only. -/
theorem decodeLoop_bytes (s : GoString) (j : Nat) (dbuf : List Nat) (out : GoString)
    (h : decodeLoop s j dbuf = some out) :
    ∀ c ∈ s, isTokenByte c ∨ c = 10 ∨ c = 13 := by
  induction s generalizing j dbuf out with
  | nil => simp
  | cons a rest ih =>
    unfold decodeLoop at h
    split at h
    · rename_i hmap
      have hrest : ∀ c ∈ rest, isTokenByte c ∨ c = 10 ∨ c = 13 := by
        split at h
        · simp only [Option.map_eq_some'] at h
          obtain ⟨o, ho, _⟩ := h
          exact ih _ _ _ ho
        · exact ih _ _ _ h
      intro c hc
      rcases List.mem_cons.mp hc with e | m
      · subst e; exact Or.inl (Or.inl (decodeMap_mem _ hmap))
      · exact hrest c m
    · split at h
      · rename_i hnl
        intro c hc
        rcases List.mem_cons.mp hc with e | m
        · subst e; exact Or.inr hnl
        · exact ih _ _ _ h c m
      · split at h
        · simp at h
        · rename_i hpad
          have hpad2 : a = padChar := by simpa using hpad
          split at h
          · simp at h
          · split at h
            · split at h
              · simp at h
              · rename_i p rest2 hskip
                split at h
                · simp at h
                · rename_i hp
                  have hp2 : p = padChar := by simpa using hp
                  split at h
                  · simp at h
                  · rename_i hskip2
                    have hnil : skipNewlines rest2 = [] := by simpa using hskip2
                    intro c hc
                    rcases List.mem_cons.mp hc with e | m
                    · subst e; exact Or.inl (Or.inr hpad2)
                    · rcases skipNewlines_eq_cons rest p rest2 hskip c m with e | e | e
                      · exact Or.inr e
                      · exact Or.inl (Or.inr (e.trans hp2))
                      · exact Or.inr (skipNewlines_eq_nil rest2 hnil c e)
            · split at h
              · simp at h
              · rename_i hskip
                have hnil : skipNewlines rest = [] := by simpa using hskip
                intro c hc
                rcases List.mem_cons.mp hc with e | m
                · subst e; exact Or.inl (Or.inr hpad2)
                · exact Or.inr (skipNewlines_eq_nil rest hnil c m)

/-- A segment with a byte outside the alphabet, the padding character, the
carriage return and the newline does not decode. -/
theorem DecodeString_invalid_byte (seg : GoString)
    (h : ∃ c ∈ seg, ¬ isTokenByte c ∧ c ≠ 10 ∧ c ≠ 13) : DecodeString seg = none := by
  obtain ⟨c, hc, h1, h2, h3⟩ := h
  cases hd : DecodeString seg with
  | none => rfl
  | some out =>
    rcases decodeLoop_bytes seg 0 [] out hd c hc with e | e | e
    · exact absurd e h1
    · exact absurd e h2
    · exact absurd e h3

/-- A string that starts with a slash does not decode. -/
theorem DecodeString_slash (rest : GoString) : DecodeString ((47 : Byte) :: rest) = none := by
  apply DecodeString_invalid_byte
  exact ⟨47, List.mem_cons_self _ _, by decide⟩

theorem decodeMap_ne_iff (c : Byte) : decodeMap c ≠ 0xff ↔ c ∈ encodeURL := by
  constructor
  · exact decodeMap_mem c
  · intro h
    have hl : encodeURL.length = 64 := by decide
    have hi : encodeURL.indexOf c < 64 := by
      rw [← hl]
      exact List.indexOf_lt_length.mpr h
    unfold decodeMap
    simp only
    rw [if_pos hi]
    omega

theorem wellFormed_bad1 (a : Byte) (t : GoString) (h : a ∉ encodeURL) :
    wellFormed (a :: t) = false := by
  rcases t with _ | ⟨b, _ | ⟨c, _ | ⟨d, rest⟩⟩⟩ <;> simp [wellFormed, h]

theorem wellFormed_bad2 (a b : Byte) (t : GoString) (h : b ∉ encodeURL) :
    wellFormed (a :: b :: t) = false := by
  rcases t with _ | ⟨c, _ | ⟨d, rest⟩⟩ <;> simp [wellFormed, h]

theorem wellFormed_bad3 (a b c : Byte) (t : GoString) (h : c ∉ encodeURL) (hp : c ≠ padChar) :
    wellFormed (a :: b :: c :: t) = false := by
  rcases t with _ | ⟨d, rest⟩ <;> simp [wellFormed, h, hp]

theorem wellFormed_bad4 (a b c d : Byte) (t : GoString) (h : d ∉ encodeURL) (hp : d ≠ padChar) :
    wellFormed (a :: b :: c :: d :: t) = false := by
  simp [wellFormed, h, hp]

theorem stripNewlines_cons_newline (c : Byte) (rest : GoString) (h : c = 10 ∨ c = 13) :
    stripNewlines (c :: rest) = stripNewlines rest := by
  unfold stripNewlines
  rw [List.filter_cons_of_neg (by rcases h with e | e <;> simp [e])]

theorem stripNewlines_cons_other (c : Byte) (rest : GoString) (h : ¬ (c = 10 ∨ c = 13)) :
    stripNewlines (c :: rest) = c :: stripNewlines rest := by
  unfold stripNewlines
  rw [List.filter_cons_of_pos (by simpa using h)]

theorem stripNewlines_skipNewlines (s : GoString) :
    stripNewlines (skipNewlines s) = stripNewlines s := by
  induction s with
  | nil => rfl
  | cons c rest ih =>
    unfold skipNewlines
    split
    · rename_i h
      rw [ih, stripNewlines_cons_newline c rest h]
    · rfl

theorem skipNewlines_head (s : GoString) (p : Byte) (r : GoString)
    (h : skipNewlines s = p :: r) : ¬ (p = 10 ∨ p = 13) := by
  induction s with
  | nil => simp [skipNewlines] at h
  | cons c rest ih =>
    unfold skipNewlines at h
    split at h
    · exact ih h
    · rename_i hc
      simp only [List.cons.injEq] at h
      rw [← h.1]
      exact hc

theorem stripNewlines_of_skip_nil (s : GoString) (h : skipNewlines s = []) :
    stripNewlines s = [] := by
  rw [← stripNewlines_skipNewlines, h]
  rfl

theorem stripNewlines_of_skip_cons (s : GoString) (p : Byte) (r : GoString)
    (h : skipNewlines s = p :: r) : stripNewlines s = p :: stripNewlines r := by
  rw [← stripNewlines_skipNewlines, h, stripNewlines_cons_other p r (skipNewlines_head s p r h)]

theorem skipNewlines_eq_nil_iff (s : GoString) : skipNewlines s = [] ↔ stripNewlines s = [] := by
  constructor
  · exact stripNewlines_of_skip_nil s
  · intro h
    cases hs : skipNewlines s with
    | nil => rfl
    | cons p r =>
      rw [stripNewlines_of_skip_cons s p r hs] at h
      simp at h

/-- The decoder accepts a string, read from position `j` of a quantum,
exactly when the string without its carriage returns and newlines completes
the quantum to well-formed text. -/
theorem decodeLoop_isSome (s : GoString) :
    ∀ dbuf : List Nat,
      (decodeLoop s 0 dbuf).isSome = wellFormed (stripNewlines s)
      ∧ (∀ a, a ∈ encodeURL →
          (decodeLoop s 1 dbuf).isSome = wellFormed (a :: stripNewlines s))
      ∧ (∀ a b, a ∈ encodeURL → b ∈ encodeURL →
          (decodeLoop s 2 dbuf).isSome = wellFormed (a :: b :: stripNewlines s))
      ∧ (∀ a b c, a ∈ encodeURL → b ∈ encodeURL → c ∈ encodeURL →
          (decodeLoop s 3 dbuf).isSome = wellFormed (a :: b :: c :: stripNewlines s)) := by
  have h10 : (10 : Byte) ∉ encodeURL := by decide
  have h13 : (13 : Byte) ∉ encodeURL := by decide
  have hpad : padChar ∉ encodeURL := by decide
  have hpadnl : ¬ (padChar = 10 ∨ padChar = 13) := by decide
  induction s with
  | nil =>
    intro dbuf
    refine ⟨rfl, fun _ _ => rfl, fun _ _ _ _ => rfl, fun _ _ _ _ _ _ => rfl⟩
  | cons x rest ih =>
    intro dbuf
    by_cases hx : x ∈ encodeURL
    · have hmap : decodeMap x ≠ 0xff := (decodeMap_ne_iff x).mpr hx
      have hnl : ¬ (x = 10 ∨ x = 13) := by
        rintro (e | e) <;> subst e
        · exact h10 hx
        · exact h13 hx
      have hxp : x ≠ padChar := fun e => hpad (e ▸ hx)
      rw [stripNewlines_cons_other x rest hnl]
      refine ⟨?_, ?_, ?_, ?_⟩
      · rw [decodeLoop, if_pos hmap, if_neg (by decide)]
        exact (ih _).2.1 x hx
      · intro a ha
        rw [decodeLoop, if_pos hmap, if_neg (by decide)]
        exact (ih _).2.2.1 a x ha hx
      · intro a b ha hb
        rw [decodeLoop, if_pos hmap, if_neg (by decide)]
        exact (ih _).2.2.2 a b x ha hb hx
      · intro a b c ha hb hc
        rw [decodeLoop, if_pos hmap, if_pos rfl, Option.isSome_map', (ih []).1]
        simp [wellFormed, ha, hb, hc, hx, hxp]
    · have hmap : ¬ decodeMap x ≠ 0xff := fun h => hx ((decodeMap_ne_iff x).mp h)
      by_cases hnl : x = 10 ∨ x = 13
      · rw [stripNewlines_cons_newline x rest hnl]
        refine ⟨?_, ?_, ?_, ?_⟩
        · rw [decodeLoop, if_neg hmap, if_pos hnl]
          exact (ih _).1
        · intro a ha
          rw [decodeLoop, if_neg hmap, if_pos hnl]
          exact (ih _).2.1 a ha
        · intro a b ha hb
          rw [decodeLoop, if_neg hmap, if_pos hnl]
          exact (ih _).2.2.1 a b ha hb
        · intro a b c ha hb hc
          rw [decodeLoop, if_neg hmap, if_pos hnl]
          exact (ih _).2.2.2 a b c ha hb hc
      · rw [stripNewlines_cons_other x rest hnl]
        by_cases hp : x = padChar
        · subst hp
          refine ⟨?_, ?_, ?_, ?_⟩
          · rw [decodeLoop, if_neg hmap, if_neg hnl, if_neg (by simp), if_pos (by simp),
              wellFormed_bad1 _ _ hx]
            rfl
          · intro a ha
            rw [decodeLoop, if_neg hmap, if_neg hnl, if_neg (by simp), if_pos (by simp),
              wellFormed_bad2 _ _ _ hx]
            rfl
          · intro a b ha hb
            rw [decodeLoop, if_neg hmap, if_neg hnl, if_neg (by simp), if_neg (by simp),
              if_pos rfl]
            cases hs : skipNewlines rest with
            | nil =>
              rw [stripNewlines_of_skip_nil rest hs]
              rfl
            | cons p rest2 =>
              rw [stripNewlines_of_skip_cons rest p rest2 hs]
              simp only
              by_cases hpp : p = padChar
              · rw [if_neg (by simp [hpp])]
                by_cases hr : skipNewlines rest2 = []
                · rw [if_neg (by simp [hr])]
                  simp [wellFormed, ha, hb, hx, hpp, (skipNewlines_eq_nil_iff rest2).mp hr]
                · rw [if_pos hr]
                  have hr2 : stripNewlines rest2 ≠ [] :=
                    fun e => hr ((skipNewlines_eq_nil_iff rest2).mpr e)
                  simp [wellFormed, ha, hb, hx, hpp, hr2]
              · rw [if_pos hpp]
                simp [wellFormed, ha, hb, hx, hpp]
          · intro a b c ha hb hc
            rw [decodeLoop, if_neg hmap, if_neg hnl, if_neg (by simp), if_neg (by simp),
              if_neg (by decide)]
            have hcp : c ≠ padChar := fun e => hpad (e ▸ hc)
            by_cases hr : skipNewlines rest = []
            · rw [if_neg (by simp [hr])]
              simp [wellFormed, ha, hb, hc, hx, (skipNewlines_eq_nil_iff rest).mp hr]
            · rw [if_pos hr]
              have hr2 : stripNewlines rest ≠ [] :=
                fun e => hr ((skipNewlines_eq_nil_iff rest).mpr e)
              simp [wellFormed, ha, hb, hc, hx, hcp, hr2]
        · refine ⟨?_, ?_, ?_, ?_⟩
          · rw [decodeLoop, if_neg hmap, if_neg hnl, if_pos hp, wellFormed_bad1 _ _ hx]
            rfl
          · intro a ha
            rw [decodeLoop, if_neg hmap, if_neg hnl, if_pos hp, wellFormed_bad2 _ _ _ hx]
            rfl
          · intro a b ha hb
            rw [decodeLoop, if_neg hmap, if_neg hnl, if_pos hp, wellFormed_bad3 _ _ _ _ hx hp]
            rfl
          · intro a b c ha hb hc
            rw [decodeLoop, if_neg hmap, if_neg hnl, if_pos hp,
              wellFormed_bad4 _ _ _ _ _ hx hp]
            rfl

/-- `DecodeString` returns bytes exactly for the strings that are well-formed
text once their carriage returns and newlines are left out. -/
theorem DecodeString_isSome (s : GoString) :
    (DecodeString s).isSome = wellFormed (stripNewlines s) :=
  (decodeLoop_isSome s []).1

theorem DecodeString_eq_none_iff (s : GoString) :
    DecodeString s = none ↔ wellFormed (stripNewlines s) = false := by
  rw [← DecodeString_isSome]
  cases DecodeString s <;> simp

theorem DecodeString_of_wellFormed (s : GoString) (h : wellFormed (stripNewlines s) = true) :
    ∃ t, DecodeString s = some t := by
  rw [← DecodeString_isSome] at h
  exact Option.isSome_iff_exists.mp h

/-- A string that starts with a slash or an asterisk is not well-formed. -/
theorem not_wellFormed_of_head (path : GoString)
    (h : path.head? = some 47 ∨ path.head? = some 42) :
    wellFormed (stripNewlines path) = false := by
  cases path with
  | nil => simp at h
  | cons a rest =>
    simp only [List.head?_cons, Option.some.injEq] at h
    rcases h with e | e <;> subst e
    · rw [stripNewlines_cons_other _ _ (by decide)]
      exact wellFormed_bad1 _ _ (by decide)
    · rw [stripNewlines_cons_other _ _ (by decide)]
      exact wellFormed_bad1 _ _ (by decide)

end base64

theorem handleProxyDecode_cases (path : GoString) :
    handleProxyDecode path
      = if strings.TrimPrefix path (ascii "/anime/") = [] then
          Decoded.httpError (ascii "Missing URL parameter") StatusBadRequest
        else match base64.DecodeString (strings.TrimPrefix path (ascii "/anime/")) with
          | none => Decoded.httpError (ascii "Invalid base64 URL") StatusBadRequest
          | some decodedBytes => Decoded.target decodedBytes := rfl

/-- The handler's decoding of a path that does not start with the route
prefix: `strings.TrimPrefix` leaves the path whole. -/
theorem handleProxyDecode_unprefixed (path : GoString)
    (hpre : strings.HasPrefix path (ascii "/anime/") = false) :
    handleProxyDecode path
      = if path = [] then
          Decoded.httpError (ascii "Missing URL parameter") StatusBadRequest
        else match base64.DecodeString path with
          | none => Decoded.httpError (ascii "Invalid base64 URL") StatusBadRequest
          | some decodedBytes => Decoded.target decodedBytes := by
  have htrim : strings.TrimPrefix path (ascii "/anime/") = path := by
    unfold strings.TrimPrefix; rw [hpre]; rfl
  rw [handleProxyDecode_cases, htrim]

/-- A target URL comes from a non-empty segment that is well-formed once its
carriage returns and newlines are left out: the part of the path after the
route prefix, or the whole path when it does not start with the prefix. -/
theorem handleProxyDecode_target (path t : GoString)
    (ht : handleProxyDecode path = Decoded.target t) :
    ∃ seg, seg ≠ [] ∧ base64.wellFormed (base64.stripNewlines seg) = true
      ∧ base64.DecodeString seg = some t
      ∧ (path = ascii "/anime/" ++ seg
          ∨ (path = seg ∧ strings.HasPrefix path (ascii "/anime/") = false)) := by
  have key : ∀ seg : GoString, seg ≠ [] →
      (match base64.DecodeString seg with
        | none => Decoded.httpError (ascii "Invalid base64 URL") StatusBadRequest
        | some decodedBytes => Decoded.target decodedBytes) = Decoded.target t →
      base64.wellFormed (base64.stripNewlines seg) = true ∧ base64.DecodeString seg = some t := by
    intro seg _ h
    cases hd : base64.DecodeString seg with
    | none => rw [hd] at h; simp at h
    | some d =>
      rw [hd] at h
      simp only [Decoded.target.injEq] at h
      refine ⟨?_, by rw [h]⟩
      rw [← base64.DecodeString_isSome, hd]
      rfl
  by_cases hpre : strings.HasPrefix path (ascii "/anime/") = true
  · have hp : ascii "/anime/" <+: path := by
      unfold strings.HasPrefix at hpre
      exact List.isPrefixOf_iff_prefix.mp hpre
    obtain ⟨seg, hseg⟩ := hp
    subst hseg
    by_cases hne : seg = []
    · rw [handleProxyDecode_cases, TrimPrefix_append, if_pos hne] at ht
      simp at ht
    · rw [handleProxyDecode_anime seg hne] at ht
      obtain ⟨h1, h2⟩ := key seg hne ht
      exact ⟨seg, hne, h1, h2, Or.inl rfl⟩
  · have hpre2 : strings.HasPrefix path (ascii "/anime/") = false := by simpa using hpre
    rw [handleProxyDecode_unprefixed path hpre2] at ht
    by_cases hne : path = []
    · rw [if_pos hne] at ht
      simp at ht
    · rw [if_neg hne] at ht
      obtain ⟨h1, h2⟩ := key path hne ht
      exact ⟨path, hne, h1, h2, Or.inr ⟨rfl, hpre2⟩⟩

/-- C10, as amended. Invalid token rejection: lines 234-245 of `handleProxy`
reply with status 400 and return, before the upstream request is built, for
every request path that does not start with `/anime/` and is empty or starts
with a slash or an asterisk, for the path `/anime/` itself, and for every
path whose non-empty segment after `/anime/`, its carriage returns and
newlines left out, is not padded base64url text; so also when that segment
holds a byte that is neither of the alphabet nor `=`, CR or LF. Every other
segment after `/anime/` gives a target URL, its decoding. A target URL is
obtained only from a non-empty segment that is padded base64url text once
its carriage returns and newlines are left out, the segment being what
follows `/anime/` or, for a path without that prefix, the whole path; for a
path that is empty or starts with a slash it is what follows `/anime/`. -/
theorem invalid_token_rejected (path : GoString) :
    (strings.HasPrefix path (ascii "/anime/") = false →
      (path = [] → handleProxyDecode path
          = Decoded.httpError (ascii "Missing URL parameter") StatusBadRequest)
      ∧ (path ≠ [] → base64.wellFormed (base64.stripNewlines path) = false →
          handleProxyDecode path
            = Decoded.httpError (ascii "Invalid base64 URL") StatusBadRequest)
      ∧ (path.head? = some 47 ∨ path.head? = some 42 →
          handleProxyDecode path
            = Decoded.httpError (ascii "Invalid base64 URL") StatusBadRequest))
    ∧ (path = ascii "/anime/" →
        handleProxyDecode path
          = Decoded.httpError (ascii "Missing URL parameter") StatusBadRequest)
    ∧ (∀ seg, path = ascii "/anime/" ++ seg → seg ≠ [] →
        base64.wellFormed (base64.stripNewlines seg) = false →
        handleProxyDecode path
          = Decoded.httpError (ascii "Invalid base64 URL") StatusBadRequest)
    ∧ (∀ seg, path = ascii "/anime/" ++ seg →
        (∃ c ∈ seg, ¬ base64.isTokenByte c ∧ c ≠ 10 ∧ c ≠ 13) →
        base64.wellFormed (base64.stripNewlines seg) = false
        ∧ handleProxyDecode path
          = Decoded.httpError (ascii "Invalid base64 URL") StatusBadRequest)
    ∧ (∀ seg, path = ascii "/anime/" ++ seg → seg ≠ [] →
        base64.wellFormed (base64.stripNewlines seg) = true →
        ∃ t, base64.DecodeString seg = some t ∧ handleProxyDecode path = Decoded.target t)
    ∧ (∀ t, handleProxyDecode path = Decoded.target t →
        ∃ seg, seg ≠ [] ∧ base64.wellFormed (base64.stripNewlines seg) = true
          ∧ base64.DecodeString seg = some t
          ∧ (path = ascii "/anime/" ++ seg
              ∨ (path = seg ∧ strings.HasPrefix path (ascii "/anime/") = false)))
    ∧ (∀ t, path = [] ∨ path.head? = some 47 →
        handleProxyDecode path = Decoded.target t →
        ∃ seg, path = ascii "/anime/" ++ seg ∧ seg ≠ []
          ∧ base64.wellFormed (base64.stripNewlines seg) = true
          ∧ base64.DecodeString seg = some t) := by
  refine ⟨?_, ?_, ?_, ?_, ?_, handleProxyDecode_target path, ?_⟩
  · intro hpre
    have hbad : path ≠ [] → base64.wellFormed (base64.stripNewlines path) = false →
        handleProxyDecode path
          = Decoded.httpError (ascii "Invalid base64 URL") StatusBadRequest := by
      intro hne hwf
      rw [handleProxyDecode_unprefixed path hpre, if_neg hne,
        (base64.DecodeString_eq_none_iff path).mpr hwf]
    refine ⟨?_, hbad, ?_⟩
    · intro e
      rw [handleProxyDecode_unprefixed path hpre, if_pos e]
    · intro hhead
      refine hbad ?_ (base64.not_wellFormed_of_head path hhead)
      intro e
      rw [e] at hhead
      simp at hhead
  · intro e
    subst e
    decide
  · intro seg e hne hwf
    subst e
    rw [handleProxyDecode_anime seg hne, (base64.DecodeString_eq_none_iff seg).mpr hwf]
  · intro seg e hbad
    subst e
    have hne : seg ≠ [] := by
      obtain ⟨c, hc, _⟩ := hbad
      exact List.ne_nil_of_mem hc
    have hnone := base64.DecodeString_invalid_byte seg hbad
    refine ⟨(base64.DecodeString_eq_none_iff seg).mp hnone, ?_⟩
    rw [handleProxyDecode_anime seg hne, hnone]
  · intro seg e hne hwf
    subst e
    obtain ⟨t, ht⟩ := base64.DecodeString_of_wellFormed seg hwf
    exact ⟨t, ht, by rw [handleProxyDecode_anime seg hne, ht]⟩
  · intro t hpath ht
    obtain ⟨seg, hne, hwf, hdec, hform⟩ := handleProxyDecode_target path t ht
    rcases hform with e | ⟨e, _⟩
    · exact ⟨seg, e, hne, hwf, hdec⟩
    · subst e
      rcases hpath with e | e
      · exact absurd e hne
      · rw [base64.not_wellFormed_of_head path (Or.inl e)] at hwf
        simp at hwf

theorem invalid_token_rejected_witness :
    strings.HasPrefix (ascii "/stream/aGk=") (ascii "/anime/") = false
    ∧ handleProxyDecode (ascii "/stream/aGk=")
      = Decoded.httpError (ascii "Invalid base64 URL") StatusBadRequest
    ∧ base64.wellFormed (base64.stripNewlines (ascii "aGk*")) = false
    ∧ handleProxyDecode (ascii "/anime/aGk*")
      = Decoded.httpError (ascii "Invalid base64 URL") StatusBadRequest
    ∧ base64.wellFormed (base64.stripNewlines (ascii "aGk=")) = true
    ∧ (∃ t, base64.DecodeString (ascii "aGk=") = some t
        ∧ handleProxyDecode (ascii "/anime/aGk=") = Decoded.target t) :=
  ⟨by decide,
    ((invalid_token_rejected (ascii "/stream/aGk=")).1 (by decide)).2.2 (Or.inl (by decide)),
    by decide,
    (invalid_token_rejected (ascii "/anime/aGk*")).2.2.1 (ascii "aGk*") (by decide) (by decide)
      (by decide),
    by decide,
    (invalid_token_rejected (ascii "/anime/aGk=")).2.2.2.2.1 (ascii "aGk=") (by decide)
      (by decide) (by decide)⟩

/-- C10 as stated fails: the request target `/anime/aG%0Ak=` has the path
`/anime/aG`, newline, `k=`, whose segment holds a newline and so is not
base64url text, and the handler obtains the target URL `hi` from it, because
`DecodeString` ignores carriage returns and newlines; for the segment that is
a lone newline it obtains the empty target URL; and the path `aGk=`, which
does not start with `/anime/`, gives the target URL `hi` as well, because
`strings.TrimPrefix` leaves it whole. -/
theorem invalid_token_rejected_counterexample :
    url.requestPath (ascii "/anime/aG%0Ak=") = some (ascii "/anime/aG\nk=")
    ∧ (10 : Byte) ∉ base64.encodeURL ∧ (10 : Byte) ≠ base64.padChar
    ∧ base64.wellFormed (ascii "aG\nk=") = false
    ∧ handleProxyDecode (ascii "/anime/aG\nk=") = Decoded.target (ascii "hi")
    ∧ base64.wellFormed (ascii "\n") = false
    ∧ handleProxyDecode (ascii "/anime/\n") = Decoded.target []
    ∧ strings.HasPrefix (ascii "aGk=") (ascii "/anime/") = false
    ∧ handleProxyDecode (ascii "aGk=") = Decoded.target (ascii "hi") := by
  decide

/-! ## When the rewriter returns -/

namespace strings

/-- A search result is `-1` or an offset at which `substr` fits. -/
theorem indexFrom_bound (substr s : GoString) (i : Nat) :
    indexFrom substr s i = -1
      ∨ ((i : Int) ≤ indexFrom substr s i
        ∧ indexFrom substr s i + (substr.length : Int) ≤ (i : Int) + (s.length : Int)) := by
  induction s generalizing i with
  | nil =>
    unfold indexFrom
    split
    · rename_i h; subst h; right; simp
    · left; rfl
  | cons c rest ih =>
    unfold indexFrom
    split
    · rename_i hp
      right
      have hl := (List.isPrefixOf_iff_prefix.mp hp).length_le
      constructor
      · exact le_refl _
      · exact_mod_cast Nat.add_le_add_left hl i
    · rcases ih (i + 1) with h | ⟨h1, h2⟩
      · left; exact h
      · right
        simp only [List.length_cons]
        push_cast at h1 h2 ⊢
        constructor <;> omega

theorem Index_bound (s substr : GoString) :
    Index s substr = -1
      ∨ (0 ≤ Index s substr ∧ Index s substr + (substr.length : Int) ≤ (s.length : Int)) := by
  unfold Index
  rcases indexFrom_bound substr s 0 with h | ⟨h1, h2⟩
  · left; exact h
  · right
    push_cast at h1 h2
    constructor <;> omega

end strings

theorem slice_in_range (s : GoString) (lo hi : Int)
    (h : 0 ≤ lo ∧ lo ≤ hi ∧ hi ≤ (s.length : Int)) :
    slice s lo hi = some ((s.take hi.toNat).drop lo.toNat) := by
  unfold slice
  rw [if_pos h]

theorem slice_out_of_range (s : GoString) (lo hi : Int) (h : hi < lo) : slice s lo hi = none := by
  unfold slice
  rw [if_neg (by omega)]

section Total

variable {URL : Type} (net : NetURL URL)

/-- `processSpecialTag` panics exactly on the lines with an unterminated
`URI="` attribute. -/
theorem processSpecialTag_eq_none_iff (line : GoString) (baseURL : URL)
    (originalHeaders : GoString) :
    processSpecialTag net line baseURL originalHeaders = none ↔ unterminatedURI line = true := by
  have hlen : ((ascii "URI=\"").length : Int) = 5 := by decide
  have hqlen : ((ascii "\"").length : Int) = 1 := by decide
  unfold processSpecialTag unterminatedURI
  by_cases hc : strings.Contains line (ascii "URI=\"") = true
  · rw [if_pos hc]
    have hidx : 0 ≤ strings.Index line (ascii "URI=\"")
        ∧ strings.Index line (ascii "URI=\"") + 5 ≤ (line.length : Int) := by
      rcases strings.Index_bound line (ascii "URI=\"") with h | h
      · unfold strings.Contains at hc
        rw [h] at hc
        simp at hc
      · rw [hlen] at h; exact h
    generalize strings.Index line (ascii "URI=\"") = n at hidx ⊢
    have s1 : sliceFrom line (n + 5) = some (line.drop (n + 5).toNat) := by
      unfold sliceFrom
      rw [slice_in_range _ _ _ ⟨by omega, by omega, le_refl _⟩]
      simp
    simp only [s1, Option.some_bind, hc, Bool.true_and, decide_eq_true_eq]
    have htl : ((line.drop (n + 5).toNat).length : Int) = (line.length : Int) - (n + 5) := by
      rw [List.length_drop]
      omega
    rcases strings.Index_bound (line.drop (n + 5).toNat) (ascii "\"") with h | h
    · rw [h, slice_out_of_range _ _ _ (by omega)]
      simp
    · rw [hqlen, htl] at h
      generalize strings.Index (line.drop (n + 5).toNat) (ascii "\"") = m at h ⊢
      rw [slice_in_range _ _ _ ⟨by omega, by omega, by omega⟩]
      simp only [Option.some_bind]
      have s3 : sliceTo line (n + 5) = some ((line.take (n + 5).toNat).drop (0 : Int).toNat) := by
        unfold sliceTo
        exact slice_in_range _ _ _ ⟨le_refl _, by omega, by omega⟩
      have s4 : sliceFrom line (m + (n + 5))
          = some ((line.take (line.length : Int).toNat).drop (m + (n + 5)).toNat) := by
        unfold sliceFrom
        exact slice_in_range _ _ _ ⟨by omega, by omega, le_refl _⟩
      constructor
      · intro hnone
        split at hnone
        · simp at hnone
        · rw [s3, s4] at hnone
          simp at hnone
      · intro hlt
        omega
  · rw [if_neg hc]
    simp [hc]

/-- The loop body panics exactly on the lines of `panicsOn`. -/
theorem processLine_eq_none_iff (line : GoString) (baseURL : URL) (originalHeaders : GoString) :
    processLine net line baseURL originalHeaders = none ↔ panicsOn line = true := by
  unfold panicsOn
  by_cases htag : strings.HasPrefix line (ascii "#EXT-X-KEY") = true
      ∨ strings.HasPrefix line (ascii "#EXT-X-MAP") = true
  · rw [processLine_tag net line baseURL originalHeaders htag,
      processSpecialTag_eq_none_iff]
    simp only [Bool.and_eq_true, Bool.or_eq_true, htag, true_and]
  · constructor
    · intro h
      unfold processLine at h
      split at h
      · rw [if_neg (by simpa using htag)] at h
        simp at h
      · split at h <;> simp at h
    · intro h
      simp only [Bool.and_eq_true, Bool.or_eq_true] at h
      exact absurd h.1 htag

theorem processLines_isSome (baseURL : URL) (originalHeaders : GoString) (ls : List GoString)
    (h : ∀ l ∈ ls, panicsOn l = false) :
    ∃ outs, processLines net baseURL originalHeaders ls = some outs := by
  induction ls with
  | nil => exact ⟨[], rfl⟩
  | cons l rest ih =>
    obtain ⟨more, hm⟩ := ih (fun x hx => h x (List.mem_cons_of_mem _ hx))
    cases hl : processLine net l baseURL originalHeaders with
    | none =>
      have := (processLine_eq_none_iff net l baseURL originalHeaders).mp hl
      rw [h l (List.mem_cons_self _ _)] at this
      simp at this
    | some o =>
      exact ⟨o :: more, by simp [processLines, hl, hm]⟩

/-- `processM3U8Content` returns, with the scanner's error value, on every
playlist none of whose scanned lines is a `#EXT-X-KEY` or `#EXT-X-MAP` line
with an unterminated `URI="` attribute. -/
theorem processM3U8Content_returns (content : GoString) (baseURL : URL)
    (originalHeaders : GoString)
    (h : ∀ l ∈ (bufio.scanLines content).1, panicsOn l = false) :
    ∃ out, processM3U8Content net content baseURL originalHeaders
      = some (out, (bufio.scanLines content).2) := by
  obtain ⟨outs, ho⟩ := processLines_isSome net baseURL originalHeaders _ h
  exact ⟨strings.Join outs (ascii "\n"), by simp [processM3U8Content, ho]⟩

/-- `processM3U8Content` panics on a playlist with such a line. -/
theorem processM3U8Content_panics (content : GoString) (baseURL : URL)
    (originalHeaders : GoString) (l : GoString) (hl : l ∈ (bufio.scanLines content).1)
    (h : panicsOn l = true) :
    processM3U8Content net content baseURL originalHeaders = none := by
  cases hr : processM3U8Content net content baseURL originalHeaders with
  | none => rfl
  | some r =>
    obtain ⟨out, err⟩ := r
    obtain ⟨outs, hf, _, _, _⟩ := processM3U8Content_lines net content baseURL
      originalHeaders out err hr
    obtain ⟨i, hi⟩ := List.getElem?_of_mem hl
    obtain ⟨o, _, ho⟩ := forall₂_getElem? hf i l hi
    have := (processLine_eq_none_iff net l baseURL originalHeaders).mpr h
    rw [this] at ho
    simp at ho

end Total

/-! ## The header synthesizer (C11) -/

namespace http

theorem foldl_Set (l : List (GoString × GoString)) (h0 : Header) :
    l.foldl (fun h e => Header.Set h e.1 e.2) h0
      = (l.map (fun e => (CanonicalMIMEHeaderKey e.1, [e.2]))).reverse ++ h0 := by
  induction l generalizing h0 with
  | nil => rfl
  | cons a rest ih =>
    rw [List.foldl_cons, ih]
    simp [Header.Set]

end http

theorem GoMap.get_cons {V : Type} (k : GoString) (v : V) (m : GoMap V) (key : GoString) :
    GoMap.get ((k, v) :: m) key = if key = k then some v else GoMap.get m key := by
  unfold GoMap.get
  rw [List.find?_cons]
  by_cases h : key = k
  · subst h; simp
  · have h2 : ¬ k = key := fun e => h e.symm
    simp [h, h2]

theorem GoMap.get_append {V : Type} (a b : GoMap V) (key : GoString) :
    GoMap.get (a ++ b) key = (GoMap.get a key).orElse (fun _ => GoMap.get b key) := by
  induction a with
  | nil => rfl
  | cons e rest ih =>
    obtain ⟨k, v⟩ := e
    rw [List.cons_append, GoMap.get_cons, GoMap.get_cons, ih]
    by_cases h : key = k <;> simp [h]

theorem GoMap.get_eq_some {V : Type} (m : GoMap V) (key : GoString) (v : V)
    (h : GoMap.get m key = some v) : (key, v) ∈ m := by
  unfold GoMap.get at h
  simp only [Option.map_eq_some'] at h
  obtain ⟨e, he, hv⟩ := h
  have hk := List.find?_some he
  have hm := List.mem_of_find?_eq_some he
  simp only [decide_eq_true_eq] at hk
  obtain ⟨k, w⟩ := e
  simp only at hk hv
  subst hk hv
  exact hm

/-- A key that is bound once, up to the value, is bound to that value. -/
theorem GoMap.get_of_mem {V : Type} (m : GoMap V) (key : GoString) (v : V)
    (hm : (key, v) ∈ m) (huniq : ∀ w, (key, w) ∈ m → w = v) : GoMap.get m key = some v := by
  cases hg : GoMap.get m key with
  | none =>
    unfold GoMap.get at hg
    simp only [Option.map_eq_none', List.find?_eq_none, decide_eq_true_eq] at hg
    exact absurd rfl (hg _ hm)
  | some w => rw [huniq w (GoMap.get_eq_some m key w hg)]

/-- The headers built from the defaults alone: every default is there under
its canonical name, when no two names have the same canonical form. -/
theorem defaults_get (l : List (GoString × GoString))
    (hnames : (l.map (fun e => http.CanonicalMIMEHeaderKey e.1)).Nodup)
    (e : GoString × GoString) (he : e ∈ l) :
    GoMap.get (l.foldl (fun h e => http.Header.Set h e.1 e.2) ([] : http.Header))
        (http.CanonicalMIMEHeaderKey e.1) = some [e.2] := by
  rw [http.foldl_Set, List.append_nil]
  apply GoMap.get_of_mem
  · simp only [List.mem_reverse, List.mem_map]
    exact ⟨e, he, rfl⟩
  · intro w hw
    simp only [List.mem_reverse, List.mem_map, Prod.mk.injEq] at hw
    obtain ⟨e2, he2, hk, hv⟩ := hw
    have := List.inj_on_of_nodup_map hnames he2 he hk
    rw [← hv, this]

theorem defaults_get_some (l : List (GoString × GoString)) (key : GoString)
    (values : List GoString)
    (h : GoMap.get (l.foldl (fun h e => http.Header.Set h e.1 e.2) ([] : http.Header)) key
      = some values) :
    ∃ e ∈ l, http.CanonicalMIMEHeaderKey e.1 = key ∧ values = [e.2] := by
  rw [http.foldl_Set, List.append_nil] at h
  have := GoMap.get_eq_some _ _ _ h
  simp only [List.mem_reverse, List.mem_map, Prod.mk.injEq] at this
  obtain ⟨e, he, hk, hv⟩ := this
  exact ⟨e, he, hk, hv.symm⟩

/-- The result of `generateHeaders`, key by key: the template's non-empty
fields, then the headers built from the defaults. -/
theorem generateHeaders_get (config : Config) (urlStr : GoString) (t : DomainTemplate)
    (key : GoString) :
    GoMap.get (generateHeaders config urlStr (some t)) key
      = if key = ascii "Sec-Fetch-Site" ∧ t.SecFetchSite ≠ [] then some [t.SecFetchSite]
        else if key = ascii "Referer" ∧ t.Referer ≠ [] then some [t.Referer]
        else if key = ascii "Origin" ∧ t.Origin ≠ [] then some [t.Origin]
        else GoMap.get (generateHeaders config urlStr none) key := by
  have c1 : http.CanonicalMIMEHeaderKey (ascii "Origin") = ascii "Origin" := by decide
  have c2 : http.CanonicalMIMEHeaderKey (ascii "Referer") = ascii "Referer" := by decide
  have c3 : http.CanonicalMIMEHeaderKey (ascii "Sec-Fetch-Site") = ascii "Sec-Fetch-Site" := by
    decide
  have d1 : ascii "Origin" ≠ ascii "Referer" := by decide
  have d2 : ascii "Origin" ≠ ascii "Sec-Fetch-Site" := by decide
  have d3 : ascii "Referer" ≠ ascii "Sec-Fetch-Site" := by decide
  unfold generateHeaders
  simp only [http.Header.Set, c1, c2, c3]
  generalize ascii "Origin" = kO at d1 d2
  generalize ascii "Referer" = kR at d1 d3
  generalize ascii "Sec-Fetch-Site" = kS at d2 d3
  generalize List.foldl (fun h e => (http.CanonicalMIMEHeaderKey e.1, [e.2]) :: h)
    ([] : http.Header) config.DefaultHeaders = D
  by_cases h1 : t.Origin = [] <;> by_cases h2 : t.Referer = [] <;>
    by_cases h3 : t.SecFetchSite = [] <;>
    simp only [h1, h2, h3, ne_eq, not_true_eq_false, not_false_eq_true, if_true, if_false,
      and_true, and_false, GoMap.get_cons]

theorem templateFields_some (t : DomainTemplate) (f : GoString × GoString) :
    f ∈ templateFields (some t)
      ↔ (f = (ascii "Origin", t.Origin) ∧ t.Origin ≠ [])
        ∨ (f = (ascii "Referer", t.Referer) ∧ t.Referer ≠ [])
        ∨ (f = (ascii "Sec-Fetch-Site", t.SecFetchSite) ∧ t.SecFetchSite ≠ []) := by
  unfold templateFields
  simp only [List.mem_filter, List.mem_cons, List.mem_singleton, List.not_mem_nil, or_false,
    decide_eq_true_eq]
  constructor
  · rintro ⟨h | h | h, hne⟩ <;> subst h
    · exact Or.inl ⟨rfl, hne⟩
    · exact Or.inr (Or.inl ⟨rfl, hne⟩)
    · exact Or.inr (Or.inr ⟨rfl, hne⟩)
  · rintro (⟨h, hne⟩ | ⟨h, hne⟩ | ⟨h, hne⟩) <;> subst h
    · exact ⟨Or.inl rfl, hne⟩
    · exact ⟨Or.inr (Or.inl rfl), hne⟩
    · exact ⟨Or.inr (Or.inr rfl), hne⟩

/-- C11, as amended. Header synthesis: for every configuration whose default
header names have pairwise distinct canonical forms, and every optional
template, the headers `generateHeaders` returns bind each of `Origin`,
`Referer` and `Sec-Fetch-Site` that the template gives a non-empty value to
that value; bind the canonical name of every default header that is not
such a field to the default value; bind no other name; and with no template
are the defaults alone. -/
theorem header_synthesis (config : Config) (urlStr : GoString)
    (template : Option DomainTemplate)
    (hnames : (config.DefaultHeaders.map (fun e => http.CanonicalMIMEHeaderKey e.1)).Nodup) :
    (∀ f ∈ templateFields template,
      GoMap.get (generateHeaders config urlStr template) f.1 = some [f.2])
    ∧ (∀ e ∈ config.DefaultHeaders,
        (∀ f ∈ templateFields template, f.1 ≠ http.CanonicalMIMEHeaderKey e.1) →
        GoMap.get (generateHeaders config urlStr template) (http.CanonicalMIMEHeaderKey e.1)
          = some [e.2])
    ∧ (∀ key values, GoMap.get (generateHeaders config urlStr template) key = some values →
        (∃ f ∈ templateFields template, f.1 = key ∧ values = [f.2])
          ∨ (∃ e ∈ config.DefaultHeaders, http.CanonicalMIMEHeaderKey e.1 = key
              ∧ values = [e.2]))
    ∧ (template = none → ∀ key,
        GoMap.get (generateHeaders config urlStr template) key
          = GoMap.get (config.DefaultHeaders.foldl (fun h e => http.Header.Set h e.1 e.2)
              ([] : http.Header)) key) := by
  have d1 : ascii "Origin" ≠ ascii "Referer" := by decide
  have d2 : ascii "Origin" ≠ ascii "Sec-Fetch-Site" := by decide
  have d3 : ascii "Referer" ≠ ascii "Sec-Fetch-Site" := by decide
  have hnone : ∀ key, GoMap.get (generateHeaders config urlStr none) key
      = GoMap.get (config.DefaultHeaders.foldl (fun h e => http.Header.Set h e.1 e.2)
          ([] : http.Header)) key := fun _ => rfl
  cases template with
  | none =>
    refine ⟨?_, ?_, ?_, ?_⟩
    · intro f hf; simp [templateFields] at hf
    · intro e he _
      rw [hnone]
      exact defaults_get _ hnames e he
    · intro key values h
      rw [hnone] at h
      exact Or.inr (defaults_get_some _ key values h)
    · intro _ key; exact hnone key
  | some t =>
    refine ⟨?_, ?_, ?_, ?_⟩
    · intro f hf
      rw [generateHeaders_get]
      rcases (templateFields_some t f).mp hf with ⟨h, hne⟩ | ⟨h, hne⟩ | ⟨h, hne⟩ <;> subst h
      · simp only [d2, d1, hne, false_and, if_false, ne_eq, not_false_eq_true, and_self, if_true]
      · simp only [d3, hne, false_and, if_false, ne_eq, not_false_eq_true, and_self, if_true]
      · simp only [hne, ne_eq, not_false_eq_true, and_self, if_true]
    · intro e he hf
      rw [generateHeaders_get, hnone]
      have n3 : ¬ (http.CanonicalMIMEHeaderKey e.1 = ascii "Sec-Fetch-Site"
          ∧ t.SecFetchSite ≠ []) := fun h =>
        hf _ ((templateFields_some t _).mpr (Or.inr (Or.inr ⟨rfl, h.2⟩))) h.1.symm
      have n2 : ¬ (http.CanonicalMIMEHeaderKey e.1 = ascii "Referer" ∧ t.Referer ≠ []) :=
        fun h => hf _ ((templateFields_some t _).mpr (Or.inr (Or.inl ⟨rfl, h.2⟩))) h.1.symm
      have n1 : ¬ (http.CanonicalMIMEHeaderKey e.1 = ascii "Origin" ∧ t.Origin ≠ []) :=
        fun h => hf _ ((templateFields_some t _).mpr (Or.inl ⟨rfl, h.2⟩)) h.1.symm
      rw [if_neg n3, if_neg n2, if_neg n1]
      exact defaults_get _ hnames e he
    · intro key values h
      rw [generateHeaders_get, hnone] at h
      split at h
      · rename_i hc
        left
        refine ⟨_, (templateFields_some t _).mpr (Or.inr (Or.inr ⟨rfl, hc.2⟩)), hc.1.symm, ?_⟩
        simpa using h.symm
      · split at h
        · rename_i hc
          left
          refine ⟨_, (templateFields_some t _).mpr (Or.inr (Or.inl ⟨rfl, hc.2⟩)), hc.1.symm, ?_⟩
          simpa using h.symm
        · split at h
          · rename_i hc
            left
            refine ⟨_, (templateFields_some t _).mpr (Or.inl ⟨rfl, hc.2⟩), hc.1.symm, ?_⟩
            simpa using h.symm
          · exact Or.inr (defaults_get_some _ key values h)
    · intro h; simp at h

theorem header_synthesis_witness :
    (exampleConfig.DefaultHeaders.map (fun e => http.CanonicalMIMEHeaderKey e.1)).Nodup
    ∧ (ascii "Origin", ascii "https://b.example") ∈ templateFields (some exampleSecond)
    ∧ GoMap.get (generateHeaders exampleConfig [] (some exampleSecond)) (ascii "Origin")
      = some [ascii "https://b.example"]
    ∧ (ascii "User-Agent", ascii "Mozilla/5.0") ∈ exampleConfig.DefaultHeaders
    ∧ GoMap.get (generateHeaders exampleConfig [] (some exampleSecond))
        (http.CanonicalMIMEHeaderKey (ascii "User-Agent")) = some [ascii "Mozilla/5.0"]
    ∧ GoMap.get (generateHeaders exampleConfig [] (some exampleSecond)) (ascii "Referer") = none :=
  ⟨by decide, by decide,
    (header_synthesis exampleConfig [] (some exampleSecond) (by decide)).1
      (ascii "Origin", ascii "https://b.example") (by decide),
    by decide,
    (header_synthesis exampleConfig [] (some exampleSecond) (by decide)).2.1
      (ascii "User-Agent", ascii "Mozilla/5.0") (by decide) (by decide),
    by decide⟩

/-- C11 as stated fails: with the two default headers `accept: a` and
`Accept: b`, whose names have the same canonical form, one default value is
lost whichever entry the `range` statement yields first. -/
theorem header_synthesis_counterexample :
    GoMap.get (generateHeaders
        { DefaultHeaders := [(ascii "accept", ascii "a"), (ascii "Accept", ascii "b")],
          DomainTemplates := [] } [] none) (http.CanonicalMIMEHeaderKey (ascii "accept"))
      = some [ascii "b"]
    ∧ GoMap.get (generateHeaders
        { DefaultHeaders := [(ascii "Accept", ascii "b"), (ascii "accept", ascii "a")],
          DomainTemplates := [] } [] none) (http.CanonicalMIMEHeaderKey (ascii "Accept"))
      = some [ascii "a"] := by
  decide

/-! ## The response header allow-list (C13) -/

theorem forward_foldl (l : http.Header) (w0 : http.Header) :
    l.foldl (fun w e => if isForwarded e.1 then http.Header.assign w e.1 e.2 else w) w0
      = (l.filter (fun e => isForwarded e.1)).reverse ++ w0 := by
  induction l generalizing w0 with
  | nil => rfl
  | cons a rest ih =>
    rw [List.foldl_cons, ih, List.filter_cons]
    by_cases h : isForwarded a.1 = true
    · simp [h, http.Header.assign]
    · simp [h]

/-- The name `ETag` is not in canonical form: its canonical form is `Etag`. -/
theorem ETag_not_canonical :
    http.CanonicalMIMEHeaderKey (ascii "ETag") = ascii "Etag" ∧ ascii "Etag" ≠ ascii "ETag" := by
  decide

/-- No key of a header map with canonical keys passes the comparison with
`"ETag"`, and the canonical key `Etag` does not pass the test of lines
274-276: the upstream entity tag is never copied. -/
theorem etag_never_forwarded (respHeader : http.Header) (hcanon : canonicalKeys respHeader) :
    (∀ e ∈ respHeader, e.1 ≠ ascii "ETag")
    ∧ isForwarded (ascii "Etag") = false
    ∧ GoMap.get (responseHeaders respHeader) (ascii "Etag") = none
    ∧ GoMap.get (responseHeaders respHeader) (ascii "ETag") = none := by
  have hne : ∀ e ∈ respHeader, e.1 ≠ ascii "ETag" := by
    intro e he heq
    have := hcanon e he
    rw [heq, ETag_not_canonical.1] at this
    exact ETag_not_canonical.2 this
  have hf : isForwarded (ascii "Etag") = false := by decide
  have key : ∀ k, (∀ e ∈ respHeader, isForwarded e.1 = true → e.1 ≠ k) →
      GoMap.get ([] : http.Header) k = none →
      (k ≠ ascii "Access-Control-Allow-Origin" ∧ k ≠ ascii "Access-Control-Allow-Methods"
        ∧ k ≠ ascii "Access-Control-Allow-Headers"
        ∧ k ≠ ascii "Access-Control-Expose-Headers") →
      GoMap.get (responseHeaders respHeader) k = none := by
    intro k hk _ hcors
    have c1 : http.CanonicalMIMEHeaderKey (ascii "Access-Control-Allow-Origin")
        = ascii "Access-Control-Allow-Origin" := by decide
    have c2 : http.CanonicalMIMEHeaderKey (ascii "Access-Control-Allow-Methods")
        = ascii "Access-Control-Allow-Methods" := by decide
    have c3 : http.CanonicalMIMEHeaderKey (ascii "Access-Control-Allow-Headers")
        = ascii "Access-Control-Allow-Headers" := by decide
    have c4 : http.CanonicalMIMEHeaderKey (ascii "Access-Control-Expose-Headers")
        = ascii "Access-Control-Expose-Headers" := by decide
    unfold responseHeaders
    simp only [forward_foldl, http.Header.Set, c1, c2, c3, c4]
    rw [GoMap.get_append]
    have h1 : GoMap.get (List.filter (fun e => isForwarded e.1) respHeader).reverse k = none := by
      cases hg : GoMap.get (List.filter (fun e => isForwarded e.1) respHeader).reverse k with
      | none => rfl
      | some v =>
        have hm := GoMap.get_eq_some _ _ _ hg
        simp only [List.mem_reverse, List.mem_filter] at hm
        exact absurd rfl (hk _ hm.1 hm.2)
    rw [h1]
    simp only [Option.orElse, GoMap.get_cons, hcors.1, hcors.2.1, hcors.2.2.1, hcors.2.2.2,
      if_false]
    rfl
  refine ⟨hne, hf, ?_, ?_⟩
  · apply key
    · intro e _ hfe heq
      rw [heq, hf] at hfe
      simp at hfe
    · rfl
    · decide
  · apply key
    · intro e he _
      exact hne e he
    · rfl
    · decide

/-- The access-control names are not on the list of lines 274-276. -/
theorem cors_not_forwarded (k : GoString) (hk : isForwarded k = true) :
    k ≠ ascii "Access-Control-Allow-Origin" ∧ k ≠ ascii "Access-Control-Allow-Methods"
      ∧ k ≠ ascii "Access-Control-Allow-Headers"
      ∧ k ≠ ascii "Access-Control-Expose-Headers" := by
  unfold isForwarded at hk
  simp only [decide_eq_true_eq] at hk
  rcases hk with h | h | h | h | h | h | h <;> subst h <;> decide

theorem responseHeaders_eq (respHeader : http.Header) :
    responseHeaders respHeader
      = (respHeader.filter (fun e => isForwarded e.1)).reverse
        ++ [ (ascii "Access-Control-Expose-Headers",
                [ascii "Content-Length, Content-Range, Accept-Ranges"]),
             (ascii "Access-Control-Allow-Headers", [ascii "Content-Type, Authorization, Range"]),
             (ascii "Access-Control-Allow-Methods", [ascii "GET, OPTIONS"]),
             (ascii "Access-Control-Allow-Origin", [ascii "*"]) ] := by
  have c1 : http.CanonicalMIMEHeaderKey (ascii "Access-Control-Allow-Origin")
      = ascii "Access-Control-Allow-Origin" := by decide
  have c2 : http.CanonicalMIMEHeaderKey (ascii "Access-Control-Allow-Methods")
      = ascii "Access-Control-Allow-Methods" := by decide
  have c3 : http.CanonicalMIMEHeaderKey (ascii "Access-Control-Allow-Headers")
      = ascii "Access-Control-Allow-Headers" := by decide
  have c4 : http.CanonicalMIMEHeaderKey (ascii "Access-Control-Expose-Headers")
      = ascii "Access-Control-Expose-Headers" := by decide
  unfold responseHeaders
  simp only [forward_foldl, http.Header.Set, c1, c2, c3, c4]

/-- A name on the list of lines 274-276 is bound in the client response to
what it is bound to in the upstream response, or not bound when the upstream
did not send it. -/
theorem allow_list_forwarded (respHeader : http.Header)
    (hkeys : (respHeader.map (fun e => e.1)).Nodup) (k : GoString)
    (hk : isForwarded k = true) :
    GoMap.get (responseHeaders respHeader) k = GoMap.get respHeader k := by
  have hc := cors_not_forwarded k hk
  rw [responseHeaders_eq, GoMap.get_append]
  cases hg : GoMap.get respHeader k with
  | some v =>
    have hm := GoMap.get_eq_some _ _ _ hg
    have : GoMap.get (List.filter (fun e => isForwarded e.1) respHeader).reverse k = some v := by
      apply GoMap.get_of_mem
      · simp only [List.mem_reverse, List.mem_filter]
        exact ⟨hm, hk⟩
      · intro w hw
        simp only [List.mem_reverse, List.mem_filter] at hw
        have := List.inj_on_of_nodup_map hkeys hw.1 hm rfl
        exact (Prod.mk.inj this).2
    rw [this]; rfl
  | none =>
    have : GoMap.get (List.filter (fun e => isForwarded e.1) respHeader).reverse k = none := by
      cases hg2 : GoMap.get (List.filter (fun e => isForwarded e.1) respHeader).reverse k with
      | none => rfl
      | some v =>
        have hm := GoMap.get_eq_some _ _ _ hg2
        simp only [List.mem_reverse, List.mem_filter] at hm
        unfold GoMap.get at hg
        simp only [Option.map_eq_none', List.find?_eq_none, decide_eq_true_eq] at hg
        exact absurd rfl (hg _ hm.1)
    rw [this]
    simp only [Option.orElse, GoMap.get_cons, hc.1, hc.2.1, hc.2.2.1, hc.2.2.2, if_false]
    rfl

/-- A name that is not on the list, and is not one of the four access-control
names the handler sets itself, is not bound in the client response. -/
theorem not_on_list_dropped (respHeader : http.Header) (k : GoString)
    (hk : isForwarded k = false)
    (hc : k ≠ ascii "Access-Control-Allow-Origin" ∧ k ≠ ascii "Access-Control-Allow-Methods"
      ∧ k ≠ ascii "Access-Control-Allow-Headers"
      ∧ k ≠ ascii "Access-Control-Expose-Headers") :
    GoMap.get (responseHeaders respHeader) k = none := by
  rw [responseHeaders_eq, GoMap.get_append]
  have : GoMap.get (List.filter (fun e => isForwarded e.1) respHeader).reverse k = none := by
    cases hg2 : GoMap.get (List.filter (fun e => isForwarded e.1) respHeader).reverse k with
    | none => rfl
    | some v =>
      have hm := GoMap.get_eq_some _ _ _ hg2
      simp only [List.mem_reverse, List.mem_filter] at hm
      rw [hk] at hm
      simp at hm
  rw [this]
  simp only [Option.orElse, GoMap.get_cons, hc.1, hc.2.1, hc.2.2.1, hc.2.2.2, if_false]
  rfl

/-- C13: the code fails on the entity tag. `net/http` stores the upstream
header `ETag` under its canonical name `Etag`; line 276 compares the key with
`"ETag"`, so for the response header `Content-Type`, `Etag`,
`Accept-Ranges`, `Server`, whose names are canonical, the client receives
`Content-Type` and `Accept-Ranges` unchanged and not `Server`, but not the
entity tag either, under either name. -/
theorem etag_dropped :
    canonicalKeys exampleResponse
    ∧ GoMap.get exampleResponse (ascii "Etag") = some [ascii "\"33a64df5\""]
    ∧ GoMap.get (responseHeaders exampleResponse) (ascii "Etag") = none
    ∧ GoMap.get (responseHeaders exampleResponse) (ascii "ETag") = none
    ∧ GoMap.get (responseHeaders exampleResponse) (ascii "Content-Type")
      = some [ascii "video/mp4"]
    ∧ GoMap.get (responseHeaders exampleResponse) (ascii "Accept-Ranges") = some [ascii "bytes"]
    ∧ GoMap.get (responseHeaders exampleResponse) (ascii "Server") = none := by
  decide

/-! ## Blank lines and line order (C14) -/

namespace bufio

/-- Scanned line `i` is line `i` of the text, without the carriage return at
its end. -/
theorem scanFrom_getElem? (rest cur : GoString) (hcur : (10 : Byte) ∉ cur) (i : Nat)
    (L : GoString) (hL : (scanFrom cur rest).1[i]? = some L) :
    ∃ raw, (splitLines (cur ++ rest))[i]? = some raw ∧ L = dropCR raw := by
  induction rest generalizing cur i with
  | nil =>
    rw [List.append_nil, splitLines_plain cur hcur]
    unfold scanFrom at hL
    split at hL
    · simp at hL
    · split at hL
      · simp at hL
      · cases i with
        | zero =>
          simp only [List.getElem?_cons_zero, Option.some.injEq] at hL
          exact ⟨cur, by simp, hL.symm⟩
        | succ i => simp at hL
  | cons c rest ih =>
    unfold scanFrom at hL
    split at hL
    · rename_i hc
      subst hc
      rw [splitLines_append cur rest hcur]
      split at hL
      · simp at hL
      · cases i with
        | zero =>
          simp only [List.getElem?_cons_zero, Option.some.injEq] at hL
          exact ⟨cur, by simp, hL.symm⟩
        | succ i =>
          simp only [List.getElem?_cons_succ] at hL ⊢
          have := ih [] (by simp) i hL
          simpa using this
    · rename_i hc
      have hcur2 : (10 : Byte) ∉ cur ++ [c] := by
        intro m
        rcases List.mem_append.mp m with m | m
        · exact hcur m
        · simp only [List.mem_singleton] at m
          exact hc m.symm
      have := ih (cur ++ [c]) hcur2 i hL
      simpa [List.append_assoc] using this

theorem scanLines_getElem? (content : GoString) (i : Nat) (L : GoString)
    (hL : (scanLines content).1[i]? = some L) :
    ∃ raw, (splitLines content)[i]? = some raw ∧ L = dropCR raw := by
  have := scanFrom_getElem? content [] (by simp) i L hL
  simpa using this

end bufio

/-- A blank line does not start with `#`. -/
theorem blank_not_directive (L : GoString) (h : strings.TrimSpaceIsEmpty L = true) :
    strings.HasPrefix L (ascii "#") = false := by
  cases L with
  | nil => decide
  | cons c rest =>
    by_cases hc : c = 35
    · subst hc
      exfalso
      revert h
      cases rest with
      | nil => decide
      | cons d r =>
        cases r with
        | nil =>
          unfold strings.TrimSpaceIsEmpty
          simp [strings.asciiSpace]
        | cons e r2 =>
          unfold strings.TrimSpaceIsEmpty
          simp [strings.asciiSpace]
    · have e : ascii "#" = [(35 : Byte)] := by decide
      rw [e]
      simp only [strings.HasPrefix, List.isPrefixOf, Bool.and_true, beq_eq_false_iff_ne, ne_eq]
      exact fun h2 => hc h2.symm

section Blank

variable {URL : Type} (net : NetURL URL)

/-- The loop body returns a blank line as it is. -/
theorem processLine_blank (L : GoString) (baseURL : URL) (originalHeaders : GoString)
    (h : strings.TrimSpaceIsEmpty L = true) :
    processLine net L baseURL originalHeaders = some L := by
  unfold processLine
  rw [if_neg (by simp [blank_not_directive L h]), if_neg (by simp [h])]

/-- C14, as amended. Blank lines and order: in every playlist that
`processM3U8Content` rewrites, scanned line `i` is line `i` of the input
without the carriage return at its end; line `i` of the output is that
scanned line, processed by the loop body; and when the scanned line is empty
or white space only, line `i` of the output is the scanned line itself, byte
for byte. -/
theorem blank_lines_kept (content : GoString) (baseURL : URL)
    (originalHeaders out : GoString) (err : Option bufio.Error)
    (h : processM3U8Content net content baseURL originalHeaders = some (out, err))
    (i : Nat) (L : GoString) (hL : (bufio.scanLines content).1[i]? = some L) :
    (∃ raw, (splitLines content)[i]? = some raw ∧ L = bufio.dropCR raw)
    ∧ (∃ o, (splitLines out)[i]? = some o
        ∧ processLine net L baseURL originalHeaders = some o)
    ∧ (strings.TrimSpaceIsEmpty L = true → (splitLines out)[i]? = some L) := by
  obtain ⟨o, ho, hp⟩ := processM3U8Content_line net content baseURL originalHeaders out err
    h i L hL
  refine ⟨bufio.scanLines_getElem? content i L hL, ⟨o, ho, hp⟩, ?_⟩
  intro hb
  rw [processLine_blank net L baseURL originalHeaders hb] at hp
  simp only [Option.some.injEq] at hp
  rw [ho, hp]

end Blank

theorem blank_lines_kept_witness :
    processM3U8Content rfc3986.net (ascii "#EXTM3U\n \t\nsegment1.ts") exampleBase []
      = some (ascii "#EXTM3U\n \t\n/anime/aHR0cHM6Ly9jZG4uZXhhbXBsZS92aWRlb3Mvc2VnbWVudDEudHM=", none)
    ∧ (bufio.scanLines (ascii "#EXTM3U\n \t\nsegment1.ts")).1[1]? = some (ascii " \t")
    ∧ strings.TrimSpaceIsEmpty (ascii " \t") = true
    ∧ (splitLines (ascii "#EXTM3U\n \t\n/anime/aHR0cHM6Ly9jZG4uZXhhbXBsZS92aWRlb3Mvc2VnbWVudDEudHM="))[1]?
      = some (ascii " \t") :=
  ⟨by decide, by decide, by decide,
    (blank_lines_kept rfc3986.net (ascii "#EXTM3U\n \t\nsegment1.ts") exampleBase [] _ none
      (by decide) 1 (ascii " \t") (by decide)).2.2 (by decide)⟩

/-- C14 as stated fails: in the playlist `"#EXTM3U\r\n\r\nsegment1.ts"` the
second line is a lone carriage return, which is white space only; the second
line of the output is empty. -/
theorem blank_lines_counterexample :
    (splitLines (ascii "#EXTM3U\r\n\r\nsegment1.ts"))[1]? = some (ascii "\r")
    ∧ strings.TrimSpaceIsEmpty (ascii "\r") = true
    ∧ processM3U8Content rfc3986.net (ascii "#EXTM3U\r\n\r\nsegment1.ts") exampleBase []
      = some (ascii "#EXTM3U\n\n/anime/aHR0cHM6Ly9jZG4uZXhhbXBsZS92aWRlb3Mvc2VnbWVudDEudHM=", none)
    ∧ (splitLines (ascii "#EXTM3U\n\n/anime/aHR0cHM6Ly9jZG4uZXhhbXBsZS92aWRlb3Mvc2VnbWVudDEudHM="))[1]?
      = some []
    ∧ ([] : GoString) ≠ ascii "\r" := by
  decide

/-! ## Resolution failure (C15) -/

section Failure

variable {URL : Type} (net : NetURL URL)

/-- The loop body returns a line that is not a directive and does not resolve
as it is. -/
theorem processLine_unresolved (L : GoString) (baseURL : URL) (originalHeaders : GoString)
    (hhash : strings.HasPrefix L (ascii "#") = false)
    (hres : net.ParseRef baseURL L = none) :
    processLine net L baseURL originalHeaders = some L := by
  unfold processLine
  rw [if_neg (by simp [hhash])]
  split
  · rw [processURL_eq, hres]
    simp
  · rfl

/-- C15. Resolution failure is not fatal: for a text `ref` that fails to
resolve against the base URL, `processURL` returns `ref` unchanged; a
playlist in which `ref` is a scanned resource-reference line has `ref` at the
same position of its output, and the error `processM3U8Content` returns is
the scanner's; `processM3U8Content` returns whenever no scanned line is a
`#EXT-X-KEY` or `#EXT-X-MAP` line with an unterminated `URI="`; and a line
whose quoted `URI` value is `ref` is returned unmodified by
`processSpecialTag`. -/
theorem resolution_failure_non_fatal (baseURL : URL) (originalHeaders ref : GoString)
    (hres : net.ParseRef baseURL ref = none) :
    processURL net ref baseURL originalHeaders = ref
    ∧ (∀ (content out : GoString) (err : Option bufio.Error) (i : Nat),
        processM3U8Content net content baseURL originalHeaders = some (out, err) →
        (bufio.scanLines content).1[i]? = some ref →
        strings.HasPrefix ref (ascii "#") = false →
        (splitLines out)[i]? = some ref ∧ err = (bufio.scanLines content).2)
    ∧ (∀ content : GoString, (∀ l ∈ (bufio.scanLines content).1, panicsOn l = false) →
        ∃ out, processM3U8Content net content baseURL originalHeaders
          = some (out, (bufio.scanLines content).2))
    ∧ (∀ pre post : GoString, ¬ ascii "URI=\"" <:+: pre ++ ascii "URI=" → (34 : Byte) ∉ ref →
        processSpecialTag net (pre ++ ascii "URI=\"" ++ ref ++ ascii "\"" ++ post) baseURL
            originalHeaders
          = some (pre ++ ascii "URI=\"" ++ ref ++ ascii "\"" ++ post)) := by
  refine ⟨?_, ?_, ?_, ?_⟩
  · rw [processURL_eq, hres]
    simp
  · intro content out err i h hL hhash
    obtain ⟨o, ho, hp⟩ := processM3U8Content_line net content baseURL originalHeaders out err
      h i ref hL
    rw [processLine_unresolved net ref baseURL originalHeaders hhash hres] at hp
    simp only [Option.some.injEq] at hp
    obtain ⟨_, _, _, _, he⟩ := processM3U8Content_lines net content baseURL originalHeaders
      out err h
    exact ⟨by rw [ho, hp], he⟩
  · intro content hl
    exact processM3U8Content_returns net content baseURL originalHeaders hl
  · intro pre post hfirst hv
    rw [processSpecialTag_quoted net baseURL originalHeaders pre ref post hfirst hv, hres]

end Failure

theorem resolution_failure_non_fatal_witness :
    rfc3986.net.ParseRef exampleBase (ascii "seg\tment.ts") = none
    ∧ processURL rfc3986.net (ascii "seg\tment.ts") exampleBase [] = ascii "seg\tment.ts"
    ∧ processM3U8Content rfc3986.net (ascii "#EXTM3U\nseg\tment.ts\nsegment2.ts") exampleBase []
      = some (ascii "#EXTM3U\nseg\tment.ts\n/anime/aHR0cHM6Ly9jZG4uZXhhbXBsZS92aWRlb3Mvc2VnbWVudDIudHM=", none)
    ∧ processSpecialTag rfc3986.net (ascii "#EXT-X-MAP:URI=\"seg\tment.ts\"") exampleBase []
      = some (ascii "#EXT-X-MAP:URI=\"seg\tment.ts\"") :=
  ⟨by decide,
    (resolution_failure_non_fatal rfc3986.net exampleBase [] (ascii "seg\tment.ts")
      (by decide)).1,
    by decide, by decide⟩

/-! ## The compiled-pattern cache (C16) -/

section Cache

variable {URL Re : Type} (net : NetURL URL) (re : Regexp Re)

theorem patterns_foldl_get (patterns : List GoString) (m : GoMap Re) (key : GoString) :
    GoMap.get (patterns.foldl
        (fun m pattern =>
          match re.Compile pattern with
          | some r => (pattern, r) :: m
          | none => m) m) key
      = if key ∈ patterns ∧ (re.Compile key).isSome = true then re.Compile key
        else GoMap.get m key := by
  induction patterns generalizing m with
  | nil => simp
  | cons p rest ih =>
    rw [List.foldl_cons, ih]
    by_cases h1 : key ∈ rest ∧ (re.Compile key).isSome = true
    · rw [if_pos h1, if_pos ⟨List.mem_cons_of_mem _ h1.1, h1.2⟩]
    · rw [if_neg h1]
      cases hc : re.Compile p with
      | none =>
        simp only []
        by_cases h2 : key = p
        · subst h2
          rw [if_neg (by simp [hc])]
        · rw [if_neg]
          rintro ⟨hm, hs⟩
          rcases List.mem_cons.mp hm with e | e
          · exact h2 e
          · exact h1 ⟨e, hs⟩
      | some r =>
        simp only []
        rw [GoMap.get_cons]
        by_cases h2 : key = p
        · subst h2
          rw [if_pos rfl, if_pos ⟨List.mem_cons_self _ _, by simp [hc]⟩, hc]
        · rw [if_neg h2, if_neg]
          rintro ⟨hm, hs⟩
          rcases List.mem_cons.mp hm with e | e
          · exact h2 e
          · exact h1 ⟨e, hs⟩

theorem templates_foldl_get (templates : List DomainTemplate) (m : GoMap Re) (key : GoString) :
    GoMap.get (templates.foldl
        (fun m template =>
          template.Patterns.foldl
            (fun m pattern =>
              match re.Compile pattern with
              | some r => (pattern, r) :: m
              | none => m) m) m) key
      = if (∃ t ∈ templates, key ∈ t.Patterns) ∧ (re.Compile key).isSome = true then
          re.Compile key
        else GoMap.get m key := by
  induction templates generalizing m with
  | nil => simp
  | cons t rest ih =>
    rw [List.foldl_cons, ih, patterns_foldl_get]
    by_cases hs : (re.Compile key).isSome = true
    · by_cases h1 : ∃ t ∈ rest, key ∈ t.Patterns
      · rw [if_pos ⟨h1, hs⟩, if_pos]
        obtain ⟨t2, ht2, hk⟩ := h1
        exact ⟨⟨t2, List.mem_cons_of_mem _ ht2, hk⟩, hs⟩
      · rw [if_neg (fun h => h1 h.1)]
        by_cases h2 : key ∈ t.Patterns
        · rw [if_pos ⟨h2, hs⟩, if_pos ⟨⟨t, List.mem_cons_self _ _, h2⟩, hs⟩]
        · rw [if_neg (fun h => h2 h.1), if_neg]
          rintro ⟨⟨t2, ht2, hk⟩, _⟩
          rcases List.mem_cons.mp ht2 with e | e
          · subst e; exact h2 hk
          · exact h1 ⟨t2, e, hk⟩
    · rw [if_neg (fun h => hs h.2), if_neg (fun h => hs h.2), if_neg (fun h => hs h.2)]

/-- The cache built at startup binds a string exactly when it is a pattern
of the configuration that compiles, and binds it to its compiled expression. -/
theorem initCompiledPatterns_get (config : Config) (pattern : GoString) (r : Re) :
    GoMap.get (initCompiledPatterns re config) pattern = some r
      ↔ (∃ t ∈ config.DomainTemplates, pattern ∈ t.Patterns) ∧ re.Compile pattern = some r := by
  unfold initCompiledPatterns
  rw [templates_foldl_get]
  constructor
  · intro h
    split at h
    · rename_i hc
      exact ⟨hc.1, h⟩
    · simp [GoMap.get] at h
  · rintro ⟨h1, h2⟩
    rw [if_pos ⟨h1, by simp [h2]⟩, h2]

/-- With the cache built at startup, a configured template has a cached
pattern that matches exactly when it has a pattern that compiles and matches:
the patterns that do not compile are passed over. -/
theorem templateMatches_init (config : Config) (hostname : GoString) (t : DomainTemplate)
    (ht : t ∈ config.DomainTemplates) :
    templateMatches re (initCompiledPatterns re config) hostname t
      ↔ compilesAndMatches re hostname t := by
  unfold templateMatches compilesAndMatches
  constructor
  · rintro ⟨p, hp, r, hr, hm⟩
    exact ⟨p, hp, r, ((initCompiledPatterns_get re config p r).mp hr).2, hm⟩
  · rintro ⟨p, hp, r, hr, hm⟩
    exact ⟨p, hp, r, (initCompiledPatterns_get re config p r).mpr ⟨⟨t, ht, hp⟩, hr⟩, hm⟩

/-- C16. Patterns that do not compile are skipped: for every configuration,
the cache built at startup binds exactly the configured patterns that
compile, each to its compiled expression; and for every target URL that
parses, `findMatchingTemplate` with that cache returns the first configured
template that has a pattern which compiles and matches the hostname,
whatever patterns that do not compile stand before it, and returns `nil`
exactly when no template has such a pattern. -/
theorem uncompilable_patterns_skipped (config : Config) (urlStr : GoString) (parsedURL : URL)
    (hparse : net.Parse urlStr = some parsedURL) :
    (∀ pattern r, GoMap.get (initCompiledPatterns re config) pattern = some r
      ↔ (∃ t ∈ config.DomainTemplates, pattern ∈ t.Patterns) ∧ re.Compile pattern = some r)
    ∧ (∀ pattern, GoMap.get (initCompiledPatterns re config) pattern = none
      ↔ ¬ ((∃ t ∈ config.DomainTemplates, pattern ∈ t.Patterns)
          ∧ (re.Compile pattern).isSome = true))
    ∧ (∀ t, findMatchingTemplate net re config (initCompiledPatterns re config) urlStr = some t
      ↔ ∃ i, config.DomainTemplates[i]? = some t
          ∧ compilesAndMatches re (net.Hostname parsedURL) t
          ∧ ∀ j : Nat, j < i → ∀ t2, config.DomainTemplates[j]? = some t2 →
              ¬ compilesAndMatches re (net.Hostname parsedURL) t2)
    ∧ (findMatchingTemplate net re config (initCompiledPatterns re config) urlStr = none
      ↔ ∀ t ∈ config.DomainTemplates, ¬ compilesAndMatches re (net.Hostname parsedURL) t) := by
  have e : findMatchingTemplate net re config (initCompiledPatterns re config) urlStr
      = matchTemplates re (initCompiledPatterns re config) (net.Hostname parsedURL)
          config.DomainTemplates := by
    unfold findMatchingTemplate
    rw [hparse]
  refine ⟨initCompiledPatterns_get re config, ?_, ?_, ?_⟩
  · intro pattern
    unfold initCompiledPatterns
    rw [templates_foldl_get]
    constructor
    · intro h hc
      rw [if_pos hc] at h
      rw [h] at hc
      simp at hc
    · intro h
      rw [if_neg h]
      rfl
  · intro t
    rw [e, matchTemplates_eq_some_iff]
    constructor
    · rintro ⟨i, hi, hm, hfirst⟩
      refine ⟨i, hi, (templateMatches_init re config _ t (List.getElem?_mem hi)).mp hm, ?_⟩
      intro j hj t2 hj2 hc
      exact hfirst j hj t2 hj2
        ((templateMatches_init re config _ t2 (List.getElem?_mem hj2)).mpr hc)
    · rintro ⟨i, hi, hm, hfirst⟩
      refine ⟨i, hi, (templateMatches_init re config _ t (List.getElem?_mem hi)).mpr hm, ?_⟩
      intro j hj t2 hj2 hc
      exact hfirst j hj t2 hj2
        ((templateMatches_init re config _ t2 (List.getElem?_mem hj2)).mp hc)
  · rw [e, matchTemplates_eq_none_iff]
    constructor
    · intro h t ht hc
      exact h t ht ((templateMatches_init re config _ t ht).mpr hc)
    · intro h t ht hc
      exact h t ht ((templateMatches_init re config _ t ht).mp hc)

end Cache

theorem uncompilable_patterns_skipped_witness :
    rfc3986.net.Parse (ascii "https://cdn.example/videos/stream.m3u8") = some exampleBase
    ∧ literal.re.Compile (ascii "(") = none
    ∧ initCompiledPatterns literal.re exampleBrokenConfig
      = [(ascii "example", ascii "example"), (ascii "cdn", ascii "cdn")]
    ∧ findMatchingTemplate rfc3986.net literal.re exampleBrokenConfig
        (initCompiledPatterns literal.re exampleBrokenConfig)
        (ascii "https://cdn.example/videos/stream.m3u8") = some exampleBroken
    ∧ (GoMap.get (initCompiledPatterns literal.re exampleBrokenConfig) (ascii "(") = none
      ↔ ¬ ((∃ t ∈ exampleBrokenConfig.DomainTemplates, ascii "(" ∈ t.Patterns)
          ∧ (literal.re.Compile (ascii "(")).isSome = true)) :=
  ⟨by decide, by decide, by decide, by decide,
    (uncompilable_patterns_skipped rfc3986.net literal.re exampleBrokenConfig
      (ascii "https://cdn.example/videos/stream.m3u8") exampleBase (by decide)).2.1 (ascii "(")⟩

/-! ## The alphabet of a token (C17) -/

set_option maxRecDepth 100000 in
theorem isBase64URLChar_of_isTokenByte (c : Byte) (h : base64.isTokenByte c) :
    isBase64URLChar c := by
  have key : ∀ x ∈ base64.padChar :: base64.encodeURL, isBase64URLChar x := by decide
  apply key
  rcases h with h | h
  · exact List.mem_cons_of_mem _ h
  · rw [h]; exact List.mem_cons_self _ _

theorem isQueryEscapedChar_of_QueryEscape (h : GoString) :
    ∀ c ∈ url.QueryEscape h, isQueryEscapedChar c := by
  intro c hc
  unfold isQueryEscapedChar
  rcases url.QueryEscape_bytes h c hc with e | e | e
  · unfold url.shouldEscape at e
    split at e
    · rename_i h1
      rcases h1 with h1 | h1 | h1
      · exact Or.inr (Or.inl h1)
      · exact Or.inl h1
      · exact Or.inr (Or.inr (Or.inl h1))
    · split at e
      · rename_i h2
        rcases h2 with h2 | h2 | h2 | h2
        · exact Or.inr (Or.inr (Or.inr (Or.inl h2)))
        · exact Or.inr (Or.inr (Or.inr (Or.inr (Or.inl h2))))
        · exact Or.inr (Or.inr (Or.inr (Or.inr (Or.inr (Or.inl h2)))))
        · exact Or.inr (Or.inr (Or.inr (Or.inr (Or.inr (Or.inr (Or.inl h2))))))
      · simp at e
  · exact Or.inr (Or.inr (Or.inr (Or.inr (Or.inr (Or.inr (Or.inr (Or.inl e)))))))
  · exact Or.inr (Or.inr (Or.inr (Or.inr (Or.inr (Or.inr (Or.inr (Or.inr e)))))))

set_option maxRecDepth 100000 in
/-- A token holds no double quote, no newline and no space. -/
theorem token_no_quote_newline_space (u h : GoString) :
    ∀ c ∈ token u h, c ≠ 34 ∧ c ≠ 10 ∧ c ≠ 32 := by
  intro c hc
  rw [token_eq] at hc
  rcases List.mem_append.mp hc with m | m
  · rcases List.mem_append.mp m with m | m
    · have key : ∀ x ∈ ascii "/anime/", x ≠ 34 ∧ x ≠ 10 ∧ x ≠ 32 := by decide
      exact key c m
    · have := base64.isTokenByte_plain c (base64.EncodeToString_bytes u c m)
      exact ⟨this.2.2.1, this.2.2.2.1, this.2.2.2.2.1⟩
  · split at m
    · rcases List.mem_append.mp m with m | m
      · have := headersKey_plain c m
        exact ⟨this.2.1, this.1, this.2.2⟩
      · have := url.QueryEscape_plain h c m
        exact ⟨this.2.1, this.1, this.2.2⟩
    · simp at m

section Alphabet

variable {URL : Type} (net : NetURL URL)

/-- C17. Token alphabet: for every URL `u` and every headers blob `h`, the
token that `processURL` returns and `processSpecialTag` splices in is
`/anime/`, then characters of padded URL-safe base64 only, then nothing or
`?headers=` and query-escaped characters only; it holds no double quote, no
newline and no space; so in a rewritten directive the first double quote
after the opening one is the closing quote right after the token, the token
is a single line, and no line the loop body returns for a line without
newline holds a newline. -/
theorem token_alphabet (u h : GoString) :
    token u h = ascii "/anime/" ++ base64.EncodeToString u
        ++ (if h ≠ [] then ascii "?headers=" ++ url.QueryEscape h else [])
    ∧ (∀ c ∈ base64.EncodeToString u, isBase64URLChar c)
    ∧ (∀ c ∈ url.QueryEscape h, isQueryEscapedChar c)
    ∧ (∀ c ∈ token u h, c ≠ 34 ∧ c ≠ 10 ∧ c ≠ 32)
    ∧ (∀ post : GoString,
        strings.Index (token u h ++ ascii "\"" ++ post) (ascii "\"") = ((token u h).length : Int))
    ∧ splitLines (token u h) = [token u h]
    ∧ (∀ (baseURL : URL) (urlStr : GoString) (R : URL), urlStr ≠ [] →
        net.ParseRef baseURL urlStr = some R → net.String R = u →
        processURL net urlStr baseURL h = token u h
        ∧ ∀ pre post : GoString, ¬ ascii "URI=\"" <:+: pre ++ ascii "URI=" →
            (34 : Byte) ∉ urlStr →
            processSpecialTag net (pre ++ ascii "URI=\"" ++ urlStr ++ ascii "\"" ++ post)
                baseURL h
              = some (pre ++ ascii "URI=\"" ++ token u h ++ ascii "\"" ++ post))
    ∧ (∀ (baseURL : URL) (line out : GoString), (10 : Byte) ∉ line →
        processLine net line baseURL h = some out → splitLines out = [out]) := by
  have hplain := token_no_quote_newline_space u h
  refine ⟨token_eq u h, ?_, isQueryEscapedChar_of_QueryEscape h, hplain, ?_, ?_, ?_, ?_⟩
  · intro c hc
    exact isBase64URLChar_of_isTokenByte c (base64.EncodeToString_bytes u c hc)
  · intro post
    have hq : ascii "\"" = [(34 : Byte)] := by decide
    rw [hq]
    apply strings.Index_first [(34 : Byte)] (token u h) post (by simp)
    simp only [List.dropLast_single, List.append_nil]
    intro hin
    exact (hplain 34 (List.singleton_sublist.mp hin.sublist)).1 rfl
  · exact splitLines_plain _ (fun m => (hplain 10 m).2.1 rfl)
  · intro baseURL urlStr R hne hres hu
    subst hu
    constructor
    · rw [processURL_eq]; simp [hne, hres]
    · intro pre post hfirst hv
      exact processSpecialTag_splice net baseURL h pre urlStr post R hfirst hv hres
  · intro baseURL line out hl hp
    exact splitLines_plain _ (processLine_no_newline net line baseURL h out hp hl)

end Alphabet

theorem token_alphabet_witness :
    token (ascii "https://cdn.example/videos/key.bin?a=\"b c\"") (ascii "x: \"y\"\n")
      = ascii "/anime/aHR0cHM6Ly9jZG4uZXhhbXBsZS92aWRlb3Mva2V5LmJpbj9hPSJiIGMi?headers=x%3A+%22y%22%0A"
    ∧ ∀ c ∈ token (ascii "https://cdn.example/videos/key.bin?a=\"b c\"") (ascii "x: \"y\"\n"),
        c ≠ 34 ∧ c ≠ 10 ∧ c ≠ 32 :=
  ⟨by decide,
    (token_alphabet rfc3986.net (ascii "https://cdn.example/videos/key.bin?a=\"b c\"")
      (ascii "x: \"y\"\n")).2.2.2.1⟩

/-! ## Lower case (for C12) -/

namespace strings

theorem lowerASCII_lt (c : Byte) : (lowerASCII c).val < 0x80 ↔ c.val < 0x80 := by
  have hc := c.isLt
  unfold lowerASCII
  split
  · rename_i h
    simp only [Fin.ofNat]
    constructor <;> intro _ <;> omega
  · rfl

theorem lowerASCII_idem (c : Byte) : lowerASCII (lowerASCII c) = lowerASCII c := by
  have hc := c.isLt
  by_cases h : 65 ≤ c.val ∧ c.val ≤ 90
  · have h2 : ¬ (65 ≤ (Fin.ofNat (c.val + 32) : Byte).val
        ∧ (Fin.ofNat (c.val + 32) : Byte).val ≤ 90) := by
      simp only [Fin.ofNat]
      omega
    simp only [lowerASCII, h, and_self, if_true, h2, if_false]
  · simp only [lowerASCII, h, if_false]

theorem foldASCII_idem (s : GoString) : foldASCII (foldASCII s) = foldASCII s := by
  unfold foldASCII
  rw [List.map_map]
  apply List.map_congr_left
  intro c _
  exact lowerASCII_idem c

theorem isASCII_foldASCII (s : GoString) : isASCII (foldASCII s) ↔ isASCII s := by
  unfold isASCII foldASCII
  constructor
  · intro h c hc
    exact (lowerASCII_lt c).mp (h _ (List.mem_map_of_mem _ hc))
  · intro h c hc
    obtain ⟨d, hd, e⟩ := List.mem_map.mp hc
    rw [← e]
    exact (lowerASCII_lt d).mpr (h d hd)

/-- On a string of ASCII bytes `ToLower` lowers the ASCII letters. -/
theorem ToLower_ascii (caseTable : Nat → Nat) (s : GoString) (h : isASCII s) :
    ToLower caseTable s = foldASCII s := by
  unfold ToLower
  rw [if_pos (by simpa [isASCII] using h)]
  split
  · rfl
  · rename_i hn
    unfold foldASCII
    simp only [List.any_eq_true, decide_eq_true_eq, not_exists, not_and] at hn
    symm
    conv_rhs => rw [← List.map_id s]
    apply List.map_congr_left
    intro c hc
    unfold lowerASCII
    rw [if_neg (fun h => hn c hc h.1 h.2)]
    rfl

theorem encode_lower_ascii (caseTable : Nat → Nat) (c : Byte) (hc : c.val < 0x80) :
    utf8.EncodeRune (unicode.ToLower caseTable c.val) = [lowerASCII c] := by
  have hr : unicode.ToLower caseTable c.val = (lowerASCII c).val := by
    unfold unicode.ToLower lowerASCII
    rw [if_pos (by omega)]
    split
    · simp only [Fin.ofNat]
      omega
    · rfl
  have hl := (lowerASCII_lt c).mpr hc
  rw [hr]
  unfold utf8.EncodeRune
  rw [if_pos (by omega)]
  congr 1
  apply Fin.ext
  simp only [Fin.ofNat]
  omega

theorem mapFrom_ascii_cons (caseTable : Nat → Nat) (c : Byte) (rest : GoString)
    (hc : c.val < 0x80) :
    mapFrom (unicode.ToLower caseTable) 0 (c :: rest)
      = lowerASCII c :: mapFrom (unicode.ToLower caseTable) 0 rest := by
  have hd : utf8.DecodeRune (c :: rest) = (c.val, 1) := by
    rw [utf8.DecodeRune, if_pos hc]
  rw [mapFrom, hd, encode_lower_ascii caseTable c hc]
  rfl

/-- A run of ASCII bytes is lowered byte by byte, whatever follows it. -/
theorem mapFrom_ascii_append (caseTable : Nat → Nat) (X rest : GoString) (hX : isASCII X) :
    mapFrom (unicode.ToLower caseTable) 0 (X ++ rest)
      = foldASCII X ++ mapFrom (unicode.ToLower caseTable) 0 rest := by
  induction X with
  | nil => rfl
  | cons c X ih =>
    rw [List.cons_append, mapFrom_ascii_cons caseTable c _ (hX c (List.mem_cons_self _ _)),
      ih (fun d hd => hX d (List.mem_cons_of_mem _ hd))]
    rfl

end strings

namespace utf8

/-- The width of a decoded rune is 1, or it is 2, 3 or 4 and the bytes after
the first are continuation bytes, none of them ASCII. -/
theorem DecodeRune_width (s0 : Byte) (rest : GoString) :
    (DecodeRune (s0 :: rest)).2 = 1
    ∨ ((DecodeRune (s0 :: rest)).2 = 2 ∧ ∃ s1 r1, rest = s1 :: r1 ∧ 0x80 ≤ s1.val)
    ∨ ((DecodeRune (s0 :: rest)).2 = 3
        ∧ ∃ s1 s2 r2, rest = s1 :: s2 :: r2 ∧ 0x80 ≤ s1.val ∧ 0x80 ≤ s2.val)
    ∨ ((DecodeRune (s0 :: rest)).2 = 4
        ∧ ∃ s1 s2 s3 r3, rest = s1 :: s2 :: s3 :: r3 ∧ 0x80 ≤ s1.val ∧ 0x80 ≤ s2.val
          ∧ 0x80 ≤ s3.val) := by
  by_cases h0 : s0.val < 0x80
  · left; simp only [DecodeRune, h0, if_true]
  by_cases h1 : s0.val < 0xC2 ∨ 0xF5 ≤ s0.val
  · left; simp only [DecodeRune, h0, h1, if_true, if_false]
  cases rest with
  | nil => left; simp only [DecodeRune, h0, h1, if_false]
  | cons s1 rest1 =>
    have hlo : 0x80 ≤ (if s0.val = 0xE0 then 0xA0 else if s0.val = 0xF0 then 0x90 else 0x80) := by
      split_ifs <;> omega
    by_cases h2 : s1.val < (if s0.val = 0xE0 then 0xA0 else if s0.val = 0xF0 then 0x90 else 0x80)
        ∨ (if s0.val = 0xED then 0x9F else if s0.val = 0xF4 then 0x8F else 0xBF) < s1.val
    · left; simp only [DecodeRune, h0, h1, h2, if_true, if_false]
    have hs1 : 0x80 ≤ s1.val := by
      simp only [not_or, not_lt] at h2
      omega
    by_cases h3 : (if s0.val < 0xE0 then 2 else if s0.val < 0xF0 then 3 else 4) ≤ 2
    · right; left
      refine ⟨?_, s1, rest1, rfl, hs1⟩
      simp only [DecodeRune, h0, h1, h2, h3, if_true, if_false]
    cases rest1 with
    | nil => left; simp only [DecodeRune, h0, h1, h2, h3, if_false]
    | cons s2 rest2 =>
      by_cases h4 : s2.val < 0x80 ∨ 0xBF < s2.val
      · left; simp only [DecodeRune, h0, h1, h2, h3, h4, if_true, if_false]
      have hs2 : 0x80 ≤ s2.val := by
        simp only [not_or, not_lt] at h4
        exact h4.1
      by_cases h5 : (if s0.val < 0xE0 then 2 else if s0.val < 0xF0 then 3 else 4) ≤ 3
      · right; right; left
        refine ⟨?_, s1, s2, rest2, rfl, hs1, hs2⟩
        simp only [DecodeRune, h0, h1, h2, h3, h4, h5, if_true, if_false]
      cases rest2 with
      | nil => left; simp only [DecodeRune, h0, h1, h2, h3, h4, h5, if_false]
      | cons s3 rest3 =>
        by_cases h6 : s3.val < 0x80 ∨ 0xBF < s3.val
        · left; simp only [DecodeRune, h0, h1, h2, h3, h4, h5, h6, if_true, if_false]
        have hs3 : 0x80 ≤ s3.val := by
          simp only [not_or, not_lt] at h6
          exact h6.1
        right; right; right
        refine ⟨?_, s1, s2, s3, rest3, rfl, hs1, hs2, hs3⟩
        simp only [DecodeRune, h0, h1, h2, h3, h4, h5, h6, if_false]

/-- The bytes that a decoded rune spans after its first byte are there, and
none of them is an ASCII byte. -/
theorem DecodeRune_continuation (s0 : Byte) (rest : GoString) (i : Nat)
    (hi : i < (DecodeRune (s0 :: rest)).2 - 1) :
    ∃ b, rest[i]? = some b ∧ 0x80 ≤ b.val := by
  rcases DecodeRune_width s0 rest with h | ⟨h, s1, r1, e, h1⟩ | ⟨h, s1, s2, r2, e, h1, h2⟩
    | ⟨h, s1, s2, s3, r3, e, h1, h2, h3⟩
  · rw [h] at hi
    omega
  · rw [h] at hi
    subst e
    rcases i with _ | i
    · exact ⟨s1, by simp, h1⟩
    · omega
  · rw [h] at hi
    subst e
    rcases i with _ | _ | i
    · exact ⟨s1, by simp, h1⟩
    · exact ⟨s2, by simp, h2⟩
    · omega
  · rw [h] at hi
    subst e
    rcases i with _ | _ | _ | i
    · exact ⟨s1, by simp, h1⟩
    · exact ⟨s2, by simp, h2⟩
    · exact ⟨s3, by simp, h3⟩
    · omega

end utf8

namespace strings

/-- The loop of `strings.Map` reads a rune at every ASCII byte: no rune that
starts before an ASCII byte spans it. -/
theorem mapFrom_skip_prefix (mapping : Nat → Nat) (c : Byte) (rest : GoString)
    (hc : c.val < 0x80) (pre : GoString) :
    ∀ skip : Nat,
      (∀ i : Nat, i < skip → ∃ b, (pre ++ c :: rest)[i]? = some b ∧ 0x80 ≤ b.val) →
      ∃ A, mapFrom mapping skip (pre ++ c :: rest) = A ++ mapFrom mapping 0 (c :: rest) := by
  induction pre with
  | nil =>
    intro skip h
    cases skip with
    | zero => exact ⟨[], rfl⟩
    | succ k =>
      obtain ⟨b, hb, hb2⟩ := h 0 (Nat.succ_pos k)
      simp only [List.nil_append, List.getElem?_cons_zero, Option.some.injEq] at hb
      subst hb
      omega
  | cons p pre ih =>
    intro skip h
    cases skip with
    | zero =>
      rw [List.cons_append, mapFrom]
      obtain ⟨A, hA⟩ := ih _
        (fun i hi => utf8.DecodeRune_continuation p (pre ++ c :: rest) i hi)
      rw [hA]
      exact ⟨_ ++ A, (List.append_assoc _ _ _).symm⟩
    | succ k =>
      rw [List.cons_append, mapFrom]
      apply ih k
      intro i hi
      have := h (i + 1) (by omega)
      simpa using this

/-- An ASCII string found in the ASCII-lowered `s` is found in
`strings.ToLower s`, and at its end when it was at the end. -/
theorem ToLower_split (caseTable : Nat → Nat) (s t a b : GoString)
    (ht : isASCII t) (hne : t ≠ []) (e : foldASCII s = a ++ t ++ b) :
    ∃ A B, ToLower caseTable s = A ++ t ++ B ∧ (b = [] → B = []) := by
  by_cases hs : isASCII s
  · exact ⟨a, b, by rw [ToLower_ascii caseTable s hs, e], fun h => h⟩
  · unfold foldASCII at e
    obtain ⟨sab, sb, e1, e2, e3⟩ := List.map_eq_append_iff.mp e
    obtain ⟨sa, X, e4, e5, e6⟩ := List.map_eq_append_iff.mp e2
    have hX : isASCII X := (isASCII_foldASCII X).mp (by unfold foldASCII; rw [e6]; exact ht)
    cases X with
    | nil => exact absurd e6.symm hne
    | cons c X1 =>
      have hc : c.val < 0x80 := hX c (List.mem_cons_self _ _)
      unfold ToLower
      rw [if_neg (by simpa [isASCII] using hs)]
      unfold Map
      obtain ⟨A, hA⟩ := mapFrom_skip_prefix (unicode.ToLower caseTable) c (X1 ++ sb) hc sa 0
        (fun i hi => absurd hi (Nat.not_lt_zero i))
      have hfold : foldASCII (c :: X1) = t := e6
      refine ⟨A, mapFrom (unicode.ToLower caseTable) 0 sb, ?_, ?_⟩
      · rw [e1, e4, List.append_assoc, List.cons_append, hA, ← List.cons_append,
          mapFrom_ascii_append caseTable (c :: X1) sb hX, hfold, List.append_assoc]
      · intro hb
        rw [hb] at e3
        rw [List.map_eq_nil_iff.mp e3]
        rfl

theorem ToLower_infix (caseTable : Nat → Nat) (s t : GoString)
    (ht : isASCII t) (hne : t ≠ []) (h : t <:+: foldASCII s) :
    t <:+: ToLower caseTable s := by
  obtain ⟨a, b, e⟩ := h
  obtain ⟨A, B, hAB, _⟩ := ToLower_split caseTable s t a b ht hne e.symm
  exact ⟨A, B, hAB.symm⟩

theorem ToLower_suffix (caseTable : Nat → Nat) (s t : GoString)
    (ht : isASCII t) (hne : t ≠ []) (h : t <:+ foldASCII s) :
    t <:+ ToLower caseTable s := by
  obtain ⟨a, e⟩ := h
  obtain ⟨A, B, hAB, hB⟩ := ToLower_split caseTable s t a [] ht hne
    (by rw [List.append_nil]; exact e.symm)
  refine ⟨A, ?_⟩
  rw [hAB, hB rfl, List.append_nil]

/-- The search of `strings.Index` finds an instance that is there. -/
theorem indexFrom_found (substr s : GoString) (i : Nat) (h : substr <:+: s) :
    0 ≤ indexFrom substr s i := by
  induction s generalizing i with
  | nil =>
    rw [indexFrom, if_pos (List.infix_nil.mp h)]
    exact Int.ofNat_nonneg i
  | cons c rest ih =>
    rw [indexFrom]
    split
    · exact Int.ofNat_nonneg i
    · rename_i hp
      rcases List.infix_cons_iff.mp h with hpre | hin
      · exact absurd (List.isPrefixOf_iff_prefix.mpr hpre) hp
      · exact ih (i + 1) hin

/-- `strings.Contains` with a non-empty `substr` is the infix relation. -/
theorem Contains_iff_infix (s substr : GoString) (hsub : substr ≠ []) :
    Contains s substr = true ↔ substr <:+: s := by
  unfold Contains Index
  constructor
  · intro h
    by_contra hn
    rw [indexFrom_absent substr s 0 hsub hn] at h
    simp at h
  · intro h
    simpa using indexFrom_found substr s 0 h

end strings

set_option maxRecDepth 100000 in
/-- The extension `.m3u8` and the eight playlist types are non-empty strings
of ASCII bytes without an upper-case letter. -/
theorem m3u8Types_lower :
    ∀ t ∈ ascii ".m3u8" :: m3u8Types, foldASCII t = t ∧ isASCII t ∧ t ≠ [] := by
  decide

/-- A string that contains a playlist type, up to the case of ASCII letters,
is classified as a playlist. -/
theorem isM3U8_of_contains (caseTable : Nat → Nat) (s t : GoString) (ht : t ∈ m3u8Types)
    (h : containsFold s t) : isM3U8 caseTable s = true := by
  obtain ⟨hf, ha, hne⟩ := m3u8Types_lower t (List.mem_cons_of_mem _ ht)
  unfold containsFold at h
  rw [hf] at h
  have hc : strings.Contains (strings.ToLower caseTable s) t = true :=
    (strings.Contains_iff_infix _ _ hne).mpr (strings.ToLower_infix caseTable s t ha hne h)
  simp only [isM3U8]
  rw [if_pos (List.any_eq_true.mpr ⟨t, ht, hc⟩)]

/-- A string that ends in `.m3u8`, up to the case of ASCII letters, is
classified as a playlist. -/
theorem isM3U8_of_suffix (caseTable : Nat → Nat) (s : GoString)
    (h : endsFold s (ascii ".m3u8")) : isM3U8 caseTable s = true := by
  obtain ⟨hf, ha, hne⟩ := m3u8Types_lower (ascii ".m3u8") (List.mem_cons_self _ _)
  unfold endsFold at h
  rw [hf] at h
  have h1 := strings.ToLower_suffix caseTable s _ ha hne h
  have h2 : ascii ".m3u8" <:+ foldASCII (strings.ToLower caseTable s) := by
    obtain ⟨A, e⟩ := h1
    refine ⟨foldASCII A, ?_⟩
    rw [← e]
    unfold foldASCII at hf ⊢
    rw [List.map_append, hf]
  have h3 := strings.ToLower_suffix caseTable _ _ ha hne h2
  simp only [isM3U8]
  split
  · rfl
  · unfold strings.HasSuffix
    exact List.isSuffixOf_iff_suffix.mpr h3

/-- A string of ASCII bytes that neither contains a playlist type nor ends in
`.m3u8`, up to the case of ASCII letters, is not classified as a playlist. -/
theorem isM3U8_ascii (caseTable : Nat → Nat) (s : GoString) (hs : isASCII s)
    (hc : ¬ ∃ t ∈ m3u8Types, containsFold s t) (he : ¬ endsFold s (ascii ".m3u8")) :
    isM3U8 caseTable s = false := by
  have hl : strings.ToLower caseTable s = foldASCII s := strings.ToLower_ascii caseTable s hs
  have hl2 : strings.ToLower caseTable (foldASCII s) = foldASCII s := by
    rw [strings.ToLower_ascii caseTable _ ((strings.isASCII_foldASCII s).mpr hs),
      strings.foldASCII_idem]
  simp only [isM3U8]
  rw [hl, hl2, if_neg]
  · unfold strings.HasSuffix
    rw [Bool.eq_false_iff]
    intro h
    apply he
    unfold endsFold
    rw [(m3u8Types_lower _ (List.mem_cons_self _ _)).1]
    exact List.isSuffixOf_iff_suffix.mp h
  · intro h
    obtain ⟨t, ht, hct⟩ := List.any_eq_true.mp h
    obtain ⟨hf, _, hne⟩ := m3u8Types_lower t (List.mem_cons_of_mem _ ht)
    apply hc
    refine ⟨t, ht, ?_⟩
    unfold containsFold
    rw [hf]
    exact (strings.Contains_iff_infix _ _ hne).mp hct

set_option maxRecDepth 100000 in
/-- C12, as amended. Whatever the case tables of package `unicode` are,
`isM3U8` returns true for every content-type string that contains one of the
eight playlist types up to the case of ASCII letters, and for every string
that ends in `.m3u8` up to the case of ASCII letters; it returns false for
every string of ASCII bytes that does neither, and so for `video/mp4`. -/
theorem classifier_correct (caseTable : Nat → Nat) (s : GoString) :
    ((∃ t ∈ m3u8Types, containsFold s t) → isM3U8 caseTable s = true)
    ∧ (endsFold s (ascii ".m3u8") → isM3U8 caseTable s = true)
    ∧ (isASCII s → (¬ ∃ t ∈ m3u8Types, containsFold s t) → ¬ endsFold s (ascii ".m3u8") →
        isM3U8 caseTable s = false)
    ∧ isM3U8 caseTable (ascii "video/mp4") = false :=
  ⟨fun ⟨t, ht, h⟩ => isM3U8_of_contains caseTable s t ht h,
    isM3U8_of_suffix caseTable s,
    isM3U8_ascii caseTable s,
    isM3U8_ascii caseTable (ascii "video/mp4") (by decide) (by decide) (by decide)⟩

set_option maxRecDepth 100000 in
theorem classifier_correct_witness :
    (∃ t ∈ m3u8Types, containsFold (ascii "Application/X-MPEGURL; charset=utf-8") t)
    ∧ isM3U8 exampleCaseTable (ascii "Application/X-MPEGURL; charset=utf-8") = true
    ∧ endsFold (ascii "playlist.M3U8") (ascii ".m3u8")
    ∧ isM3U8 exampleCaseTable (ascii "playlist.M3U8") = true
    ∧ isASCII (ascii "text/html")
    ∧ isM3U8 exampleCaseTable (ascii "text/html") = false :=
  ⟨by decide,
    (classifier_correct exampleCaseTable (ascii "Application/X-MPEGURL; charset=utf-8")).1
      (by decide),
    by decide,
    (classifier_correct exampleCaseTable (ascii "playlist.M3U8")).2.1 (by decide),
    by decide,
    (classifier_correct exampleCaseTable (ascii "text/html")).2.2.1
      (by decide) (by decide) (by decide)⟩

set_option maxRecDepth 100000 in
/-- C12 as stated fails: the string `audİo/mpegurl`, in which U+0130 stands
where the type has `i`, contains none of the eight types in any casing of
their letters and does not end in `.m3u8`, and `isM3U8` returns true for it,
because `strings.ToLower` maps U+0130 to `i`. -/
theorem classifier_counterexample :
    (¬ ∃ t ∈ m3u8Types, containsFold exampleDottedI t)
    ∧ ¬ endsFold exampleDottedI (ascii ".m3u8")
    ∧ strings.ToLower exampleCaseTable exampleDottedI = ascii "audio/mpegurl"
    ∧ isM3U8 exampleCaseTable exampleDottedI = true := by
  decide
end GoProxy
